import Mathlib

/-!
# MLFQ scheduler simulation (`src/main.cpp`)

A shallow embedding of the simulator: the program's global variables become the
fields of `State`, every function of the source that touches them becomes a
function on `State`, and the two `while` loops become recursions on a counter.

Conventions of the embedding.
* C++ `int` is `Int`.  The two values that grow with the length of the run, the
  clock `currentTime` and `nextBoost`, are kept in the 32-bit range by `wrapInt`
  at the statements that increase them: signed overflow is undefined in the
  source, and the compiled program wraps around.  The theorems about these two
  values carry the range hypotheses under which no overflow happens.  The other
  `int` expressions are exact: a remaining time, an allotment or `timeUsed`
  moves by 1 or by the units of a slice only between 0 and a value it already
  had, a level grows only below `hiQueue`, and the difference of the clock and
  an arrival time is taken when the job has arrived.
* `std::vector<T>` is `List T`, `std::queue<int>` is `List Int` with the front
  of the queue at the head of the list, `std::map<int, Job>` is an association
  list kept in key order by `JobMap.modify` (the image of `operator[]`).
* An out-of-range `operator[]` on a vector is undefined in the source; the
  model reads `0` (or the empty queue) there and ignores such a write.  The
  theorems carry the size hypotheses under which no such access happens.
* Console output is not modelled.
-/

namespace MLFQ

/-! ## Data model -/

/-- The record `struct Job` (main.cpp:14-25). -/
structure Job where
  id : Int
  startTime : Int
  totalTime : Int
  remainingTime : Int
  currPri : Int
  allotLeft : Int
  firstRun : Int
  responseTime : Int
  endTime : Int
  started : Bool
deriving DecidableEq, Repr

/-- A value-initialised `Job`: what `jobs[k]` creates when key `k` is absent. -/
def Job.zero : Job := ⟨0, 0, 0, 0, 0, 0, 0, 0, 0, false⟩

/-- The type `std::map<int, Job>`: entries in ascending key order. -/
abbrev JobMap := List (Int × Job)

/-- Lookup of a key (first entry carrying it). -/
def JobMap.find? : JobMap → Int → Option Job
  | [], _ => none
  | (k, j) :: rest, key => if key = k then some j else JobMap.find? rest key

/-- The value read through `jobs[key]` (a value-initialised job when absent). -/
def JobMap.get (m : JobMap) (key : Int) : Job := (JobMap.find? m key).getD Job.zero

/-- Insertion of an entry at its place in key order. -/
def JobMap.insert : JobMap → Int → Job → JobMap
  | [], key, v => [(key, v)]
  | (k, j) :: rest, key, v =>
    if key < k then (key, v) :: (k, j) :: rest else (k, j) :: JobMap.insert rest key v

/-- Update in place of the entry of a key. -/
def JobMap.update : JobMap → Int → (Job → Job) → JobMap
  | [], _, _ => []
  | (k, j) :: rest, key, f =>
    if key = k then (k, f j) :: rest else (k, j) :: JobMap.update rest key f

/-- The write `jobs[key] = f(jobs[key])`: `operator[]` finds the entry of the
key, or inserts a value-initialised one at its place in key order, and the
reference is then updated by `f`. -/
def JobMap.modify (m : JobMap) (key : Int) (f : Job → Job) : JobMap :=
  if (JobMap.find? m key).isSome then JobMap.update m key f
  else JobMap.insert m key (f Job.zero)

/-- The keys of the map, in iteration order. -/
def JobMap.keys (m : JobMap) : List Int := m.map Prod.fst

/-- The read `v[i]` of a `vector<int>` at an `int` index. -/
def vecGet (v : List Int) (i : Int) : Int :=
  if 0 ≤ i then v.getD i.toNat 0 else 0

/-- The value a 32-bit `int` holds after an addition whose exact result is `x`:
the representative of `x` modulo `2^32` in the range `-2^31 .. 2^31 - 1`. -/
def wrapInt (x : Int) : Int := (x + 2147483648) % 4294967296 - 2147483648

/-- The queue `queues[i]`. -/
def queueAt (qs : List (List Int)) (i : Nat) : List Int := qs.getD i []

/-- The call `queues[i].push(id)`. -/
def pushAt (qs : List (List Int)) (i : Nat) (id : Int) : List (List Int) :=
  qs.modify (fun q => q ++ [id]) i

/-- The call `queues[i].pop()`. -/
def popAt (qs : List (List Int)) (i : Nat) : List (List Int) :=
  qs.modify List.tail i

/-- The call `v.resize(n)` on the vector of queues. -/
def resizeQueues (qs : List (List Int)) (n : Nat) : List (List Int) :=
  qs.take n ++ List.replicate (n - qs.length) []

/-- The command-line options `struct Options` (main.cpp:39-51). -/
structure Options where
  seed : Int
  numQueues : Int
  quantumList : List Int
  allotmentList : List Int
  boostTime : Int
  jobList : List Job
deriving DecidableEq, Repr

/-- The global variables of the program (main.cpp:27-36). -/
structure State where
  hiQueue : Int
  queues : List (List Int)
  jobs : JobMap
  quantumList : List Int
  allotmentList : List Int
  boostTime : Int
  numQueues : Int
  currentTime : Int
  nextBoost : Int
deriving DecidableEq, Repr

/-- A write to job `jobId` through `jobs[jobId]` (or through the reference
`Job& job = jobs[jobId]`). -/
def State.onJob (s : State) (jobId : Int) (f : Job → Job) : State :=
  { s with jobs := s.jobs.modify jobId f }

/-! ## Selection and boost -/

/-- The function `FindQueue` (main.cpp:227-234): first level `0..hiQueue` whose
queue is not empty, `-1` when there is none. -/
def FindQueue (s : State) : Int :=
  match (List.range (s.hiQueue + 1).toNat).find? (fun q => !(queueAt s.queues q).isEmpty) with
  | some q => (q : Int)
  | none => -1

/-- One iteration of the inner `while` of `boostAllQueues` (main.cpp:242-246)
for level `q`, on a non-empty queue whose front is `jobId`. -/
def boostMove (q : Nat) (jobId : Int) (s : State) : State :=
  let s1 := { s with queues := popAt s.queues q }
  let s2 := s1.onJob jobId (fun j => { j with currPri := 0 })
  let s3 := s2.onJob jobId (fun j => { j with allotLeft := vecGet s2.allotmentList 0 })
  { s3 with queues := pushAt s3.queues 0 jobId }

/-- The inner loop `while (!queues[q].empty())` of `boostAllQueues`
(main.cpp:241-247), run for at most `n` iterations.  For `q >= 1` the loop only
shortens `queues[q]`, so `n = queues[q].size()` iterations empty it. -/
def boostDrain (q : Nat) : Nat → State → State
  | 0, s => s
  | n + 1, s =>
    match queueAt s.queues q with
    | [] => s
    | jobId :: _ => boostDrain q n (boostMove q jobId s)

/-- The function `boostAllQueues` (main.cpp:237-251): levels `1..hiQueue` in
ascending order, then `nextBoost += boostTime`. -/
def boostAllQueues (s : State) : State :=
  let s1 := (List.range' 1 s.hiQueue.toNat).foldl
    (fun st q => boostDrain q (queueAt st.queues q).length st) s
  { s1 with nextBoost := wrapInt (s1.nextBoost + s1.boostTime) }

/-- The boost check `if (currentTime == nextBoost) boostAllQueues();`
(main.cpp:266-268 and 335-337). -/
def boostCheck (s : State) : State :=
  if s.currentTime = s.nextBoost then boostAllQueues s else s

/-! ## Admission -/

/-- The update of one registry entry by the admission loop (main.cpp:272-275). -/
def admitJob (t a0 : Int) (j : Job) : Job :=
  if j.startTime = t then { j with currPri := 0, allotLeft := a0 } else j

/-- The identifiers pushed by the admission loop, in the iteration order of the map. -/
def arrivals (t : Int) (m : JobMap) : List Int :=
  (m.filter (fun p => decide (p.2.startTime = t))).map Prod.fst

/-- The admission loop `for (auto& [id, job] : jobs)` (main.cpp:271-281 and
340-350): every job whose `startTime` is the current clock is pushed on queue 0
in the iteration order of the map, with `currPri = 0` and
`allotLeft = allotmentList[0]`. -/
def admitArrivals (s : State) : State :=
  let qs := (arrivals s.currentTime s.jobs).foldl (fun qs id => pushAt qs 0 id) s.queues
  let js := s.jobs.map (fun p => (p.1, admitJob s.currentTime (vecGet s.allotmentList 0) p.2))
  { s with queues := qs, jobs := js }

/-! ## Dispatch -/

/-- The first statements of one slice unit (main.cpp:330-331):
`currentTime++; job.remainingTime--;`. -/
def tick (jobId : Int) (s : State) : State :=
  let s1 := { s with currentTime := wrapInt (s.currentTime + 1) }
  s1.onJob jobId (fun j => { j with remainingTime := j.remainingTime - 1 })

/-- The body of the slice loop up to the completion test (main.cpp:330-350):
one unit of work, the boost check and the admission of arrivals. -/
def sliceUnit (jobId : Int) (s : State) : State :=
  admitArrivals (boostCheck (tick jobId s))

/-- The statement `job.endTime = currentTime;` (main.cpp:354). -/
def finishJob (jobId : Int) (s : State) : State :=
  s.onJob jobId (fun j => { j with endTime := s.currentTime })

/-- The slice loop `while (timeUsed < timeSlice)` (main.cpp:329-358), with `n`
the number of iterations the guard still allows (`timeSlice - timeUsed`);
returns the state and `timeUsed`. -/
def sliceLoop (jobId : Int) : Nat → State → Int → State × Int
  | 0, s, timeUsed => (s, timeUsed)
  | n + 1, s, timeUsed =>
    let s1 := sliceUnit jobId s
    if (s1.jobs.get jobId).remainingTime = 0 then (finishJob jobId s1, timeUsed + 1)
    else sliceLoop jobId n s1 (timeUsed + 1)

/-- The demotion-or-refresh block entered when `job.allotLeft <= 0`
(main.cpp:369-384). -/
def demoteOrRefresh (jobId : Int) (s : State) : State :=
  if (s.jobs.get jobId).currPri < s.hiQueue then
    let s1 := s.onJob jobId (fun j => { j with currPri := j.currPri + 1 })
    s1.onJob jobId (fun j => { j with allotLeft := vecGet s1.allotmentList j.currPri })
  else
    s.onJob jobId (fun j => { j with allotLeft := vecGet s.allotmentList j.currPri })

/-- The post-slice block (main.cpp:360-388): allotment accounting, demotion or
refresh, and the re-enqueue of an unfinished job. -/
def afterSlice (jobId : Int) (timeUsed : Int) (s : State) : State :=
  if (s.jobs.get jobId).remainingTime > 0 then
    let s1 := s.onJob jobId (fun j => { j with allotLeft := j.allotLeft - timeUsed })
    let s2 := if (s1.jobs.get jobId).allotLeft ≤ 0 then demoteOrRefresh jobId s1 else s1
    { s2 with queues := pushAt s2.queues (s2.jobs.get jobId).currPri.toNat jobId }
  else s

/-- The first-dispatch bookkeeping (main.cpp:308-311). -/
def startJob (jobId : Int) (s : State) : State :=
  if (s.jobs.get jobId).started = false then
    s.onJob jobId (fun j =>
      { j with firstRun := s.currentTime, responseTime := s.currentTime - j.startTime,
               started := true })
  else s

/-- The time slice of a dispatch (main.cpp:324-325):
`min({quantumList[q], job.remainingTime, job.allotLeft})`. -/
def timeSlice (q : Nat) (jobId : Int) (s : State) : Int :=
  min (vecGet s.quantumList q) (min (s.jobs.get jobId).remainingTime (s.jobs.get jobId).allotLeft)

/-- The job at the front of `queues[q]` (main.cpp:303); `front()` of an empty
queue is undefined in the source and reads `0` here. -/
def frontJob (q : Nat) (s : State) : Int := (queueAt s.queues q).headD 0

/-- The execution part of the dispatch of job `jobId` taken from level `q`,
after it was popped (main.cpp:305-358): `Job& job = jobs[jobId]`, first-run
bookkeeping, computation of the slice, and the slice loop; returns the state
and `timeUsed`. -/
def runSlice (q : Nat) (jobId : Int) (s : State) : State × Int :=
  let s1 := s.onJob jobId (fun j => j)
  let s2 := startJob jobId s1
  sliceLoop jobId (timeSlice q jobId s2).toNat s2 0

/-- The dispatch of job `jobId` taken from level `q`, after it was popped
(main.cpp:305-388): the execution part, then the post-slice block. -/
def runJob (q : Nat) (jobId : Int) (s : State) : State :=
  let r := runSlice q jobId s
  afterSlice jobId r.2 r.1

/-- The dispatch from level `q` (main.cpp:302-388). -/
def dispatch (q : Nat) (s : State) : State :=
  runJob q (frontJob q s) { s with queues := popAt s.queues q }

/-- The test `allDone` (main.cpp:287-293). -/
def allDone (s : State) : Bool := s.jobs.all (fun p => !decide (p.2.remainingTime > 0))

/-- The state at the head of an iteration of the simulation loop once the boost
check and the admission have run (main.cpp:265-281). -/
def prepare (s : State) : State := admitArrivals (boostCheck s)

/-- One iteration of the simulation loop `while (true)` (main.cpp:264-389);
the flag is `false` when the iteration ends in `break`. -/
def loopBody (s : State) : State × Bool :=
  let s2 := prepare s
  let q := FindQueue s2
  if q = -1 then
    if allDone s2 then (s2, false)
    else ({ s2 with currentTime := wrapInt (s2.currentTime + 1) }, true)
  else (dispatch q.toNat s2, true)

/-- The simulation loop, for at most `fuel` iterations: `some` of the final
state when the loop has left through `break`, `none` when the fuel ran out. -/
def runLoop : Nat → State → Option State
  | 0, _ => none
  | fuel + 1, s =>
    match loopBody s with
    | (s1, false) => some s1
    | (s1, true) => runLoop fuel s1

/-- The initialisation at the head of `runSimulation` (main.cpp:255-261). -/
def enterSimulation (options : Options) (s : State) : State :=
  let s1 := { s with hiQueue := options.numQueues - 1 }
  let s2 := { s1 with queues := resizeQueues s1.queues options.numQueues.toNat }
  let s3 := { s2 with boostTime := options.boostTime }
  { s3 with nextBoost := s3.boostTime }

/-- The function `runSimulation` (main.cpp:254-390), its loop bounded by `fuel`
iterations. -/
def runSimulation (fuel : Nat) (options : Options) (s : State) : Option State :=
  runLoop fuel (enterSimulation options s)

/-! ## Set-up -/

/-- The conversion of an `int` to `size_t` made by the comparisons
`v.size() < options.numQueues` (main.cpp:184-204), on a 64-bit target. -/
def sizeT (n : Int) : Nat := (n % 2 ^ 64).toNat

/-- Padding of a level list (main.cpp:184-189 and 192-197): while the list is
shorter than `n`, push a copy of its last entry (`dflt` if it were empty). -/
def padList (v : List Int) (n : Nat) (dflt : Int) : List Int :=
  if v.length < n then v ++ List.replicate (n - v.length) (v.getLast?.getD dflt) else v

/-- Truncation of a level list (main.cpp:200-205). -/
def truncList (v : List Int) (n : Nat) : List Int :=
  if v.length > n then v.take n else v

/-- The function `initializeQuantumAndAllotment` (main.cpp:164-214). -/
def initializeQuantumAndAllotment (options : Options) (s : State) : State :=
  let q0 := if options.quantumList.isEmpty then [1, 2, 3] else options.quantumList
  let a0 := if options.allotmentList.isEmpty then [4, 6, 8] else options.allotmentList
  let q1 := padList q0 (sizeT options.numQueues) 5
  let a1 := padList a0 (sizeT options.numQueues) 20
  { s with quantumList := truncList q1 (sizeT options.numQueues),
           allotmentList := truncList a1 (sizeT options.numQueues) }

/-- The body of the loop of `setupJobs` (main.cpp:219-222). -/
def setupJob (s : State) (job : Job) : State :=
  let newJob := { job with currPri := 0, allotLeft := vecGet s.allotmentList 0 }
  s.onJob newJob.id (fun _ => newJob)

/-- The function `setupJobs` (main.cpp:217-224). -/
def setupJobs (options : Options) (s : State) : State :=
  options.jobList.foldl setupJob s

/-- The job record built by `parseArguments` from one `id,startTime,totalTime`
entry of the `-j` option (main.cpp:131-141). -/
def parseJob (id startTime totalTime : Int) : Job :=
  { id := id, startTime := startTime, totalTime := totalTime, remainingTime := totalTime,
    currPri := 0, allotLeft := 0, firstRun := -1, responseTime := 0, endTime := 0,
    started := false }

/-- The default options (main.cpp:39-51). -/
def Options.default : Options :=
  { seed := 0, numQueues := 3, quantumList := [1, 2, 3], allotmentList := [4, 6, 8],
    boostTime := 20,
    jobList := [⟨1, 0, 10, 10, 0, 4, -1, 0, 0, false⟩, ⟨2, 5, 10, 10, 0, 4, -1, 0, 0, false⟩] }

/-- The globals at program start: zero-initialised, empty containers. -/
def State.initial : State :=
  { hiQueue := 0, queues := [], jobs := [], quantumList := [], allotmentList := [],
    boostTime := 0, numQueues := 0, currentTime := 0, nextBoost := 0 }

/-- The state in which `main` calls `runSimulation` (main.cpp:424-437). -/
def setup (options : Options) : State :=
  let s0 := { State.initial with numQueues := options.numQueues }
  let s1 := initializeQuantumAndAllotment options s0
  let s2 := setupJobs options s1
  { s2 with boostTime := options.boostTime }

/-- The function `main` after argument parsing (main.cpp:424-440), with the
simulation loop bounded by `fuel` iterations. -/
def main (fuel : Nat) (options : Options) : Option State :=
  runSimulation fuel options (setup options)

/-! ## Auxiliary notions used in the statements -/

/-- The rewrite the boost applies to a moved job (main.cpp:244-245). -/
def boostJob (a0 : Int) (j : Job) : Job := { j with currPri := 0, allotLeft := a0 }

/-- The registry after the boost has rewritten the jobs `ids`, in this order. -/
def boostJobs (a0 : Int) (ids : List Int) (m : JobMap) : JobMap :=
  ids.foldl (fun m id =>
    (m.modify id (fun j => { j with currPri := 0 })).modify id (fun j => { j with allotLeft := a0 })) m

/-- The identifiers waiting below level 0, listed from level 1 to level
`hiQueue`, each level from front to back. -/
def waitingBelow (s : State) : List Int :=
  (List.range' 1 s.hiQueue.toNat).flatMap (queueAt s.queues)

/-- A job up to its priority and allotment, the two fields boost and admission write. -/
def Job.core (j : Job) : Job := { j with currPri := 0, allotLeft := 0 }

/-! ## Sample inputs -/

/-- The state of the default run (main.cpp:39-51) when the first dispatch is
about to be selected: job 1 waits at level 0. -/
def sampleReady : State := prepare (enterSimulation Options.default (setup Options.default))

/-- The state after `n` iterations of the simulation loop (fewer if the loop
leaves through `break` before). -/
def stateAfter : Nat → State → State
  | 0, s => s
  | n + 1, s =>
    match loopBody s with
    | (s1, false) => s1
    | (s1, true) => stateAfter n s1

/-- The state in which the simulation loop of `main` starts. -/
def loopStart (options : Options) : State := enterSimulation options (setup options)

/-- The options of the run `-j "1,0,2;2,1,1"`: default levels, job 1 arriving
at 0 with 2 units of work, job 2 arriving at 1 with 1 unit. -/
def arrivalAtSliceEnd : Options :=
  { Options.default with jobList := [parseJob 1 0 2, parseJob 2 1 1] }

/-- The options of the run `-n 2 -Q 2,2 -A 2,4 -b 4 -j "1,0,1;2,1,10"`. -/
def boostDuringSlice : Options :=
  { seed := 0, numQueues := 2, quantumList := [2, 2], allotmentList := [2, 4], boostTime := 4,
    jobList := [parseJob 1 0 1, parseJob 2 1 10] }

/-- The run `boostDuringSlice` at its third dispatch: job 2 has been popped
from level 0 and its slice of 2 units is about to start, at clock 3. -/
def boostDuringSliceRunning : State :=
  startJob 2
    (State.onJob
      { prepare (stateAfter 2 (loopStart boostDuringSlice)) with
        queues := popAt (prepare (stateAfter 2 (loopStart boostDuringSlice))).queues 0 }
      2 (fun j => j))

/-- The options of the run `-n 3 -Q 1,1,1 -A 1,1,1 -b 5 -j "1,0,5;2,0,5;3,0,5"`. -/
def boostTwoLevels : Options :=
  { seed := 0, numQueues := 3, quantumList := [1, 1, 1], allotmentList := [1, 1, 1],
    boostTime := 5, jobList := [parseJob 1 0 5, parseJob 2 0 5, parseJob 3 0 5] }

/-- The run `boostTwoLevels` inside its fifth dispatch: job 2 has been popped
from level 1 at clock 4 and has run its unit, the clock is 5 and the boost
check of the slice loop comes next; job 3 waits at level 1, job 1 at level 2. -/
def boostTwoLevelsAtBoost : State :=
  tick 2
    (startJob 2
      (State.onJob
        { prepare (stateAfter 4 (loopStart boostTwoLevels)) with
          queues := popAt (prepare (stateAfter 4 (loopStart boostTwoLevels))).queues 1 }
        2 (fun j => j)))

/-- The default run at its first dispatch, job 1 popped from level 0. -/
def samplePopped : State := { sampleReady with queues := popAt sampleReady.queues 0 }

/-- The run `arrivalAtSliceEnd` at its second dispatch, job 2 (one unit of work
left) popped from level 0 at clock 1. -/
def sampleFinishing : State :=
  { prepare (stateAfter 1 (loopStart arrivalAtSliceEnd)) with
    queues := popAt (prepare (stateAfter 1 (loopStart arrivalAtSliceEnd))).queues 0 }

/-! ## Invariants of the simulation loop -/

/-- A validated level configuration, as the loop sees it: at least one level,
one queue per level, and a quantum and an allotment of at least 1 at each
level `0..hiQueue`. -/
structure Config (s : State) : Prop where
  hi : 0 ≤ s.hiQueue
  qlen : s.queues.length = s.hiQueue.toNat + 1
  quantum : ∀ i : Int, 0 ≤ i → i ≤ s.hiQueue → 1 ≤ vecGet s.quantumList i
  allot : ∀ i : Int, 0 ≤ i → i ≤ s.hiQueue → 1 ≤ vecGet s.allotmentList i

/-- What holds of a registered job at clock `t` when the lowest level is `hi`:
arrival and work are valid, the remaining work is between 0 and the total, the
allotment is at least 1, the level is in range, a job that never ran has all its
work left, a job that ran has its first-run and response times recorded, and
the work done so far fits between the arrival and the clock. -/
def JobOK (hi t : Int) (j : Job) : Prop :=
  0 ≤ j.startTime ∧ 0 < j.totalTime ∧ 0 ≤ j.remainingTime ∧ j.remainingTime ≤ j.totalTime ∧
  1 ≤ j.allotLeft ∧ 0 ≤ j.currPri ∧ j.currPri ≤ hi ∧
  (j.started = false → j.remainingTime = j.totalTime) ∧
  (j.started = true → j.startTime ≤ j.firstRun ∧ j.responseTime = j.firstRun - j.startTime) ∧
  (j.remainingTime < j.totalTime → j.startTime + (j.totalTime - j.remainingTime) ≤ t)

/-- A completed job has a completion time at least `totalTime` after its arrival. -/
def JobDone (j : Job) : Prop :=
  j.remainingTime = 0 → j.startTime + j.totalTime ≤ j.endTime

/-- The work left in state `s`, summed over the jobs of the registry `m0`. -/
def remainingSum (m0 : JobMap) (s : State) : Int :=
  (m0.keys.map (fun k => (s.jobs.get k).remainingTime)).sum

/-- The latest arrival time in the registry `m0` (0 for the empty registry). -/
def maxStart (m0 : JobMap) : Int :=
  (m0.keys.map (fun k => (m0.get k).startTime)).foldl max 0

/-- The service times of the registry `m0`, summed. -/
def workBound (m0 : JobMap) : Int := (m0.keys.map (fun k => (m0.get k).totalTime)).sum

/-- The clock of state `s` fits in an `int`: it is not negative, the latest
arrival plus the total service time of the registry `m0` is below `2^31`, the
work left is at most the total service time, and the clock plus the work left is
at most the latest arrival plus the total service time. -/
structure Budget (m0 : JobMap) (s : State) : Prop where
  clock : 0 ≤ s.currentTime
  room : maxStart m0 + workBound m0 < 2 ^ 31
  work : remainingSum m0 s ≤ workBound m0
  time : s.currentTime + remainingSum m0 s ≤ maxStart m0 + workBound m0

/-- The invariant of the simulation. `m0` is the registry at the start of the
run, `run` the job being executed (if any), and `d` is 1 where the arrivals of
the current clock may still be missing from the queues and 0 where they have
been admitted.  The last field keeps the clock in the range of `int`. -/
structure Inv (m0 : JobMap) (run : Option Int) (d : Int) (s : State) : Prop where
  cfg : Config s
  nodup : m0.keys.Nodup
  keys : s.jobs.keys = m0.keys
  const : ∀ k j, JobMap.find? s.jobs k = some j →
    j.startTime = (m0.get k).startTime ∧ j.totalTime = (m0.get k).totalTime ∧
    j.id = (m0.get k).id
  ok : ∀ k j, JobMap.find? s.jobs k = some j →
    JobOK s.hiQueue s.currentTime j ∧ (run ≠ some k → JobDone j)
  queued : ∀ id, id ∈ s.queues.flatten →
    ∃ j, JobMap.find? s.jobs id = some j ∧ j.startTime ≤ s.currentTime
  alive : ∀ k j, JobMap.find? s.jobs k = some j → 0 < j.remainingTime →
    j.startTime + d ≤ s.currentTime → k ∈ s.queues.flatten ∨ run = some k
  running : ∀ id, run = some id →
    ∃ j, JobMap.find? s.jobs id = some j ∧ j.startTime ≤ s.currentTime
  budget : Budget m0 s

/-- First component of the termination measure: work left plus time to wait
for the arrivals, summed over the jobs of the initial registry `m0`. -/
def workLeft (m0 : JobMap) (s : State) : Nat :=
  (m0.keys.map (fun k =>
    (s.jobs.get k).remainingTime.toNat + ((m0.get k).startTime - s.currentTime).toNat)).sum

/-- Second component of the termination measure: queue entries of completed jobs. -/
def staleEntries (s : State) : Nat :=
  s.queues.flatten.countP (fun id => decide ((s.jobs.get id).remainingTime ≤ 0))

/-- The step from `s` to `s2` writes no registry entry but that of job `id`,
and adds no key when `id` is registered. -/
def OnlyJob (id : Int) (s s2 : State) : Prop :=
  (∀ k, k ≠ id → JobMap.find? s2.jobs k = JobMap.find? s.jobs k) ∧
  (id ∈ s.jobs.keys → s2.jobs.keys = s.jobs.keys)

/-- The sum of the service times of the workload. -/
def totalWork (l : List Job) : Int := (l.map Job.totalTime).sum

/-- The latest arrival time of the workload (0 for the empty workload). -/
def maxArrival (l : List Job) : Int := (l.map Job.startTime).foldl max 0

/-- A validated configuration and workload: at least one level (the count
being a C++ `int`), every supplied quantum and allotment at least 1, a boost
interval of at least 1, and jobs with distinct identifiers, an arrival time of
at least 0 and a positive service time, in the state in which `parseArguments`
builds them (all the work left, never run); and the latest arrival time, the
total service time and the boost interval together stay below `2^31`, so that
neither the `int` clock nor the `int` `nextBoost` of the run overflows. -/
structure Validated (options : Options) : Prop where
  levels : 1 ≤ options.numQueues
  levelsInt : options.numQueues < 2 ^ 31
  quanta : ∀ x, x ∈ options.quantumList → 1 ≤ x
  allots : ∀ x, x ∈ options.allotmentList → 1 ≤ x
  boost : 1 ≤ options.boostTime
  ids : (options.jobList.map Job.id).Nodup
  jobs : ∀ j, j ∈ options.jobList →
    0 ≤ j.startTime ∧ 0 < j.totalTime ∧ j.remainingTime = j.totalTime ∧ j.started = false
  range : maxArrival options.jobList + totalWork options.jobList + options.boostTime < 2 ^ 31

/-- The registry entry `setupJobs` writes for a job of the job list. -/
def setupEntry (a0 : Int) (job : Job) : Job := { job with currPri := 0, allotLeft := a0 }

/-- The registry built by the loop of `setupJobs` from the jobs `l`, starting
from the registry `m`, when `allotmentList[0]` is `a0`. -/
def registryOf (a0 : Int) (l : List Job) (m : JobMap) : JobMap :=
  l.foldl (fun m job => m.modify job.id (fun _ => setupEntry a0 job)) m

/-- The step from `s` to `s2` keeps the first-run record of every job that has
already run. -/
def Keeps (s s2 : State) : Prop :=
  ∀ k, (s.jobs.get k).started = true →
    (s2.jobs.get k).started = true ∧ (s2.jobs.get k).firstRun = (s.jobs.get k).firstRun ∧
    (s2.jobs.get k).responseTime = (s.jobs.get k).responseTime

/-- The options of the scenario "three levels, one job": the default levels
and boost interval, and a single job arriving at 0 with 10 units of work. -/
def threeLevelsOneJob : Options :=
  { Options.default with jobList := [parseJob 1 0 10] }

/-- The options of the run `-n 2 -Q 1,0 -A 4,-6 -j "1,0,1"`: the quantum and
the allotment of level 1 are not positive. -/
def badLevelOptions : Options :=
  { seed := 0, numQueues := 2, quantumList := [1, 0], allotmentList := [4, -6], boostTime := 20,
    jobList := [parseJob 1 0 1] }

/-- The options of the run `-j "1,0,3;2,1,0"`: job 2 has a service time of 0. -/
def zeroWorkOptions : Options :=
  { Options.default with jobList := [parseJob 1 0 3, parseJob 2 1 0] }

/-- The options of the run `-j "1,-1,1"`: job 1 has a negative arrival time. -/
def earlyArrivalOptions : Options :=
  { Options.default with jobList := [parseJob 1 (-1) 1] }

/-! ## Boost timing -/

/-- The keys of the registry are in strictly ascending order, the order in
which `std::map<int, Job>` keeps and iterates its entries. -/
def SortedKeys (m : JobMap) : Prop := m.keys.Pairwise (fun a b => a < b)

/-- A property of registries kept by the two kinds of write the program makes:
the write `jobs[key] = f(jobs[key])` and the rewriting of the entries in place
by a loop over the map. -/
structure KeptByWrites (P : JobMap → Prop) : Prop where
  modify : ∀ (m : JobMap) (k : Int) (f : Job → Job), P m → P (JobMap.modify m k f)
  mapJobs : ∀ (m : JobMap) (g : Job → Job), P m → P (m.map (fun p => (p.1, g p.2)))

/-- The options of the run `-j "3,0,1;1,0,2;2,0,1"`: default levels, three jobs
arriving at 0, listed in the order 3, 1, 2. -/
def listedOutOfOrder : Options :=
  { Options.default with jobList := [parseJob 3 0 1, parseJob 1 0 2, parseJob 2 0 1] }

/-! ## Accounting of executed units and idle ticks -/

/-- The number of units of work executed by the iteration of the simulation
loop that starts in `s`: the final value of `timeUsed` (main.cpp:327-358) when
the iteration dispatches a job, 0 when it does not. -/
def iterUnits (s : State) : Int :=
  let s2 := prepare s
  let q := FindQueue s2
  if q = -1 then 0
  else (runSlice q.toNat (frontJob q.toNat s2) { s2 with queues := popAt s2.queues q.toNat }).2

/-- The number of idle ticks taken by the iteration of the simulation loop that
starts in `s`: 1 when it runs `currentTime++; continue;` (main.cpp:297-299),
0 otherwise. -/
def iterIdle (s : State) : Int :=
  let s2 := prepare s
  if FindQueue s2 = -1 then (if allDone s2 then 0 else 1) else 0

/-- The units of work executed over a run of the simulation loop of at most
`fuel` iterations. -/
def runUnits : Nat → State → Int
  | 0, _ => 0
  | fuel + 1, s =>
    match loopBody s with
    | (_, false) => iterUnits s
    | (s1, true) => iterUnits s + runUnits fuel s1

/-- The idle ticks taken over a run of the simulation loop of at most `fuel`
iterations. -/
def runIdle : Nat → State → Int
  | 0, _ => 0
  | fuel + 1, s =>
    match loopBody s with
    | (_, false) => iterIdle s
    | (s1, true) => iterIdle s + runIdle fuel s1

/-- The options of the run `-j "1,0,1;2,3,1"`: default levels, job 1 arriving
at 0 with 1 unit of work, job 2 arriving at 3 with 1 unit: the processor is
idle at clocks 1 and 2. -/
def idleGapOptions : Options :=
  { Options.default with jobList := [parseJob 1 0 1, parseJob 2 3 1] }

/-! ## The round-robin scenario -/

/-- The options of the run `-n 1 -Q 1 -A a -b b -j "1,0,3;2,0,2"`: one level
with quantum 1, allotment `a` and boost interval `b`, and two jobs arriving at
0 with 3 and 2 units of work. -/
def rrOptions (a b : Int) : Options :=
  { seed := 0, numQueues := 1, quantumList := [1], allotmentList := [a], boostTime := b,
    jobList := [parseJob 1 0 3, parseJob 2 0 2] }

/-- The states the round-robin scenario goes through: one level with queue
`q`, quantum 1, allotment `a`, boost interval `b`, clock `t`, next boost `nb`,
and the registry entries `j1` and `j2` of jobs 1 and 2. -/
def rrState (a b t nb : Int) (q : List Int) (j1 j2 : Job) : State :=
  { hiQueue := 0, queues := [q], jobs := [(1, j1), (2, j2)], quantumList := [1],
    allotmentList := [a], boostTime := b, numQueues := 1, currentTime := t, nextBoost := nb }

/-- The job dispatched by the iteration of the simulation loop that starts in
`s` (`int jobId = queues[q].front();`, main.cpp:303), if it dispatches one. -/
def iterJob (s : State) : Option Int :=
  let s2 := prepare s
  let q := FindQueue s2
  if q = -1 then none else some (frontJob q.toNat s2)

/-- The state `s` is a state of the round-robin scenario at clock `t`, after the
boost check of that clock (a further check at this clock leaves `nextBoost` as
it is), with queue `q`, where jobs 1 and 2 arrived at 0, wait at level 0 with a
positive allotment, and have `r1` and `r2` units left. -/
def RRAt (a b t : Int) (q : List Int) (r1 r2 : Int) (s : State) : Prop :=
  ∃ nb j1 j2, s = rrState a b t nb q j1 j2 ∧ (nb ≠ t ∨ wrapInt (t + b) = t) ∧
    j1.startTime = 0 ∧ j1.remainingTime = r1 ∧ 1 ≤ j1.allotLeft ∧ j1.currPri = 0 ∧
    j2.startTime = 0 ∧ j2.remainingTime = r2 ∧ 1 ≤ j2.allotLeft ∧ j2.currPri = 0

/-! ## The range of `int` -/

/-- An addition whose exact result is in the range of `int` does not wrap. -/
theorem wrapInt_eq (x : Int) (h1 : -2 ^ 31 ≤ x) (h2 : x < 2 ^ 31) : wrapInt x = x := by
  unfold wrapInt
  omega

/-- The value after any addition is an `int`. -/
theorem wrapInt_range (x : Int) : -2 ^ 31 ≤ wrapInt x ∧ wrapInt x < 2 ^ 31 := by
  unfold wrapInt
  omega

/-- Beyond the range the value wraps around: `2147483647 + 1` is `-2147483648`,
`2147483647 + 2147483647` is `-2`, and a unit of work at clock `2147483647`
leaves the clock at `-2147483648`. -/
theorem wrapInt_overflow :
    wrapInt (2147483647 + 1) = -2147483648 ∧ wrapInt (2147483647 + 2147483647) = -2 ∧
    (tick 1 { sampleReady with currentTime := 2147483647 }).currentTime = -2147483648 := by
  decide

/-! ## Basic facts about queues and the registry -/

theorem queueAt_pushAt (qs : List (List Int)) (i j : Nat) (id : Int) :
    queueAt (pushAt qs i id) j = if j = i ∧ i < qs.length then queueAt qs j ++ [id] else queueAt qs j := by
  unfold queueAt pushAt
  simp only [List.getD_eq_getElem?_getD, List.getElem?_modify]
  by_cases h : i = j
  · subst h
    by_cases h2 : i < qs.length
    · simp [h2, List.getElem?_eq_getElem h2]
    · simp [h2, List.getElem?_eq_none (Nat.le_of_not_lt h2)]
  · have : ¬ j = i := fun e => h e.symm
    simp [h, this]

theorem queueAt_popAt (qs : List (List Int)) (i j : Nat) :
    queueAt (popAt qs i) j = if j = i then (queueAt qs j).tail else queueAt qs j := by
  unfold queueAt popAt
  simp only [List.getD_eq_getElem?_getD, List.getElem?_modify]
  by_cases h : i = j
  · subst h
    by_cases h2 : i < qs.length
    · simp [h2, List.getElem?_eq_getElem h2]
    · simp [h2, List.getElem?_eq_none (Nat.le_of_not_lt h2)]
  · have : ¬ j = i := fun e => h e.symm
    simp [h, this]

theorem length_pushAt (qs : List (List Int)) (i : Nat) (id : Int) :
    (pushAt qs i id).length = qs.length := by simp [pushAt]

theorem length_popAt (qs : List (List Int)) (i : Nat) :
    (popAt qs i).length = qs.length := by simp [popAt]

theorem find?_update (m : JobMap) (k k2 : Int) (f : Job → Job) :
    JobMap.find? (JobMap.update m k f) k2
      = if k2 = k then (JobMap.find? m k).map f else JobMap.find? m k2 := by
  induction m with
  | nil => simp [JobMap.update, JobMap.find?]
  | cons p rest ih =>
    obtain ⟨a, j⟩ := p
    simp only [JobMap.update, JobMap.find?]
    by_cases h1 : k = a
    · subst h1
      by_cases h2 : k2 = k
      · simp [h2, JobMap.find?]
      · simp [h2, JobMap.find?]
    · by_cases h2 : k2 = a
      · subst h2
        have : ¬ k2 = k := fun e => h1 e.symm
        simp [h1, this, JobMap.find?]
      · simp [h1, h2, JobMap.find?, ih]

theorem find?_insert (m : JobMap) (k k2 : Int) (v : Job) (hk : JobMap.find? m k = none) :
    JobMap.find? (JobMap.insert m k v) k2 = if k2 = k then some v else JobMap.find? m k2 := by
  induction m with
  | nil => simp [JobMap.insert, JobMap.find?]
  | cons p rest ih =>
    obtain ⟨a, j⟩ := p
    simp only [JobMap.find?] at hk
    by_cases hka : k = a
    · simp [hka] at hk
    · simp only [hka, if_false] at hk
      simp only [JobMap.insert]
      by_cases h1 : k < a
      · simp only [h1, if_true, JobMap.find?]
      · simp only [h1, if_false, JobMap.find?, ih hk]
        by_cases h2 : k2 = a
        · subst h2
          have : ¬ k2 = k := fun e => hka e.symm
          simp [this]
        · simp [h2]

theorem find?_modify (m : JobMap) (k k2 : Int) (f : Job → Job) :
    JobMap.find? (JobMap.modify m k f) k2
      = if k2 = k then some (f (JobMap.get m k)) else JobMap.find? m k2 := by
  unfold JobMap.modify JobMap.get
  cases h : JobMap.find? m k with
  | none => simp [find?_insert m k k2 _ h]
  | some j => simp [find?_update, h]

theorem get_modify (m : JobMap) (k k2 : Int) (f : Job → Job) :
    JobMap.get (JobMap.modify m k f) k2
      = if k2 = k then f (JobMap.get m k) else JobMap.get m k2 := by
  unfold JobMap.get
  rw [find?_modify]
  split <;> simp [JobMap.get]


/-! ### Frame facts: what boost and admission leave alone -/

@[simp] theorem onJob_currentTime (s : State) (k : Int) (f : Job → Job) :
    (s.onJob k f).currentTime = s.currentTime := rfl
@[simp] theorem onJob_nextBoost (s : State) (k : Int) (f : Job → Job) :
    (s.onJob k f).nextBoost = s.nextBoost := rfl
@[simp] theorem onJob_boostTime (s : State) (k : Int) (f : Job → Job) :
    (s.onJob k f).boostTime = s.boostTime := rfl
@[simp] theorem onJob_hiQueue (s : State) (k : Int) (f : Job → Job) :
    (s.onJob k f).hiQueue = s.hiQueue := rfl
@[simp] theorem onJob_queues (s : State) (k : Int) (f : Job → Job) :
    (s.onJob k f).queues = s.queues := rfl
@[simp] theorem onJob_quantumList (s : State) (k : Int) (f : Job → Job) :
    (s.onJob k f).quantumList = s.quantumList := rfl
@[simp] theorem onJob_allotmentList (s : State) (k : Int) (f : Job → Job) :
    (s.onJob k f).allotmentList = s.allotmentList := rfl
@[simp] theorem onJob_numQueues (s : State) (k : Int) (f : Job → Job) :
    (s.onJob k f).numQueues = s.numQueues := rfl
@[simp] theorem onJob_jobs (s : State) (k : Int) (f : Job → Job) :
    (s.onJob k f).jobs = s.jobs.modify k f := rfl

theorem get_onJob (s : State) (k k2 : Int) (f : Job → Job) :
    (s.onJob k f).jobs.get k2 = if k2 = k then f (s.jobs.get k) else s.jobs.get k2 := by
  simp [get_modify]

/-- The configuration part of a state: everything but clock, boost time, queues and jobs. -/
theorem boostMove_frame (q : Nat) (id : Int) (s : State) :
    (boostMove q id s).currentTime = s.currentTime ∧ (boostMove q id s).nextBoost = s.nextBoost ∧
    (boostMove q id s).boostTime = s.boostTime ∧ (boostMove q id s).hiQueue = s.hiQueue ∧
    (boostMove q id s).quantumList = s.quantumList ∧
    (boostMove q id s).allotmentList = s.allotmentList ∧
    (boostMove q id s).numQueues = s.numQueues := by
  simp [boostMove]

theorem boostDrain_frame (q : Nat) (n : Nat) (s : State) :
    (boostDrain q n s).currentTime = s.currentTime ∧ (boostDrain q n s).nextBoost = s.nextBoost ∧
    (boostDrain q n s).boostTime = s.boostTime ∧ (boostDrain q n s).hiQueue = s.hiQueue ∧
    (boostDrain q n s).quantumList = s.quantumList ∧
    (boostDrain q n s).allotmentList = s.allotmentList ∧
    (boostDrain q n s).numQueues = s.numQueues := by
  induction n generalizing s with
  | zero => simp [boostDrain]
  | succ n ih =>
    simp only [boostDrain]
    split
    · simp
    · rename_i id rest _
      have h1 := ih (boostMove q id s)
      have h2 := boostMove_frame q id s
      simp only [h1, h2, and_self]


/-! ### The boost in closed form -/

theorem boostJobs_append (a0 : Int) (l1 l2 : List Int) (m : JobMap) :
    boostJobs a0 (l1 ++ l2) m = boostJobs a0 l2 (boostJobs a0 l1 m) := by
  simp [boostJobs, List.foldl_append]

theorem boostJobs_cons (a0 : Int) (id : Int) (l : List Int) (m : JobMap) :
    boostJobs a0 (id :: l) m
      = boostJobs a0 l ((m.modify id (fun j => { j with currPri := 0 })).modify id
          (fun j => { j with allotLeft := a0 })) := rfl

theorem queueAt_nonempty_lt {qs : List (List Int)} {q : Nat} {id : Int} {rest : List Int}
    (h : queueAt qs q = id :: rest) : q < qs.length := by
  by_contra hlt
  have : queueAt qs q = [] := by
    simp [queueAt, List.getD_eq_getElem?_getD, List.getElem?_eq_none (Nat.le_of_not_lt hlt)]
  rw [this] at h
  cases h

theorem boostMove_queues (q : Nat) (id : Int) (rest : List Int) (s : State) (hq : q ≠ 0)
    (h : queueAt s.queues q = id :: rest) :
    queueAt (boostMove q id s).queues q = rest ∧
    queueAt (boostMove q id s).queues 0 = queueAt s.queues 0 ++ [id] ∧
    (∀ j, j ≠ q → j ≠ 0 → queueAt (boostMove q id s).queues j = queueAt s.queues j) ∧
    (boostMove q id s).queues.length = s.queues.length := by
  have hlt := queueAt_nonempty_lt h
  have h0 : 0 < s.queues.length := by omega
  simp only [boostMove, onJob_queues, queueAt_pushAt, queueAt_popAt, length_popAt, length_pushAt]
  refine ⟨?_, ?_, ?_, trivial⟩
  · simp [hq, h]
  · simp [h0, Ne.symm hq]
  · intro j hj hj0
    simp [hj, hj0]

theorem boostDrain_spec (q : Nat) (hq : q ≠ 0) (n : Nat) (s : State)
    (hn : (queueAt s.queues q).length ≤ n) :
    queueAt (boostDrain q n s).queues q = [] ∧
    queueAt (boostDrain q n s).queues 0 = queueAt s.queues 0 ++ queueAt s.queues q ∧
    (∀ j, j ≠ q → j ≠ 0 → queueAt (boostDrain q n s).queues j = queueAt s.queues j) ∧
    (boostDrain q n s).queues.length = s.queues.length ∧
    (boostDrain q n s).jobs
      = boostJobs (vecGet s.allotmentList 0) (queueAt s.queues q) s.jobs := by
  induction n generalizing s with
  | zero =>
    have h : queueAt s.queues q = [] := List.length_eq_zero.mp (Nat.le_zero.mp hn)
    simp [boostDrain, h, boostJobs]
  | succ n ih =>
    simp only [boostDrain]
    split
    · rename_i h
      simp [h, boostJobs]
    · rename_i id rest h
      obtain ⟨m1, m2, m3, m4⟩ := boostMove_queues q id rest s hq h
      have hn2 : (queueAt (boostMove q id s).queues q).length ≤ n := by
        rw [m1]; rw [h] at hn; simpa using hn
      obtain ⟨i1, i2, i3, i4, i5⟩ := ih (boostMove q id s) hn2
      refine ⟨i1, ?_, ?_, ?_, ?_⟩
      · rw [i2, m2, m1, h]; simp
      · intro j hj hj0; rw [i3 j hj hj0, m3 j hj hj0]
      · rw [i4, m4]
      · rw [i5, m1, h, boostJobs_cons]
        rfl

/-- The loop over the levels `1..H` of `boostAllQueues`. -/
theorem boostLevels_spec (H : Nat) (s : State) :
    let r := (List.range' 1 H).foldl
      (fun st q => boostDrain q (queueAt st.queues q).length st) s
    queueAt r.queues 0 = queueAt s.queues 0 ++ (List.range' 1 H).flatMap (queueAt s.queues) ∧
    (∀ j, 1 ≤ j → j ≤ H → queueAt r.queues j = []) ∧
    (∀ j, H < j → queueAt r.queues j = queueAt s.queues j) ∧
    r.queues.length = s.queues.length ∧
    r.jobs = boostJobs (vecGet s.allotmentList 0)
      ((List.range' 1 H).flatMap (queueAt s.queues)) s.jobs ∧
    (r.currentTime = s.currentTime ∧ r.nextBoost = s.nextBoost ∧
      r.boostTime = s.boostTime ∧ r.hiQueue = s.hiQueue ∧
      r.quantumList = s.quantumList ∧ r.allotmentList = s.allotmentList ∧
      r.numQueues = s.numQueues) := by
  induction H with
  | zero =>
    simp only [List.range'_zero, List.foldl_nil, List.flatMap_nil, List.append_nil, boostJobs,
      and_self, and_true, true_and]
    exact ⟨fun j h1 h2 => by omega, fun _ _ => trivial⟩
  | succ H ih =>
    simp only [List.range'_concat, List.foldl_append, List.foldl_cons, List.foldl_nil,
      List.flatMap_append, List.flatMap_singleton, Nat.one_mul]
    simp only at ih
    generalize (List.range' 1 H).foldl
      (fun st q => boostDrain q (queueAt st.queues q).length st) s = r at ih ⊢
    obtain ⟨a1, a2, a3, a4, a5, a6⟩ := ih
    have hq : 1 + H ≠ 0 := by omega
    obtain ⟨d1, d2, d3, d4, d5⟩ := boostDrain_spec (1 + H) hq _ r (Nat.le_refl _)
    have fr := boostDrain_frame (1 + H) (queueAt r.queues (1 + H)).length r
    have hsame : queueAt r.queues (1 + H) = queueAt s.queues (1 + H) := a3 _ (by omega)
    refine ⟨?_, ?_, ?_, ?_, ?_, ?_⟩
    · rw [d2, a1, hsame, List.append_assoc]
    · intro j h1 h2
      by_cases hj : j = 1 + H
      · rw [hj]; exact d1
      · rw [d3 j hj (by omega)]; exact a2 j h1 (by omega)
    · intro j hj
      rw [d3 j (by omega) (by omega)]; exact a3 j (by omega)
    · rw [d4, a4]
    · rw [d5, a5, hsame, boostJobs_append, a6.2.2.2.2.2.1]
    · obtain ⟨f1, f2, f3, f4, f5, f6, f7⟩ := fr
      obtain ⟨g1, g2, g3, g4, g5, g6, g7⟩ := a6
      exact ⟨f1.trans g1, f2.trans g2, f3.trans g3, f4.trans g4, f5.trans g5, f6.trans g6,
        f7.trans g7⟩

/-- The function `boostAllQueues` in closed form. -/
theorem boostAllQueues_spec (s : State) :
    queueAt (boostAllQueues s).queues 0 = queueAt s.queues 0 ++ waitingBelow s ∧
    (∀ j, 1 ≤ j → j ≤ s.hiQueue.toNat → queueAt (boostAllQueues s).queues j = []) ∧
    (∀ j, s.hiQueue.toNat < j → queueAt (boostAllQueues s).queues j = queueAt s.queues j) ∧
    (boostAllQueues s).queues.length = s.queues.length ∧
    (boostAllQueues s).jobs = boostJobs (vecGet s.allotmentList 0) (waitingBelow s) s.jobs ∧
    (boostAllQueues s).currentTime = s.currentTime ∧
    (boostAllQueues s).nextBoost = wrapInt (s.nextBoost + s.boostTime) ∧
    (boostAllQueues s).boostTime = s.boostTime ∧ (boostAllQueues s).hiQueue = s.hiQueue ∧
    (boostAllQueues s).quantumList = s.quantumList ∧
    (boostAllQueues s).allotmentList = s.allotmentList ∧
    (boostAllQueues s).numQueues = s.numQueues := by
  obtain ⟨a1, a2, a3, a4, a5, g1, g2, g3, g4, g5, g6, g7⟩ := boostLevels_spec s.hiQueue.toNat s
  simp only [boostAllQueues, waitingBelow]
  exact ⟨a1, a2, a3, a4, a5, g1, by rw [g2, g3], g3, g4, g5, g6, g7⟩

theorem boostJob_idem (a0 : Int) (j : Job) :
    boostJob a0 ({ ({ j with currPri := 0 } : Job) with allotLeft := a0 }) = boostJob a0 j := rfl

theorem find?_boostJobs (a0 : Int) (ids : List Int) (m : JobMap) (k : Int) :
    JobMap.find? (boostJobs a0 ids m) k
      = if k ∈ ids then some (boostJob a0 (m.get k)) else JobMap.find? m k := by
  induction ids generalizing m with
  | nil => simp [boostJobs]
  | cons id l ih =>
    rw [boostJobs_cons, ih]
    by_cases hk : k = id
    · subst hk
      by_cases hl : k ∈ l
      · simp [hl, get_modify, boostJob]
      · simp [hl, find?_modify, get_modify, boostJob]
    · by_cases hl : k ∈ l
      · simp [hl, hk, get_modify]
      · simp [hl, hk, find?_modify]

theorem get_boostJobs (a0 : Int) (ids : List Int) (m : JobMap) (k : Int) :
    JobMap.get (boostJobs a0 ids m) k
      = if k ∈ ids then boostJob a0 (m.get k) else m.get k := by
  unfold JobMap.get
  rw [find?_boostJobs]
  split <;> simp [JobMap.get]

theorem mem_waitingBelow (s : State) (id : Int) :
    id ∈ waitingBelow s ↔ ∃ j : Nat, 1 ≤ j ∧ (j : Int) ≤ s.hiQueue ∧ id ∈ queueAt s.queues j := by
  simp only [waitingBelow, List.mem_flatMap, List.mem_range'_1]
  constructor
  · rintro ⟨j, ⟨h1, h2⟩, h3⟩
    exact ⟨j, h1, by omega, h3⟩
  · rintro ⟨j, h1, h2, h3⟩
    exact ⟨j, ⟨h1, by omega⟩, h3⟩

/-! ### Selection -/

theorem find?_range'_some (p : Nat → Bool) (n a q : Nat)
    (h : (List.range' a n).find? p = some q) :
    a ≤ q ∧ q < a + n ∧ p q = true ∧ ∀ j, a ≤ j → j < q → p j = false := by
  induction n generalizing a with
  | zero => simp at h
  | succ n ih =>
    rw [List.range'_succ, List.find?_cons] at h
    cases hp : p a with
    | true =>
      rw [hp] at h
      simp only [Option.some.injEq] at h
      subst h
      exact ⟨Nat.le_refl _, by omega, hp, fun j h1 h2 => by omega⟩
    | false =>
      rw [hp] at h
      obtain ⟨h1, h2, h3, h4⟩ := ih (a + 1) h
      refine ⟨by omega, by omega, h3, fun j hj1 hj2 => ?_⟩
      by_cases hja : j = a
      · rw [hja]; exact hp
      · exact h4 j (by omega) hj2

theorem find?_range'_none (p : Nat → Bool) (n a : Nat)
    (h : (List.range' a n).find? p = none) : ∀ j, a ≤ j → j < a + n → p j = false := by
  intro j h1 h2
  have := List.find?_eq_none.mp h j (by simp [List.mem_range'_1]; omega)
  simpa using this

/-- The value of `FindQueue`: the least non-empty level below `hiQueue + 1`, or `-1`. -/
theorem FindQueue_cases (s : State) :
    (FindQueue s = -1 ∧ ∀ j : Nat, (j : Int) ≤ s.hiQueue → queueAt s.queues j = []) ∨
    (∃ q : Nat, FindQueue s = (q : Int) ∧ (q : Int) ≤ s.hiQueue ∧ queueAt s.queues q ≠ [] ∧
      ∀ j : Nat, j < q → queueAt s.queues j = []) := by
  unfold FindQueue
  rw [List.range_eq_range']
  cases h : (List.range' 0 (s.hiQueue + 1).toNat).find?
      (fun q => !(queueAt s.queues q).isEmpty) with
  | none =>
    left
    refine ⟨rfl, fun j hj => ?_⟩
    have := find?_range'_none _ _ _ h j (Nat.zero_le _) (by omega)
    simpa using this
  | some q =>
    right
    obtain ⟨_, h2, h3, h4⟩ := find?_range'_some _ _ _ _ h
    refine ⟨q, rfl, by omega, ?_, fun j hj => ?_⟩
    · simpa using h3
    · simpa using h4 j (Nat.zero_le _) hj

/-! ### Admission -/

theorem queueAt_foldl_pushAt (ids : List Int) (qs : List (List Int)) (j : Nat) :
    queueAt (ids.foldl (fun qs id => pushAt qs 0 id) qs) j
      = if j = 0 ∧ 0 < qs.length then queueAt qs j ++ ids else queueAt qs j := by
  induction ids generalizing qs with
  | nil => simp
  | cons id l ih =>
    rw [List.foldl_cons, ih, length_pushAt, queueAt_pushAt]
    by_cases h : j = 0 ∧ 0 < qs.length
    · simp [h]
    · simp [h]

theorem length_foldl_pushAt (ids : List Int) (qs : List (List Int)) :
    (ids.foldl (fun qs id => pushAt qs 0 id) qs).length = qs.length := by
  induction ids generalizing qs with
  | nil => simp
  | cons id l ih => rw [List.foldl_cons, ih, length_pushAt]

theorem find?_map (m : JobMap) (g : Job → Job) (k : Int) :
    JobMap.find? (m.map (fun p => (p.1, g p.2))) k = (JobMap.find? m k).map g := by
  induction m with
  | nil => simp [JobMap.find?]
  | cons p rest ih =>
    obtain ⟨a, j⟩ := p
    simp only [List.map_cons, JobMap.find?]
    by_cases h : k = a
    · simp [h]
    · simp [h, ih]

theorem admitArrivals_queue (s : State) (j : Nat) :
    queueAt (admitArrivals s).queues j
      = if j = 0 ∧ 0 < s.queues.length then queueAt s.queues j ++ arrivals s.currentTime s.jobs
        else queueAt s.queues j := by
  simp only [admitArrivals, queueAt_foldl_pushAt]

theorem admitArrivals_find? (s : State) (k : Int) :
    JobMap.find? (admitArrivals s).jobs k
      = (JobMap.find? s.jobs k).map (admitJob s.currentTime (vecGet s.allotmentList 0)) := by
  simp only [admitArrivals, find?_map]

theorem admitArrivals_frame (s : State) :
    (admitArrivals s).currentTime = s.currentTime ∧ (admitArrivals s).nextBoost = s.nextBoost ∧
    (admitArrivals s).boostTime = s.boostTime ∧ (admitArrivals s).hiQueue = s.hiQueue ∧
    (admitArrivals s).quantumList = s.quantumList ∧
    (admitArrivals s).allotmentList = s.allotmentList ∧
    (admitArrivals s).numQueues = s.numQueues ∧
    (admitArrivals s).queues.length = s.queues.length := by
  simp [admitArrivals, length_foldl_pushAt]

/-! ### Fields that boost and admission never write -/

theorem core_fields {a b : Job} (h : a.core = b.core) :
    a.id = b.id ∧ a.startTime = b.startTime ∧ a.totalTime = b.totalTime ∧
    a.remainingTime = b.remainingTime ∧ a.firstRun = b.firstRun ∧
    a.responseTime = b.responseTime ∧ a.endTime = b.endTime ∧ a.started = b.started := by
  cases a; cases b
  simp only [Job.core, Job.mk.injEq] at h
  simp only
  tauto

theorem admitJob_core (t a0 : Int) (j : Job) : (admitJob t a0 j).core = j.core := by
  unfold admitJob
  split <;> rfl

theorem boostJob_core (a0 : Int) (j : Job) : (boostJob a0 j).core = j.core := rfl

theorem admitArrivals_core (s : State) (k : Int) :
    ((admitArrivals s).jobs.get k).core = (s.jobs.get k).core := by
  unfold JobMap.get
  rw [admitArrivals_find?]
  cases JobMap.find? s.jobs k with
  | none => rfl
  | some j => simp [admitJob_core]

theorem boostAllQueues_core (s : State) (k : Int) :
    ((boostAllQueues s).jobs.get k).core = (s.jobs.get k).core := by
  rw [(boostAllQueues_spec s).2.2.2.2.1, get_boostJobs]
  split
  · exact boostJob_core _ _
  · rfl

theorem boostCheck_core (s : State) (k : Int) :
    ((boostCheck s).jobs.get k).core = (s.jobs.get k).core := by
  unfold boostCheck
  split
  · exact boostAllQueues_core s k
  · rfl

theorem boostCheck_frame (s : State) :
    (boostCheck s).currentTime = s.currentTime ∧
    (boostCheck s).boostTime = s.boostTime ∧ (boostCheck s).hiQueue = s.hiQueue ∧
    (boostCheck s).quantumList = s.quantumList ∧
    (boostCheck s).allotmentList = s.allotmentList ∧
    (boostCheck s).numQueues = s.numQueues ∧
    (boostCheck s).queues.length = s.queues.length := by
  unfold boostCheck
  split
  · obtain ⟨_, _, _, a4, _, a6, _, a8, a9, a10, a11, a12⟩ := boostAllQueues_spec s
    exact ⟨a6, a8, a9, a10, a11, a12, a4⟩
  · simp

/-! ### The slice loop -/

theorem tick_currentTime (id : Int) (s : State) (hlo : -2 ^ 31 ≤ s.currentTime)
    (hhi : s.currentTime + 1 < 2 ^ 31) : (tick id s).currentTime = s.currentTime + 1 := by
  show wrapInt (s.currentTime + 1) = s.currentTime + 1
  exact wrapInt_eq _ (by omega) hhi

theorem sliceUnit_currentTime (id : Int) (s : State) (hlo : -2 ^ 31 ≤ s.currentTime)
    (hhi : s.currentTime + 1 < 2 ^ 31) : (sliceUnit id s).currentTime = s.currentTime + 1 := by
  unfold sliceUnit
  rw [(admitArrivals_frame _).1, (boostCheck_frame _).1]
  exact tick_currentTime id s hlo hhi

theorem sliceUnit_remaining (id : Int) (s : State) (k : Int) :
    ((sliceUnit id s).jobs.get k).remainingTime
      = if k = id then (s.jobs.get k).remainingTime - 1 else (s.jobs.get k).remainingTime := by
  unfold sliceUnit
  rw [(core_fields (admitArrivals_core _ k)).2.2.2.1, (core_fields (boostCheck_core _ k)).2.2.2.1]
  unfold tick
  rw [get_onJob]
  split
  · rename_i h; subst h; rfl
  · rfl

theorem finishJob_remaining (id : Int) (s : State) (k : Int) :
    ((finishJob id s).jobs.get k).remainingTime = (s.jobs.get k).remainingTime := by
  unfold finishJob
  rw [get_onJob]
  split
  · rename_i h; subst h; rfl
  · rfl

/-- The slice loop runs all its `n` iterations when the job has at least `n`
units left: the clock gains `n` (while it stays in the range of `int`), the job
loses `n`, `timeUsed` gains `n`, and no other job's remaining time moves. -/
theorem sliceLoop_exact (id : Int) (n : Nat) (s : State) (u : Int)
    (h : (n : Int) ≤ (s.jobs.get id).remainingTime)
    (hlo : -2 ^ 31 ≤ s.currentTime) (hhi : s.currentTime + n < 2 ^ 31) :
    (sliceLoop id n s u).1.currentTime = s.currentTime + n ∧
    ((sliceLoop id n s u).1.jobs.get id).remainingTime = (s.jobs.get id).remainingTime - n ∧
    (sliceLoop id n s u).2 = u + n ∧
    ∀ k, k ≠ id →
      ((sliceLoop id n s u).1.jobs.get k).remainingTime = (s.jobs.get k).remainingTime := by
  induction n generalizing s u with
  | zero => simp [sliceLoop]
  | succ n ih =>
    have hr := sliceUnit_remaining id s id
    simp only [if_true] at hr
    have hc := sliceUnit_currentTime id s hlo (by push_cast at hhi; omega)
    simp only [sliceLoop]
    split
    · rename_i h0
      have hn : (n : Int) = 0 := by
        rw [hr] at h0; push_cast at h; omega
      refine ⟨?_, ?_, ?_, ?_⟩
      · show (finishJob id (sliceUnit id s)).currentTime = _
        simp only [finishJob, onJob_currentTime, hc]; push_cast; omega
      · rw [finishJob_remaining, hr]; push_cast; omega
      · show u + 1 = _
        push_cast; omega
      · intro k hk
        rw [finishJob_remaining, sliceUnit_remaining, if_neg hk]
    · have hle : (n : Int) ≤ ((sliceUnit id s).jobs.get id).remainingTime := by
        rw [hr]; push_cast at h; omega
      obtain ⟨i1, i2, i3, i4⟩ := ih (sliceUnit id s) (u + 1) hle (by rw [hc]; omega)
        (by rw [hc]; push_cast at hhi; omega)
      refine ⟨?_, ?_, ?_, ?_⟩
      · rw [i1, hc]; push_cast; omega
      · rw [i2, hr]; push_cast; omega
      · rw [i3]; push_cast; omega
      · intro k hk
        rw [i4 k hk, sliceUnit_remaining, if_neg hk]

/-! ### The post-slice block and the dispatch -/

theorem onJob_core (s : State) (k k2 : Int) (f : Job → Job) (hf : ∀ j, (f j).core = j.core) :
    ((s.onJob k f).jobs.get k2).core = (s.jobs.get k2).core := by
  rw [get_onJob]
  split
  · rename_i h; subst h; exact hf _
  · rfl

theorem demoteOrRefresh_core (id : Int) (s : State) (k : Int) :
    ((demoteOrRefresh id s).jobs.get k).core = (s.jobs.get k).core := by
  unfold demoteOrRefresh
  split
  · refine Eq.trans (onJob_core _ _ _ _ ?_) (onJob_core _ _ _ _ ?_) <;> intro j <;> rfl
  · refine onJob_core _ _ _ _ ?_
    intro j; rfl

theorem demoteOrRefresh_frame (id : Int) (s : State) :
    (demoteOrRefresh id s).currentTime = s.currentTime ∧
    (demoteOrRefresh id s).queues = s.queues ∧
    (demoteOrRefresh id s).nextBoost = s.nextBoost ∧
    (demoteOrRefresh id s).boostTime = s.boostTime ∧
    (demoteOrRefresh id s).hiQueue = s.hiQueue ∧
    (demoteOrRefresh id s).quantumList = s.quantumList ∧
    (demoteOrRefresh id s).allotmentList = s.allotmentList := by
  unfold demoteOrRefresh
  split <;> simp

theorem afterSlice_core (id : Int) (u : Int) (s : State) (k : Int) :
    ((afterSlice id u s).jobs.get k).core = (s.jobs.get k).core := by
  unfold afterSlice
  split
  · simp only
    split
    · rw [demoteOrRefresh_core]
      refine onJob_core _ _ _ _ ?_
      intro j; rfl
    · refine onJob_core _ _ _ _ ?_
      intro j; rfl
  · rfl

theorem afterSlice_frame (id : Int) (u : Int) (s : State) :
    (afterSlice id u s).currentTime = s.currentTime ∧
    (afterSlice id u s).nextBoost = s.nextBoost ∧
    (afterSlice id u s).boostTime = s.boostTime ∧
    (afterSlice id u s).hiQueue = s.hiQueue ∧
    (afterSlice id u s).quantumList = s.quantumList ∧
    (afterSlice id u s).allotmentList = s.allotmentList := by
  unfold afterSlice
  split
  · simp only
    split
    · obtain ⟨a1, _, a3, a4, a5, a6, a7⟩ := demoteOrRefresh_frame id
        (s.onJob id (fun j => { j with allotLeft := j.allotLeft - u }))
      exact ⟨a1, a3, a4, a5, a6, a7⟩
    · simp
  · simp

theorem startJob_get (id : Int) (s : State) (k : Int) :
    (startJob id s).jobs.get k
      = if k = id ∧ (s.jobs.get id).started = false then
          { s.jobs.get id with firstRun := s.currentTime,
                               responseTime := s.currentTime - (s.jobs.get id).startTime,
                               started := true }
        else s.jobs.get k := by
  unfold startJob
  by_cases h : (s.jobs.get id).started = false
  · rw [if_pos h, get_onJob]
    by_cases hk : k = id
    · simp [hk, h]
    · simp [hk]
  · rw [if_neg h]
    simp [h]

theorem startJob_frame (id : Int) (s : State) :
    (startJob id s).currentTime = s.currentTime ∧ (startJob id s).queues = s.queues ∧
    (startJob id s).nextBoost = s.nextBoost ∧ (startJob id s).boostTime = s.boostTime ∧
    (startJob id s).hiQueue = s.hiQueue ∧ (startJob id s).quantumList = s.quantumList ∧
    (startJob id s).allotmentList = s.allotmentList := by
  unfold startJob
  split <;> simp

theorem get_touch (s : State) (id k : Int) :
    (s.onJob id (fun j => j)).jobs.get k = s.jobs.get k := by
  rw [get_onJob]
  split
  · rename_i h; rw [h]
  · rfl

/-- The job state on which the slice of `runJob` is computed: the registry
entry as it was, up to the first-run bookkeeping. -/
theorem runJob_slice (q : Nat) (id : Int) (s : State) :
    timeSlice q id (startJob id (s.onJob id (fun j => j)))
      = min (vecGet s.quantumList q)
          (min (s.jobs.get id).remainingTime (s.jobs.get id).allotLeft) := by
  unfold timeSlice
  rw [(startJob_frame _ _).2.2.2.2.2.1, startJob_get, get_touch]
  simp only [onJob_quantumList, true_and]
  split <;> rfl

/-! ## Time slice of a dispatch -/

/-- The slice of a dispatch in closed form (the computation behind C1). -/
theorem dispatch_exact (s : State) (q : Nat) (jobId : Int) (rest : List Int)
    (hq : queueAt s.queues q = jobId :: rest)
    (hquantum : 0 ≤ vecGet s.quantumList q)
    (hrem : 0 ≤ (s.jobs.get jobId).remainingTime)
    (hallot : 0 ≤ (s.jobs.get jobId).allotLeft)
    (hlo : -2 ^ 31 ≤ s.currentTime)
    (hhi : s.currentTime + min (vecGet s.quantumList q)
      (min (s.jobs.get jobId).remainingTime (s.jobs.get jobId).allotLeft) < 2 ^ 31) :
    (runSlice q jobId { s with queues := popAt s.queues q }).2
      = min (vecGet s.quantumList q)
          (min (s.jobs.get jobId).remainingTime (s.jobs.get jobId).allotLeft) ∧
    (dispatch q s).currentTime
      = s.currentTime + min (vecGet s.quantumList q)
          (min (s.jobs.get jobId).remainingTime (s.jobs.get jobId).allotLeft) ∧
    ((dispatch q s).jobs.get jobId).remainingTime
      = (s.jobs.get jobId).remainingTime - min (vecGet s.quantumList q)
          (min (s.jobs.get jobId).remainingTime (s.jobs.get jobId).allotLeft) ∧
    ∀ k, k ≠ jobId →
      ((dispatch q s).jobs.get k).remainingTime = (s.jobs.get k).remainingTime := by
  have hfront : frontJob q s = jobId := by simp [frontJob, hq]
  set u := min (vecGet s.quantumList q)
    (min (s.jobs.get jobId).remainingTime (s.jobs.get jobId).allotLeft) with hu
  have hu0 : 0 ≤ u := le_min hquantum (le_min hrem hallot)
  have hur : u ≤ (s.jobs.get jobId).remainingTime :=
    le_trans (min_le_right _ _) (min_le_left _ _)
  set s0 : State := { s with queues := popAt s.queues q } with hs0
  set s2 := startJob jobId (s0.onJob jobId (fun j => j)) with hs2
  have hslice : timeSlice q jobId s2 = u := runJob_slice q jobId s0
  have hget2 : ∀ k, (s2.jobs.get k).remainingTime = (s.jobs.get k).remainingTime := by
    intro k
    rw [hs2, startJob_get]
    simp only [get_touch]
    split <;> rename_i h
    · rw [h.1]
    · rfl
  have hc2 : s2.currentTime = s.currentTime := by
    rw [hs2, (startJob_frame _ _).1]; rfl
  have hle : ((u.toNat : Nat) : Int) ≤ (s2.jobs.get jobId).remainingTime := by
    rw [hget2, Int.toNat_of_nonneg hu0]; exact hur
  obtain ⟨l1, l2, l3, l4⟩ := sliceLoop_exact jobId u.toNat s2 0 hle (by rw [hc2]; exact hlo)
    (by rw [hc2, Int.toNat_of_nonneg hu0]; exact hhi)
  rw [Int.toNat_of_nonneg hu0] at l1 l2 l3
  have hr : runSlice q jobId s0 = sliceLoop jobId u.toNat s2 0 := by
    unfold runSlice
    simp only [← hs2, hslice]
  have hd : dispatch q s
      = afterSlice jobId (sliceLoop jobId u.toNat s2 0).2 (sliceLoop jobId u.toNat s2 0).1 := by
    unfold dispatch runJob
    rw [hfront]
    simp only [← hs0, hr]
  refine ⟨by rw [hr, l3]; omega, ?_, ?_, ?_⟩
  · rw [hd, (afterSlice_frame _ _ _).1, l1, hc2]
  · rw [hd, (core_fields (afterSlice_core _ _ _ _)).2.2.2.1, l2, hget2]
  · intro k hk
    rw [hd, (core_fields (afterSlice_core _ _ _ _)).2.2.2.1, l4 k hk, hget2]

/-- C1. A dispatch from queue `q` whose front job is `jobId`, with
`quantumList[q]`, `job.remainingTime` and `job.allotLeft` non-negative at
dispatch time, runs exactly `u = min(quantumList[q], remainingTime, allotLeft)`
units, for every state whose clock is an `int` and stays one over the slice
(`currentTime + u < 2^31`), with any arrivals and any boost falling inside the
slice: the slice loop ends with `timeUsed = u`, the clock advances by `u`, the
remaining time of the job decreases by `u`, and no other job's remaining time
changes. -/
theorem dispatch_executes_min_slice (s : State) (q : Nat) (jobId : Int) (rest : List Int)
    (hq : queueAt s.queues q = jobId :: rest)
    (hquantum : 0 ≤ vecGet s.quantumList q)
    (hrem : 0 ≤ (s.jobs.get jobId).remainingTime)
    (hallot : 0 ≤ (s.jobs.get jobId).allotLeft)
    (hlo : -2 ^ 31 ≤ s.currentTime)
    (hhi : s.currentTime + min (vecGet s.quantumList q)
      (min (s.jobs.get jobId).remainingTime (s.jobs.get jobId).allotLeft) < 2 ^ 31) :
    (runSlice q jobId { s with queues := popAt s.queues q }).2
      = min (vecGet s.quantumList q)
          (min (s.jobs.get jobId).remainingTime (s.jobs.get jobId).allotLeft) ∧
    (dispatch q s).currentTime
      = s.currentTime + min (vecGet s.quantumList q)
          (min (s.jobs.get jobId).remainingTime (s.jobs.get jobId).allotLeft) ∧
    ((dispatch q s).jobs.get jobId).remainingTime
      = (s.jobs.get jobId).remainingTime - min (vecGet s.quantumList q)
          (min (s.jobs.get jobId).remainingTime (s.jobs.get jobId).allotLeft) ∧
    ∀ k, k ≠ jobId →
      ((dispatch q s).jobs.get k).remainingTime = (s.jobs.get k).remainingTime :=
  dispatch_exact s q jobId rest hq hquantum hrem hallot hlo hhi

/-- Witness for C1: the first dispatch of the default run (job 1 at level 0,
quantum 1, remaining 10, allotment 4) runs `min(1, 10, 4) = 1` unit. -/
theorem dispatch_executes_min_slice_witness :
    (queueAt sampleReady.queues 0 = 1 :: [] ∧ 0 ≤ vecGet sampleReady.quantumList (0 : Nat) ∧
      0 ≤ (sampleReady.jobs.get 1).remainingTime ∧ 0 ≤ (sampleReady.jobs.get 1).allotLeft ∧
      -2 ^ 31 ≤ sampleReady.currentTime ∧
      sampleReady.currentTime + min (vecGet sampleReady.quantumList (0 : Nat))
        (min (sampleReady.jobs.get 1).remainingTime (sampleReady.jobs.get 1).allotLeft)
        < 2 ^ 31) ∧
    (dispatch 0 sampleReady).currentTime = sampleReady.currentTime + 1 ∧
    ((dispatch 0 sampleReady).jobs.get 1).remainingTime = 10 - 1 := by
  have h := dispatch_executes_min_slice sampleReady 0 1 [] (by decide) (by decide) (by decide)
    (by decide) (by decide) (by decide)
  refine ⟨⟨by decide, by decide, by decide, by decide, by decide, by decide⟩, ?_, ?_⟩
  · have e : min (vecGet sampleReady.quantumList (0 : Nat))
        (min (sampleReady.jobs.get 1).remainingTime (sampleReady.jobs.get 1).allotLeft) = 1 := by
      decide
    rw [h.2.1, e]
  · have e : min (vecGet sampleReady.quantumList (0 : Nat))
        (min (sampleReady.jobs.get 1).remainingTime (sampleReady.jobs.get 1).allotLeft) = 1 := by
      decide
    have e2 : (sampleReady.jobs.get 1).remainingTime = 10 := by decide
    rw [h.2.2.1, e, e2]

/-! ## The boost -/

/-- C3. For every state, after `boostAllQueues`: every queue of level
`1..hiQueue` is empty; queue 0 holds its previous contents followed by the
identifiers that were waiting below level 0 (`waitingBelow`, which lists
exactly the identifiers of the queues of level `1..hiQueue`); every such job has
`currPri = 0` and `allotLeft = allotmentList[0]` and its other fields are kept;
the registry entry of every other identifier is unchanged; and `nextBoost` has
grown by exactly `boostTime`, whether or not a job was moved, when that sum is
in the range of `int` (beyond the range the `int` wraps around). -/
theorem boostAllQueues_effect (s : State) :
    (∀ j : Nat, 1 ≤ j → (j : Int) ≤ s.hiQueue → queueAt (boostAllQueues s).queues j = []) ∧
    queueAt (boostAllQueues s).queues 0 = queueAt s.queues 0 ++ waitingBelow s ∧
    (∀ id, id ∈ waitingBelow s ↔
      ∃ j : Nat, 1 ≤ j ∧ (j : Int) ≤ s.hiQueue ∧ id ∈ queueAt s.queues j) ∧
    (∀ id, id ∈ waitingBelow s →
      ((boostAllQueues s).jobs.get id).currPri = 0 ∧
      ((boostAllQueues s).jobs.get id).allotLeft = vecGet s.allotmentList 0 ∧
      ((boostAllQueues s).jobs.get id).core = (s.jobs.get id).core) ∧
    (∀ id, id ∉ waitingBelow s →
      JobMap.find? (boostAllQueues s).jobs id = JobMap.find? s.jobs id) ∧
    (-2 ^ 31 ≤ s.nextBoost + s.boostTime → s.nextBoost + s.boostTime < 2 ^ 31 →
      (boostAllQueues s).nextBoost = s.nextBoost + s.boostTime) ∧
    (boostAllQueues s).nextBoost = wrapInt (s.nextBoost + s.boostTime) ∧
    (boostAllQueues s).queues.length = s.queues.length ∧
    (boostAllQueues s).currentTime = s.currentTime := by
  obtain ⟨a1, a2, _, a4, a5, a6, a7, _⟩ := boostAllQueues_spec s
  refine ⟨fun j h1 h2 => a2 j h1 (by omega), a1, mem_waitingBelow s, ?_, ?_,
    fun h1 h2 => by rw [a7, wrapInt_eq _ h1 h2], a7, a4, a6⟩
  · intro id hid
    rw [a5, get_boostJobs, if_pos hid]
    exact ⟨rfl, rfl, rfl⟩
  · intro id hid
    rw [a5, find?_boostJobs, if_neg hid]

set_option maxRecDepth 100000 in
/-- Witness for C3: the boost of the run `-n 3 -Q 1,1,1 -A 1,1,1 -b 5` at clock 5
takes `nextBoost` from 5 to 10, and a boost with `nextBoost = boostTime =
2147483647` leaves the `int` at `-2`. -/
theorem boostAllQueues_effect_witness :
    (-2 ^ 31 ≤ boostTwoLevelsAtBoost.nextBoost + boostTwoLevelsAtBoost.boostTime ∧
      boostTwoLevelsAtBoost.nextBoost + boostTwoLevelsAtBoost.boostTime < 2 ^ 31) ∧
    (boostAllQueues boostTwoLevelsAtBoost).nextBoost
      = boostTwoLevelsAtBoost.nextBoost + boostTwoLevelsAtBoost.boostTime ∧
    (boostAllQueues { boostTwoLevelsAtBoost with
      nextBoost := 2147483647, boostTime := 2147483647 }).nextBoost = -2 :=
  ⟨⟨by decide, by decide⟩,
    (boostAllQueues_effect boostTwoLevelsAtBoost).2.2.2.2.2.1 (by decide) (by decide),
    by decide⟩

/-! ## Selection -/

/-- C4. Strict priority, then FIFO. `FindQueue` returns `-1` exactly when every
queue of level `0..hiQueue` is empty; otherwise it returns a level `q` in
`0..hiQueue` whose queue is not empty while all queues of levels below `q` are
empty. The iteration of the simulation loop then dispatches the job at the
front of queue `q`, which is removed from that queue before the job runs, so a
job of level `q` is dispatched only when the levels `0..q-1` are empty. -/
theorem select_strict_priority_fifo (s : State) :
    (FindQueue s = -1 ↔ ∀ j : Nat, (j : Int) ≤ s.hiQueue → queueAt s.queues j = []) ∧
    (FindQueue s ≠ -1 →
      ∃ q : Nat, FindQueue s = (q : Int) ∧ (q : Int) ≤ s.hiQueue ∧ queueAt s.queues q ≠ [] ∧
        ∀ j : Nat, j < q → queueAt s.queues j = []) ∧
    (FindQueue (prepare s) ≠ -1 →
      ∃ (q : Nat) (jobId : Int) (rest : List Int),
        FindQueue (prepare s) = (q : Int) ∧
        queueAt (prepare s).queues q = jobId :: rest ∧
        (∀ j : Nat, j < q → queueAt (prepare s).queues j = []) ∧
        queueAt (popAt (prepare s).queues q) q = rest ∧
        loopBody s
          = (runJob q jobId { prepare s with queues := popAt (prepare s).queues q }, true)) := by
  refine ⟨?_, ?_, ?_⟩
  · rcases FindQueue_cases s with ⟨h1, h2⟩ | ⟨q, h1, h2, h3, _⟩
    · exact ⟨fun _ => h2, fun _ => h1⟩
    · constructor
      · intro h; rw [h1] at h; omega
      · intro h; exact absurd (h q h2) h3
  · intro hne
    rcases FindQueue_cases s with ⟨h1, _⟩ | h
    · exact absurd h1 hne
    · exact h
  · intro hne
    rcases FindQueue_cases (prepare s) with ⟨h1, _⟩ | ⟨q, h1, _, h3, h4⟩
    · exact absurd h1 hne
    · obtain ⟨jobId, rest, hq⟩ := List.exists_cons_of_ne_nil h3
      refine ⟨q, jobId, rest, h1, hq, h4, ?_, ?_⟩
      · rw [queueAt_popAt, if_pos rfl, hq]; rfl
      · have hf : frontJob q (prepare s) = jobId := by simp [frontJob, hq]
        unfold loopBody
        simp only [h1]
        rw [if_neg (by omega)]
        simp only [Int.toNat_ofNat, dispatch, hf]

/-- Witness for C4 on the default run: the first iteration finds level 0 and
dispatches its front job 1. -/
theorem select_strict_priority_fifo_witness :
    FindQueue (prepare (enterSimulation Options.default (setup Options.default))) ≠ -1 ∧
    ∃ (q : Nat) (jobId : Int) (rest : List Int),
      FindQueue (prepare (enterSimulation Options.default (setup Options.default))) = (q : Int) ∧
      queueAt (prepare (enterSimulation Options.default (setup Options.default))).queues q
        = jobId :: rest :=
  ⟨by decide,
   by
    obtain ⟨q, jobId, rest, h1, h2, _⟩ :=
      (select_strict_priority_fifo (enterSimulation Options.default (setup Options.default))).2.2
        (by decide)
    exact ⟨q, jobId, rest, h1, h2⟩⟩

/-! ## Order of the boosted jobs -/

set_option maxRecDepth 100000 in
/-- C10 as stated fails on the run
`-n 3 -Q 1,1,1 -A 1,1,1 -b 5 -j "1,0,5;2,0,5;3,0,5"`. At clock 5, inside the
slice of job 2, level 0 is empty, job 3 waits at level 1 and job 1 at level 2.
The boost fires and leaves `[3, 1]` at level 0: the job taken from level 1 is
ahead of the job taken from level 2, not behind it. -/
theorem boost_order_counterexample :
    FindQueue (prepare (stateAfter 4 (loopStart boostTwoLevels))) = 1 ∧
    frontJob 1 (prepare (stateAfter 4 (loopStart boostTwoLevels))) = 2 ∧
    boostTwoLevelsAtBoost.queues = [[], [3], [1]] ∧
    boostTwoLevelsAtBoost.currentTime = boostTwoLevelsAtBoost.nextBoost ∧
    (boostCheck boostTwoLevelsAtBoost).queues = [[3, 1], [], []] ∧
    queueAt (boostAllQueues boostTwoLevelsAtBoost).queues 0
      ≠ queueAt boostTwoLevelsAtBoost.queues 0 ++ queueAt boostTwoLevelsAtBoost.queues 2
          ++ queueAt boostTwoLevelsAtBoost.queues 1 := by
  decide

/-- C10, amended. When a boost fires, the moved jobs are appended to the tail
of the level-0 queue in ascending order of their source level: after the jobs
already waiting at level 0 come the jobs of level 1, then those of level 2, and
so on up to level `hiQueue`, each level in its FIFO order. -/
theorem boost_order_ascending (s : State) :
    queueAt (boostAllQueues s).queues 0
      = queueAt s.queues 0
          ++ ((List.range' 1 s.hiQueue.toNat).map (fun q => queueAt s.queues q)).flatten := by
  rw [(boostAllQueues_spec s).1]
  rfl

/-! ## The sample runs are validated configurations and workloads -/

theorem validated_default : Validated Options.default := by
  refine ⟨by decide, by decide, ?_, ?_, by decide, by decide, ?_, by decide⟩
  · intro x hx
    simp only [Options.default, List.mem_cons, List.mem_singleton, List.not_mem_nil,
      or_false] at hx
    omega
  · intro x hx
    simp only [Options.default, List.mem_cons, List.mem_singleton, List.not_mem_nil,
      or_false] at hx
    omega
  · intro j hj
    simp only [Options.default, List.mem_cons, List.mem_singleton, List.not_mem_nil,
      or_false] at hj
    rcases hj with rfl | rfl <;> decide

theorem validated_arrivalAtSliceEnd : Validated arrivalAtSliceEnd := by
  refine ⟨by decide, by decide, ?_, ?_, by decide, by decide, ?_, by decide⟩
  · intro x hx
    simp only [arrivalAtSliceEnd, Options.default, List.mem_cons, List.mem_singleton, List.not_mem_nil,
      or_false] at hx
    omega
  · intro x hx
    simp only [arrivalAtSliceEnd, Options.default, List.mem_cons, List.mem_singleton, List.not_mem_nil,
      or_false] at hx
    omega
  · intro j hj
    simp only [arrivalAtSliceEnd, Options.default, List.mem_cons, List.mem_singleton, List.not_mem_nil,
      or_false] at hj
    rcases hj with rfl | rfl <;> decide

theorem validated_boostDuringSlice : Validated boostDuringSlice := by
  refine ⟨by decide, by decide, ?_, ?_, by decide, by decide, ?_, by decide⟩
  · intro x hx
    simp only [boostDuringSlice, List.mem_cons, List.mem_singleton, List.not_mem_nil,
      or_false] at hx
    omega
  · intro x hx
    simp only [boostDuringSlice, List.mem_cons, List.mem_singleton, List.not_mem_nil,
      or_false] at hx
    omega
  · intro j hj
    simp only [boostDuringSlice, List.mem_cons, List.mem_singleton, List.not_mem_nil,
      or_false] at hj
    rcases hj with rfl | rfl <;> decide

theorem validated_boostTwoLevels : Validated boostTwoLevels := by
  refine ⟨by decide, by decide, ?_, ?_, by decide, by decide, ?_, by decide⟩
  · intro x hx
    simp only [boostTwoLevels, List.mem_cons, List.mem_singleton, List.not_mem_nil,
      or_false] at hx
    omega
  · intro x hx
    simp only [boostTwoLevels, List.mem_cons, List.mem_singleton, List.not_mem_nil,
      or_false] at hx
    omega
  · intro j hj
    simp only [boostTwoLevels, List.mem_cons, List.mem_singleton, List.not_mem_nil,
      or_false] at hj
    rcases hj with rfl | rfl | rfl <;> decide

/-- The job records built by `parseArguments` from entries with an arrival time
of at least 0 and a positive service time are as `Validated` asks. -/
theorem parsed_jobs_valid (w : List (Int × Int × Int))
    (h : ∀ x, x ∈ w → 0 ≤ x.2.1 ∧ 0 < x.2.2) :
    ∀ j, j ∈ w.map (fun x => parseJob x.1 x.2.1 x.2.2) →
      0 ≤ j.startTime ∧ 0 < j.totalTime ∧ j.remainingTime = j.totalTime ∧ j.started = false := by
  intro j hj
  obtain ⟨x, hx, rfl⟩ := List.mem_map.mp hj
  exact ⟨(h x hx).1, (h x hx).2, rfl, rfl⟩

/-! ## Arrivals at the end of a slice are admitted twice -/

set_option maxRecDepth 100000 in
/-- C8 on the run `-j "1,0,2;2,1,1"`. Job 2 arrives at clock 1, the clock at
which the first slice of job 1 ends: the admission loop inside the slice
(main.cpp:340-350) pushes it, and the admission loop at the head of the next
iteration (main.cpp:271-281) pushes it again at the same clock, so level 0 holds
`[2, 1, 2]`. After the next dispatch job 2 is complete (`remainingTime = 0`) and
its identifier is still queued at level 0. -/
theorem duplicate_admission :
    Validated arrivalAtSliceEnd ∧
    (stateAfter 1 (loopStart arrivalAtSliceEnd)).currentTime = 1 ∧
    (stateAfter 1 (loopStart arrivalAtSliceEnd)).queues = [[2, 1], [], []] ∧
    (prepare (stateAfter 1 (loopStart arrivalAtSliceEnd))).queues = [[2, 1, 2], [], []] ∧
    (stateAfter 2 (loopStart arrivalAtSliceEnd)).queues = [[1, 2], [], []] ∧
    ((stateAfter 2 (loopStart arrivalAtSliceEnd)).jobs.get 2).remainingTime = 0 :=
  ⟨validated_arrivalAtSliceEnd, by decide⟩

set_option maxRecDepth 100000 in
/-- C2 on the run `-j "1,0,2;2,1,1"`, fourth iteration of the loop: a dispatch
after which `remainingTime` is 0 and `endTime` is not the current clock. The
second queue entry of job 2, left by the double admission at clock 1
(main.cpp:271-281 and 340-350, the defect shown for C8 and C9), is selected at
clock 3 although the job completed at clock 2: the slice loop runs no unit, so
`endTime` is not written (main.cpp:334-337 is inside the loop), `remainingTime`
stays 0 and nothing is enqueued, and `endTime` is still 2 while the clock is 3.
A dispatch of a job with work left satisfies the whole of C2
(`afterSlice_table`, `sliceLoop_endTime`). -/
theorem stale_dispatch_endTime :
    Validated arrivalAtSliceEnd ∧
    FindQueue (prepare (stateAfter 3 (loopStart arrivalAtSliceEnd))) = 0 ∧
    frontJob 0 (prepare (stateAfter 3 (loopStart arrivalAtSliceEnd))) = 2 ∧
    ((prepare (stateAfter 3 (loopStart arrivalAtSliceEnd))).jobs.get 2).remainingTime = 0 ∧
    (loopBody (stateAfter 3 (loopStart arrivalAtSliceEnd))).1
      = dispatch 0 (prepare (stateAfter 3 (loopStart arrivalAtSliceEnd))) ∧
    ((dispatch 0 (prepare (stateAfter 3 (loopStart arrivalAtSliceEnd)))).jobs.get 2).remainingTime
      = 0 ∧
    (dispatch 0 (prepare (stateAfter 3 (loopStart arrivalAtSliceEnd)))).queues = [[], [], []] ∧
    ((dispatch 0 (prepare (stateAfter 3 (loopStart arrivalAtSliceEnd)))).jobs.get 2).endTime = 2 ∧
    (dispatch 0 (prepare (stateAfter 3 (loopStart arrivalAtSliceEnd)))).currentTime = 3 ∧
    ((dispatch 0 (prepare (stateAfter 3 (loopStart arrivalAtSliceEnd)))).jobs.get 2).endTime
      ≠ (dispatch 0 (prepare (stateAfter 3 (loopStart arrivalAtSliceEnd)))).currentTime :=
  ⟨validated_arrivalAtSliceEnd, by decide⟩

set_option maxRecDepth 100000 in
/-- C9 on the run `-n 2 -Q 2,2 -A 2,4 -b 4 -j "1,0,1;2,1,10"`. Job 2 is admitted
twice at clock 1; its first entry is dispatched and demoted to level 1, its
second entry is dispatched from level 0 at clock 3 with a slice of 2 units while
the first one waits at level 1. After the first unit the clock is 4, the boost
fires and rewrites the running job: `currPri` goes from 1 to 0 and `allotLeft`
from 4 to 2. -/
theorem boost_rewrites_running_job :
    Validated boostDuringSlice ∧
    (stateAfter 2 (loopStart boostDuringSlice)).queues = [[2], [2]] ∧
    (stateAfter 2 (loopStart boostDuringSlice)).currentTime = 3 ∧
    FindQueue (prepare (stateAfter 2 (loopStart boostDuringSlice))) = 0 ∧
    frontJob 0 (prepare (stateAfter 2 (loopStart boostDuringSlice))) = 2 ∧
    timeSlice 0 2 boostDuringSliceRunning = 2 ∧
    boostDuringSliceRunning.queues = [[], [2]] ∧
    ((tick 2 boostDuringSliceRunning).jobs.get 2).currPri = 1 ∧
    ((tick 2 boostDuringSliceRunning).jobs.get 2).allotLeft = 4 ∧
    (tick 2 boostDuringSliceRunning).currentTime = (tick 2 boostDuringSliceRunning).nextBoost ∧
    ((boostCheck (tick 2 boostDuringSliceRunning)).jobs.get 2).currPri = 0 ∧
    ((boostCheck (tick 2 boostDuringSliceRunning)).jobs.get 2).allotLeft = 2 ∧
    runSlice 0 2 { prepare (stateAfter 2 (loopStart boostDuringSlice)) with
        queues := popAt (prepare (stateAfter 2 (loopStart boostDuringSlice))).queues 0 }
      = sliceLoop 2 2 boostDuringSliceRunning 0 :=
  ⟨validated_boostDuringSlice, by decide⟩

/-! ## The post-slice decision table -/

/-- The post-slice block as a decision table, for every state: with `j` the job
as the slice loop left it and `u` the units used, an unfinished job has its
allotment reduced by `u`; if that leaves it at most 0 the job is demoted by one
level below `hiQueue` (or stays at its level otherwise) and its allotment is
reset to that of its level; it is then pushed at the tail of the queue of its
level. A finished job leaves the state untouched. -/
theorem afterSlice_table (jobId u : Int) (s : State) :
    (0 < (s.jobs.get jobId).remainingTime → (s.jobs.get jobId).allotLeft - u ≤ 0 →
      (s.jobs.get jobId).currPri < s.hiQueue →
      ((afterSlice jobId u s).jobs.get jobId).currPri = (s.jobs.get jobId).currPri + 1 ∧
      ((afterSlice jobId u s).jobs.get jobId).allotLeft
        = vecGet s.allotmentList ((s.jobs.get jobId).currPri + 1) ∧
      (afterSlice jobId u s).queues
        = pushAt s.queues ((s.jobs.get jobId).currPri + 1).toNat jobId) ∧
    (0 < (s.jobs.get jobId).remainingTime → (s.jobs.get jobId).allotLeft - u ≤ 0 →
      ¬ (s.jobs.get jobId).currPri < s.hiQueue →
      ((afterSlice jobId u s).jobs.get jobId).currPri = (s.jobs.get jobId).currPri ∧
      ((afterSlice jobId u s).jobs.get jobId).allotLeft
        = vecGet s.allotmentList (s.jobs.get jobId).currPri ∧
      (afterSlice jobId u s).queues = pushAt s.queues (s.jobs.get jobId).currPri.toNat jobId) ∧
    (0 < (s.jobs.get jobId).remainingTime → 0 < (s.jobs.get jobId).allotLeft - u →
      ((afterSlice jobId u s).jobs.get jobId).currPri = (s.jobs.get jobId).currPri ∧
      ((afterSlice jobId u s).jobs.get jobId).allotLeft = (s.jobs.get jobId).allotLeft - u ∧
      (afterSlice jobId u s).queues = pushAt s.queues (s.jobs.get jobId).currPri.toNat jobId) ∧
    (¬ 0 < (s.jobs.get jobId).remainingTime → afterSlice jobId u s = s) := by
  refine ⟨?_, ?_, ?_, ?_⟩
  · intro h1 h2 h3
    simp [afterSlice, demoteOrRefresh, get_modify, h1, h2, h3]
  · intro h1 h2 h3
    simp [afterSlice, demoteOrRefresh, get_modify, h1, h2, h3]
  · intro h1 h2
    have h2n : ¬ (s.jobs.get jobId).allotLeft ≤ u := by omega
    simp [afterSlice, get_modify, h1, h2n]
  · intro h1
    simp [afterSlice, h1]

/-! ### Configuration fields are never written by the loop -/

theorem tick_frame (id : Int) (s : State) :
    (tick id s).boostTime = s.boostTime ∧ (tick id s).hiQueue = s.hiQueue ∧
    (tick id s).quantumList = s.quantumList ∧ (tick id s).allotmentList = s.allotmentList ∧
    (tick id s).numQueues = s.numQueues ∧ (tick id s).queues = s.queues ∧
    (tick id s).nextBoost = s.nextBoost ∧
    (tick id s).currentTime = wrapInt (s.currentTime + 1) := by
  simp [tick]

theorem sliceUnit_frame (id : Int) (s : State) :
    (sliceUnit id s).boostTime = s.boostTime ∧ (sliceUnit id s).hiQueue = s.hiQueue ∧
    (sliceUnit id s).quantumList = s.quantumList ∧
    (sliceUnit id s).allotmentList = s.allotmentList ∧
    (sliceUnit id s).numQueues = s.numQueues ∧
    (sliceUnit id s).queues.length = s.queues.length := by
  obtain ⟨_, _, a3, a4, a5, a6, a7, a8⟩ := admitArrivals_frame (boostCheck (tick id s))
  obtain ⟨_, b2, b3, b4, b5, b6, b7⟩ := boostCheck_frame (tick id s)
  obtain ⟨c1, c2, c3, c4, c5, c6, _, _⟩ := tick_frame id s
  unfold sliceUnit
  exact ⟨a3.trans (b2.trans c1), a4.trans (b3.trans c2), a5.trans (b4.trans c3),
    a6.trans (b5.trans c4), a7.trans (b6.trans c5), a8.trans (b7.trans (by rw [c6]))⟩

theorem sliceLoop_frame (id : Int) (n : Nat) (s : State) (u : Int) :
    (sliceLoop id n s u).1.boostTime = s.boostTime ∧
    (sliceLoop id n s u).1.hiQueue = s.hiQueue ∧
    (sliceLoop id n s u).1.quantumList = s.quantumList ∧
    (sliceLoop id n s u).1.allotmentList = s.allotmentList ∧
    (sliceLoop id n s u).1.numQueues = s.numQueues ∧
    (sliceLoop id n s u).1.queues.length = s.queues.length := by
  induction n generalizing s u with
  | zero => simp [sliceLoop]
  | succ n ih =>
    obtain ⟨c1, c2, c3, c4, c5, c6⟩ := sliceUnit_frame id s
    simp only [sliceLoop]
    split
    · simp only [finishJob, onJob_boostTime, onJob_hiQueue, onJob_quantumList,
        onJob_allotmentList, onJob_numQueues, onJob_queues]
      exact ⟨c1, c2, c3, c4, c5, c6⟩
    · obtain ⟨i1, i2, i3, i4, i5, i6⟩ := ih (sliceUnit id s) (u + 1)
      exact ⟨i1.trans c1, i2.trans c2, i3.trans c3, i4.trans c4, i5.trans c5, i6.trans c6⟩

theorem runSlice_frame (q : Nat) (id : Int) (s : State) :
    (runSlice q id s).1.boostTime = s.boostTime ∧
    (runSlice q id s).1.hiQueue = s.hiQueue ∧
    (runSlice q id s).1.quantumList = s.quantumList ∧
    (runSlice q id s).1.allotmentList = s.allotmentList ∧
    (runSlice q id s).1.numQueues = s.numQueues ∧
    (runSlice q id s).1.queues.length = s.queues.length := by
  unfold runSlice
  obtain ⟨i1, i2, i3, i4, i5, i6⟩ := sliceLoop_frame id
    (timeSlice q id (startJob id (s.onJob id (fun j => j)))).toNat
    (startJob id (s.onJob id (fun j => j))) 0
  have hs : ∀ (t : State), (startJob id t).boostTime = t.boostTime ∧
      (startJob id t).numQueues = t.numQueues := by
    intro t; unfold startJob; split <;> simp
  obtain ⟨_, f2, _, _, f5, f6, f7⟩ := startJob_frame id (s.onJob id (fun j => j))
  exact ⟨i1.trans (hs _).1, i2.trans f5, i3.trans f6, i4.trans f7, i5.trans (hs _).2,
    i6.trans (by rw [f2]; rfl)⟩

theorem finishJob_endTime (id : Int) (s : State) :
    ((finishJob id s).jobs.get id).endTime = (finishJob id s).currentTime := by
  unfold finishJob
  rw [get_onJob, if_pos rfl]
  rfl

/-- A slice loop that takes a job with work left down to no work left has
recorded the clock in `endTime`. -/
theorem sliceLoop_endTime (id : Int) (n : Nat) (s : State) (u : Int)
    (h1 : 0 < (s.jobs.get id).remainingTime)
    (h2 : ((sliceLoop id n s u).1.jobs.get id).remainingTime = 0) :
    ((sliceLoop id n s u).1.jobs.get id).endTime = (sliceLoop id n s u).1.currentTime := by
  induction n generalizing s u with
  | zero =>
    simp only [sliceLoop] at h2
    omega
  | succ n ih =>
    have hr := sliceUnit_remaining id s id
    simp only [if_true] at hr
    simp only [sliceLoop] at h2 ⊢
    split
    · exact finishJob_endTime id _
    · rename_i hne
      rw [if_neg hne] at h2
      exact ih (sliceUnit id s) (u + 1) (by omega) h2

/-- The post-slice decision table of `dispatch`, for every state. With
`r = runSlice q jobId s` the state and `timeUsed` at the end of the slice loop
of the dispatch of `jobId` from level `q`, and `j` the job in `r`:
if `j.remainingTime > 0`, the allotment is first reduced by `timeUsed`; when the
result is at most 0 and `j.currPri < hiQueue` the priority grows by exactly 1
and the allotment becomes `allotmentList[j.currPri + 1]`; when the result is at
most 0 and `j.currPri = hiQueue` the priority is kept and the allotment becomes
`allotmentList[hiQueue]`; when the result is positive the priority is kept; in
each case the identifier is pushed at the tail of the queue of the resulting
priority and no other queue changes.
If the job had `remainingTime > 0` at dispatch and `j.remainingTime = 0`, the
post-slice block changes nothing (no queue receives the job, the allotment is
not decremented) and `endTime` is the clock of the final state. -/
theorem dispatch_decision_table (q : Nat) (jobId : Int) (s : State) :
    (0 < ((runSlice q jobId s).1.jobs.get jobId).remainingTime →
      (((runSlice q jobId s).1.jobs.get jobId).allotLeft - (runSlice q jobId s).2 ≤ 0 →
        ((runSlice q jobId s).1.jobs.get jobId).currPri < s.hiQueue →
        ((runJob q jobId s).jobs.get jobId).currPri
          = ((runSlice q jobId s).1.jobs.get jobId).currPri + 1 ∧
        ((runJob q jobId s).jobs.get jobId).allotLeft
          = vecGet s.allotmentList (((runSlice q jobId s).1.jobs.get jobId).currPri + 1) ∧
        (runJob q jobId s).queues
          = pushAt (runSlice q jobId s).1.queues
              (((runSlice q jobId s).1.jobs.get jobId).currPri + 1).toNat jobId) ∧
      (((runSlice q jobId s).1.jobs.get jobId).allotLeft - (runSlice q jobId s).2 ≤ 0 →
        ((runSlice q jobId s).1.jobs.get jobId).currPri = s.hiQueue →
        ((runJob q jobId s).jobs.get jobId).currPri = s.hiQueue ∧
        ((runJob q jobId s).jobs.get jobId).allotLeft = vecGet s.allotmentList s.hiQueue ∧
        (runJob q jobId s).queues
          = pushAt (runSlice q jobId s).1.queues s.hiQueue.toNat jobId) ∧
      (0 < ((runSlice q jobId s).1.jobs.get jobId).allotLeft - (runSlice q jobId s).2 →
        ((runJob q jobId s).jobs.get jobId).currPri
          = ((runSlice q jobId s).1.jobs.get jobId).currPri ∧
        ((runJob q jobId s).jobs.get jobId).allotLeft
          = ((runSlice q jobId s).1.jobs.get jobId).allotLeft - (runSlice q jobId s).2 ∧
        (runJob q jobId s).queues
          = pushAt (runSlice q jobId s).1.queues
              ((runSlice q jobId s).1.jobs.get jobId).currPri.toNat jobId)) ∧
    (0 < (s.jobs.get jobId).remainingTime →
      ((runSlice q jobId s).1.jobs.get jobId).remainingTime = 0 →
      runJob q jobId s = (runSlice q jobId s).1 ∧
      ((runJob q jobId s).jobs.get jobId).endTime = (runJob q jobId s).currentTime) := by
  have hhi : (runSlice q jobId s).1.hiQueue = s.hiQueue := (runSlice_frame q jobId s).2.1
  have hal : (runSlice q jobId s).1.allotmentList = s.allotmentList :=
    (runSlice_frame q jobId s).2.2.2.1
  obtain ⟨t1, t2, t3, t4⟩ := afterSlice_table jobId (runSlice q jobId s).2 (runSlice q jobId s).1
  rw [hhi, hal] at t1 t2
  refine ⟨fun hpos => ⟨fun h1 h2 => t1 hpos h1 h2, fun h1 h2 => ?_, fun h1 => t3 hpos h1⟩,
    fun h0 hz => ?_⟩
  · have := t2 hpos h1 (by omega)
    rw [h2] at this
    exact this
  · have hs : runJob q jobId s = (runSlice q jobId s).1 := t4 (by omega)
    refine ⟨hs, ?_⟩
    rw [hs]
    unfold runSlice at hz ⊢
    refine sliceLoop_endTime jobId _ _ 0 ?_ hz
    rw [startJob_get]
    simp only [get_touch]
    split
    · exact h0
    · exact h0

set_option maxRecDepth 100000 in
/-- The decision table on two dispatches: the first dispatch of the default run
leaves job 1 with 9 units of work and an allotment of `4 - 1 = 3` at level 0, where it is pushed
again; the dispatch of job 2 in the run `-j "1,0,2;2,1,1"` completes it at
clock 2, which is its `endTime`, and enqueues nothing. -/
theorem dispatch_decision_table_witness :
    (0 < ((runSlice 0 1 samplePopped).1.jobs.get 1).remainingTime ∧
      0 < ((runSlice 0 1 samplePopped).1.jobs.get 1).allotLeft - (runSlice 0 1 samplePopped).2 ∧
      ((runJob 0 1 samplePopped).jobs.get 1).currPri = 0 ∧
      ((runJob 0 1 samplePopped).jobs.get 1).allotLeft = 3 ∧
      (runJob 0 1 samplePopped).queues = [[1], [], []]) ∧
    (0 < (sampleFinishing.jobs.get 2).remainingTime ∧
      ((runSlice 0 2 sampleFinishing).1.jobs.get 2).remainingTime = 0 ∧
      runJob 0 2 sampleFinishing = (runSlice 0 2 sampleFinishing).1 ∧
      ((runJob 0 2 sampleFinishing).jobs.get 2).endTime = 2 ∧
      (runJob 0 2 sampleFinishing).currentTime = 2) := by
  have hA := ((dispatch_decision_table 0 1 samplePopped).1 (by decide)).2.2 (by decide)
  have hB := (dispatch_decision_table 0 2 sampleFinishing).2 (by decide) (by decide)
  refine ⟨⟨by decide, by decide, ?_, ?_, ?_⟩, ⟨by decide, by decide, hB.1, ?_, by decide⟩⟩
  · rw [hA.1]; decide
  · rw [hA.2.1]; decide
  · rw [hA.2.2]; decide
  · rw [hB.2]; decide

/-! ## Registry keys -/

theorem keys_update (m : JobMap) (k : Int) (f : Job → Job) :
    (JobMap.update m k f).keys = m.keys := by
  induction m with
  | nil => rfl
  | cons p rest ih =>
    obtain ⟨a, j⟩ := p
    simp only [JobMap.update]
    split
    · rfl
    · simp only [JobMap.keys, List.map_cons] at ih ⊢
      rw [ih]

theorem keys_modify (m : JobMap) (k : Int) (f : Job → Job) (j : Job)
    (h : JobMap.find? m k = some j) : (JobMap.modify m k f).keys = m.keys := by
  unfold JobMap.modify
  rw [h]
  simp [keys_update]

theorem keys_mapJobs (m : JobMap) (g : Job → Job) :
    JobMap.keys (m.map (fun p => (p.1, g p.2))) = m.keys := by
  simp [JobMap.keys, List.map_map, Function.comp_def]

theorem find?_none_iff (m : JobMap) (k : Int) : JobMap.find? m k = none ↔ k ∉ m.keys := by
  induction m with
  | nil => simp [JobMap.find?, JobMap.keys]
  | cons p rest ih =>
    obtain ⟨a, j⟩ := p
    simp only [JobMap.find?, JobMap.keys, List.map_cons, List.mem_cons, not_or] at ih ⊢
    by_cases h : k = a
    · simp [h]
    · simp [h, ih]

theorem find?_some_mem (m : JobMap) (k : Int) (j : Job) (h : JobMap.find? m k = some j) :
    (k, j) ∈ m := by
  induction m with
  | nil => simp [JobMap.find?] at h
  | cons p rest ih =>
    obtain ⟨a, j2⟩ := p
    simp only [JobMap.find?] at h
    by_cases hk : k = a
    · rw [if_pos hk] at h
      simp only [Option.some.injEq] at h
      rw [hk, h]
      exact List.mem_cons_self _ _
    · rw [if_neg hk] at h
      exact List.mem_cons_of_mem _ (ih h)

theorem find?_of_mem (m : JobMap) (hn : m.keys.Nodup) (p : Int × Job) (h : p ∈ m) :
    JobMap.find? m p.1 = some p.2 := by
  induction m with
  | nil => cases h
  | cons q rest ih =>
    obtain ⟨a, j2⟩ := q
    simp only [JobMap.keys, List.map_cons, List.nodup_cons] at hn
    simp only [JobMap.find?]
    rcases List.mem_cons.mp h with h1 | h1
    · rw [h1]; simp
    · have hne : p.1 ≠ a := by
        intro e
        apply hn.1
        rw [← e]
        exact List.mem_map_of_mem Prod.fst h1
      rw [if_neg hne]
      exact ih hn.2 h1

theorem get_of_find? {m : JobMap} {k : Int} {j : Job} (h : JobMap.find? m k = some j) :
    m.get k = j := by
  simp [JobMap.get, h]

theorem find?_of_mem_keys (m : JobMap) (k : Int) (h : k ∈ m.keys) :
    ∃ j, JobMap.find? m k = some j := by
  cases hf : JobMap.find? m k with
  | none => exact absurd h ((find?_none_iff m k).mp hf)
  | some j => exact ⟨j, rfl⟩

theorem mem_keys_of_find? {m : JobMap} {k : Int} {j : Job} (h : JobMap.find? m k = some j) :
    k ∈ m.keys := by
  by_contra hk
  rw [(find?_none_iff m k).mpr hk] at h
  cases h

theorem keys_boostJobs (a0 : Int) (ids : List Int) (m : JobMap)
    (h : ∀ id ∈ ids, id ∈ m.keys) : (boostJobs a0 ids m).keys = m.keys := by
  induction ids generalizing m with
  | nil => rfl
  | cons id l ih =>
    rw [boostJobs_cons]
    obtain ⟨j, hj⟩ := find?_of_mem_keys m id (h id (List.mem_cons_self _ _))
    have k1 : (m.modify id (fun j => { j with currPri := 0 })).keys = m.keys :=
      keys_modify m id _ j hj
    have hj2 : JobMap.find? (m.modify id (fun j => { j with currPri := 0 })) id
        = some ({ j with currPri := 0 }) := by
      rw [find?_modify, if_pos rfl, get_of_find? hj]
    have k2 := keys_modify (m.modify id (fun j => { j with currPri := 0 })) id
      (fun j => { j with allotLeft := a0 }) _ hj2
    rw [ih, k2, k1]
    intro x hx
    rw [k2, k1]
    exact h x (List.mem_cons_of_mem _ hx)

/-! ## Queue contents as one list -/

theorem flatten_pushAt (qs : List (List Int)) (i : Nat) (id : Int) (h : i < qs.length) :
    List.Perm (pushAt qs i id).flatten (id :: qs.flatten) := by
  induction qs generalizing i with
  | nil => simp at h
  | cons q rest ih =>
    cases i with
    | zero =>
      simp only [pushAt, List.modify, List.flatten_cons]
      show List.Perm ((q ++ [id]) ++ rest.flatten) (id :: (q ++ rest.flatten))
      rw [List.append_assoc]
      exact List.perm_middle
    | succ i =>
      have h2 : i < rest.length := by simpa using h
      have := ih i h2
      simp only [pushAt, List.modify_succ_cons, List.flatten_cons] at this ⊢
      exact (List.Perm.append_left q this).trans List.perm_middle

theorem flatten_popAt (qs : List (List Int)) (i : Nat) (id : Int) (rest : List Int)
    (h : queueAt qs i = id :: rest) :
    List.Perm qs.flatten (id :: (popAt qs i).flatten) := by
  induction qs generalizing i with
  | nil => simp [queueAt] at h
  | cons q tl ih =>
    cases i with
    | zero =>
      have hq : q = id :: rest := by simpa [queueAt] using h
      subst hq
      simp [popAt, List.modify]
    | succ i =>
      have h2 : queueAt tl i = id :: rest := by simpa [queueAt] using h
      have := ih i h2
      simp only [popAt, List.modify_succ_cons, List.flatten_cons] at this ⊢
      exact (List.Perm.append_left q this).trans List.perm_middle

theorem flatten_foldl_pushAt (ids : List Int) (qs : List (List Int)) (h : 0 < qs.length) :
    List.Perm (ids.foldl (fun qs id => pushAt qs 0 id) qs).flatten (qs.flatten ++ ids) := by
  induction ids generalizing qs with
  | nil => simp
  | cons id l ih =>
    rw [List.foldl_cons]
    have h1 := ih (pushAt qs 0 id) (by rw [length_pushAt]; exact h)
    have h2 := flatten_pushAt qs 0 id h
    refine h1.trans ?_
    refine (List.Perm.append_right l h2).trans ?_
    simp only [List.cons_append]
    exact List.perm_middle.symm

theorem queues_eq_map (qs : List (List Int)) :
    qs = (List.range qs.length).map (queueAt qs) := by
  apply List.ext_getElem
  · simp
  · intro n h1 h2
    simp [queueAt, List.getD_eq_getElem?_getD, List.getElem?_eq_getElem h1]

theorem queues_ext (qs qs2 : List (List Int)) (hl : qs.length = qs2.length)
    (h : ∀ j, queueAt qs j = queueAt qs2 j) : qs = qs2 := by
  rw [queues_eq_map qs, queues_eq_map qs2, hl]
  exact List.map_congr_left (fun j _ => h j)

theorem flatten_map_nil (l : List Nat) (f : Nat → List Int) (h : ∀ j ∈ l, f j = []) :
    (l.map f).flatten = [] := by
  induction l with
  | nil => rfl
  | cons a l ih =>
    simp only [List.map_cons, List.flatten_cons]
    rw [h a (List.mem_cons_self _ _), ih (fun j hj => h j (List.mem_cons_of_mem _ hj))]
    rfl

theorem flatten_split (qs : List (List Int)) (H : Nat) (h : qs.length = H + 1) :
    qs.flatten = queueAt qs 0 ++ ((List.range' 1 H).map (queueAt qs)).flatten := by
  conv_lhs => rw [queues_eq_map qs, h, List.range_eq_range', List.range'_succ]
  simp

/-- The boost keeps the sequence of all queued identifiers, read level by level. -/
theorem flatten_boostAllQueues (s : State) (h : s.queues.length = s.hiQueue.toNat + 1) :
    (boostAllQueues s).queues.flatten = s.queues.flatten := by
  obtain ⟨a1, a2, _, a4, _⟩ := boostAllQueues_spec s
  rw [flatten_split _ s.hiQueue.toNat (a4.trans h), flatten_split _ s.hiQueue.toNat h, a1,
    flatten_map_nil _ _ (fun j hj => by
      rw [List.mem_range'_1] at hj
      exact a2 j hj.1 (by omega))]
  simp [waitingBelow, List.flatMap]

theorem mem_waitingBelow_flatten (s : State) (id : Int) (h : id ∈ waitingBelow s) :
    id ∈ s.queues.flatten := by
  obtain ⟨j, _, _, hj⟩ := (mem_waitingBelow s id).mp h
  rw [List.mem_flatten]
  refine ⟨queueAt s.queues j, ?_, hj⟩
  have hlt : j < s.queues.length := by
    by_contra hn
    have : queueAt s.queues j = [] := by
      simp [queueAt, List.getD_eq_getElem?_getD, List.getElem?_eq_none (Nat.le_of_not_lt hn)]
    rw [this] at hj
    cases hj
  have : queueAt s.queues j = s.queues[j] := by
    simp [queueAt, List.getD_eq_getElem?_getD, List.getElem?_eq_getElem hlt]
  rw [this]
  exact List.getElem_mem _

theorem mem_flatten_queueAt (qs : List (List Int)) (id : Int) (h : id ∈ qs.flatten) :
    ∃ j, j < qs.length ∧ id ∈ queueAt qs j := by
  rw [List.mem_flatten] at h
  obtain ⟨l, hl, hid⟩ := h
  obtain ⟨j, hj, e⟩ := List.getElem_of_mem hl
  refine ⟨j, hj, ?_⟩
  have : queueAt qs j = qs[j] := by
    simp [queueAt, List.getD_eq_getElem?_getD, List.getElem?_eq_getElem hj]
  rw [this, e]
  exact hid

theorem arrivals_mem (t : Int) (m : JobMap) (hn : m.keys.Nodup) (id : Int) :
    id ∈ arrivals t m ↔ ∃ j, JobMap.find? m id = some j ∧ j.startTime = t := by
  simp only [arrivals, List.mem_map, List.mem_filter, decide_eq_true_eq]
  constructor
  · rintro ⟨p, ⟨hp, ht⟩, rfl⟩
    exact ⟨p.2, find?_of_mem m hn p hp, ht⟩
  · rintro ⟨j, hj, ht⟩
    exact ⟨(id, j), ⟨find?_some_mem m id j hj, ht⟩, rfl⟩

theorem sum_map_le (l : List Int) (f g : Int → Nat) (h : ∀ k ∈ l, f k ≤ g k) :
    (l.map f).sum ≤ (l.map g).sum := by
  induction l with
  | nil => simp
  | cons a l ih =>
    simp only [List.map_cons, List.sum_cons]
    have h1 := h a (List.mem_cons_self _ _)
    have h2 := ih (fun k hk => h k (List.mem_cons_of_mem _ hk))
    omega

theorem sum_map_lt (l : List Int) (f g : Int → Nat) (h : ∀ k ∈ l, f k ≤ g k)
    (k0 : Int) (hk0 : k0 ∈ l) (hlt : f k0 < g k0) : (l.map f).sum < (l.map g).sum := by
  induction l with
  | nil => cases hk0
  | cons a l ih =>
    simp only [List.map_cons, List.sum_cons]
    have h1 := h a (List.mem_cons_self _ _)
    have h2 := sum_map_le l f g (fun k hk => h k (List.mem_cons_of_mem _ hk))
    rcases List.mem_cons.mp hk0 with e | e
    · rw [e] at hlt; omega
    · have := ih (fun k hk => h k (List.mem_cons_of_mem _ hk)) e
      omega

/-! ## The clock stays in the range of `int` -/

theorem sum_map_sub (l : List Int) (hn : l.Nodup) (f g : Int → Int) (id : Int) (u : Int)
    (hid : id ∈ l) (h1 : g id = f id - u) (h2 : ∀ k, k ≠ id → g k = f k) :
    (l.map g).sum = (l.map f).sum - u := by
  induction l with
  | nil => cases hid
  | cons a l ih =>
    simp only [List.nodup_cons] at hn
    simp only [List.map_cons, List.sum_cons]
    rcases List.mem_cons.mp hid with e | e
    · subst e
      have : l.map g = l.map f :=
        List.map_congr_left (fun k hk => h2 k (fun hc => hn.1 (hc ▸ hk)))
      rw [this, h1]
      omega
    · have ha : a ≠ id := fun hc => hn.1 (hc ▸ e)
      rw [ih hn.2 e, h2 a ha]
      omega

theorem sum_map_same (l : List Int) (f g : Int → Int) (h : ∀ k, g k = f k) :
    (l.map g).sum = (l.map f).sum := by
  rw [List.map_congr_left (fun k _ => h k)]

theorem foldl_max_le (l : List Int) (init : Int) :
    init ≤ l.foldl max init ∧ ∀ x, x ∈ l → x ≤ l.foldl max init := by
  induction l generalizing init with
  | nil => exact ⟨le_refl _, fun x hx => absurd hx (List.not_mem_nil x)⟩
  | cons a l ih =>
    obtain ⟨h1, h2⟩ := ih (max init a)
    rw [List.foldl_cons]
    refine ⟨le_trans (le_max_left _ _) h1, ?_⟩
    intro x hx
    rcases List.mem_cons.mp hx with rfl | hm
    · exact le_trans (le_max_right _ _) h1
    · exact h2 x hm

theorem sum_map_nonneg (l : List Int) (f : Int → Int) (h : ∀ k, k ∈ l → 0 ≤ f k) :
    0 ≤ (l.map f).sum ∧ ∀ k, k ∈ l → f k ≤ (l.map f).sum := by
  induction l with
  | nil => exact ⟨le_refl _, fun k hk => absurd hk (List.not_mem_nil k)⟩
  | cons a l ih =>
    obtain ⟨i1, i2⟩ := ih (fun k hk => h k (List.mem_cons_of_mem _ hk))
    have ha := h a (List.mem_cons_self _ _)
    simp only [List.map_cons, List.sum_cons]
    refine ⟨by omega, ?_⟩
    intro k hk
    rcases List.mem_cons.mp hk with rfl | hm
    · omega
    · have := i2 k hm
      omega

theorem foldl_max_bound (xs : List Int) (init M : Int) (hi : init ≤ M)
    (hx : ∀ x, x ∈ xs → x ≤ M) : xs.foldl max init ≤ M := by
  induction xs generalizing init with
  | nil => exact hi
  | cons a xs ih =>
    rw [List.foldl_cons]
    exact ih _ (max_le hi (hx a (List.mem_cons_self _ _)))
      (fun x hm => hx x (List.mem_cons_of_mem _ hm))

theorem le_maxStart (m0 : JobMap) :
    0 ≤ maxStart m0 ∧ ∀ k, k ∈ m0.keys → (m0.get k).startTime ≤ maxStart m0 := by
  obtain ⟨h1, h2⟩ := foldl_max_le (m0.keys.map (fun k => (m0.get k).startTime)) 0
  exact ⟨h1, fun k hk => h2 _ (List.mem_map.mpr ⟨k, hk, rfl⟩)⟩

/-- A step that leaves the clock and the work left of every job alone keeps the
budget of the clock. -/
theorem Budget.keep {m0 : JobMap} {s s2 : State} (h : Budget m0 s)
    (hc : s2.currentTime = s.currentTime)
    (hr : ∀ k, k ∈ m0.keys → (s2.jobs.get k).remainingTime = (s.jobs.get k).remainingTime) :
    Budget m0 s2 := by
  have e : remainingSum m0 s2 = remainingSum m0 s := by
    unfold remainingSum
    exact congrArg List.sum (List.map_congr_left hr)
  exact ⟨by rw [hc]; exact h.clock, h.room, by rw [e]; exact h.work, by rw [hc, e]; exact h.time⟩

/-- A step that moves the clock forward keeps its budget when the clock gains
no more than job `id` loses of its work left, or when the new clock is still
no later than the latest arrival. -/
theorem Budget.spend {m0 : JobMap} {s s2 : State} (id : Int) (h : Budget m0 s)
    (hn : m0.keys.Nodup) (hid : id ∈ m0.keys) (hc : s.currentTime ≤ s2.currentTime)
    (hother : ∀ k, k ≠ id → (s2.jobs.get k).remainingTime = (s.jobs.get k).remainingTime)
    (hrem : (s2.jobs.get id).remainingTime ≤ (s.jobs.get id).remainingTime)
    (hclk : s2.currentTime + (s2.jobs.get id).remainingTime
        ≤ s.currentTime + (s.jobs.get id).remainingTime ∨ s2.currentTime ≤ maxStart m0) :
    Budget m0 s2 := by
  have e : remainingSum m0 s2 = remainingSum m0 s
      - ((s.jobs.get id).remainingTime - (s2.jobs.get id).remainingTime) := by
    unfold remainingSum
    refine sum_map_sub m0.keys hn _ _ id _ hid ?_ hother
    show (s2.jobs.get id).remainingTime = (s.jobs.get id).remainingTime
      - ((s.jobs.get id).remainingTime - (s2.jobs.get id).remainingTime)
    omega
  have h1 := h.clock
  have h2 := h.work
  have h3 := h.time
  refine ⟨by omega, h.room, by omega, ?_⟩
  rcases hclk with hk | hk <;> omega

/-! ## Preservation of the invariant -/

theorem JobOK_boostJob {hi t a0 : Int} {j : Job} (h : JobOK hi t j) (ha : 1 ≤ a0)
    (hhi : 0 ≤ hi) : JobOK hi t (boostJob a0 j) := by
  obtain ⟨h1, h2, h3, h4, _, _, _, h8, h9, h10⟩ := h
  exact ⟨h1, h2, h3, h4, ha, le_refl _, hhi, h8, h9, h10⟩

theorem JobOK_mono {hi t t2 : Int} {j : Job} (h : JobOK hi t j) (ht : t ≤ t2) :
    JobOK hi t2 j := by
  obtain ⟨h1, h2, h3, h4, h5, h6, h7, h8, h9, h10⟩ := h
  exact ⟨h1, h2, h3, h4, h5, h6, h7, h8, h9, fun hlt => le_trans (h10 hlt) ht⟩

theorem Config.frame {s s2 : State} (h : Config s) (e1 : s2.hiQueue = s.hiQueue)
    (e2 : s2.quantumList = s.quantumList) (e3 : s2.allotmentList = s.allotmentList)
    (e4 : s2.queues.length = s.queues.length) : Config s2 :=
  ⟨by rw [e1]; exact h.hi, by rw [e4, e1]; exact h.qlen,
   by rw [e1, e2]; exact h.quantum, by rw [e1, e3]; exact h.allot⟩

/-- A step that leaves the clock alone, resets some jobs to level 0 and adds to
the queues only identifiers of jobs that have arrived keeps the invariant. -/
theorem Inv.reset {m0 : JobMap} {run : Option Int} {d : Int} {s s2 : State}
    (h : Inv m0 run d s)
    (e1 : s2.hiQueue = s.hiQueue) (e2 : s2.quantumList = s.quantumList)
    (e3 : s2.allotmentList = s.allotmentList) (e4 : s2.queues.length = s.queues.length)
    (e5 : s2.currentTime = s.currentTime) (hkeys : s2.jobs.keys = s.jobs.keys)
    (hjobs : ∀ k j2, JobMap.find? s2.jobs k = some j2 →
      ∃ j, JobMap.find? s.jobs k = some j ∧
        (j2 = j ∨ j2 = boostJob (vecGet s.allotmentList 0) j))
    (hq : ∀ id, id ∈ s2.queues.flatten → id ∈ s.queues.flatten ∨
      ∃ j, JobMap.find? s.jobs id = some j ∧ j.startTime ≤ s.currentTime)
    (hq2 : ∀ id, id ∈ s.queues.flatten → id ∈ s2.queues.flatten) :
    Inv m0 run d s2 := by
  have ha0 : 1 ≤ vecGet s.allotmentList 0 := h.cfg.allot 0 (le_refl _) h.cfg.hi
  have hfwd : ∀ k j, JobMap.find? s.jobs k = some j →
      ∃ j2, JobMap.find? s2.jobs k = some j2 ∧
        (j2 = j ∨ j2 = boostJob (vecGet s.allotmentList 0) j) := by
    intro k j hj
    have hk : k ∈ s2.jobs.keys := by rw [hkeys]; exact mem_keys_of_find? hj
    obtain ⟨j2, hj2⟩ := find?_of_mem_keys _ _ hk
    obtain ⟨j', hj', hr⟩ := hjobs k j2 hj2
    rw [hj] at hj'
    simp only [Option.some.injEq] at hj'
    subst hj'
    exact ⟨j2, hj2, hr⟩
  refine ⟨h.cfg.frame e1 e2 e3 e4, h.nodup, hkeys.trans h.keys, ?_, ?_, ?_, ?_, ?_,
    h.budget.keep e5 ?_⟩
  · intro k j2 hj2
    obtain ⟨j, hj, hr⟩ := hjobs k j2 hj2
    have := h.const k j hj
    rcases hr with rfl | rfl
    · exact this
    · exact this
  · intro k j2 hj2
    obtain ⟨j, hj, hr⟩ := hjobs k j2 hj2
    obtain ⟨o1, o2⟩ := h.ok k j hj
    rw [e1, e5]
    rcases hr with rfl | rfl
    · exact ⟨o1, o2⟩
    · exact ⟨JobOK_boostJob o1 ha0 h.cfg.hi, o2⟩
  · intro id hid
    rw [e5]
    rcases hq id hid with hin | ⟨j, hj, ht⟩
    · obtain ⟨j, hj, ht⟩ := h.queued id hin
      obtain ⟨j2, hj2, hr⟩ := hfwd id j hj
      refine ⟨j2, hj2, ?_⟩
      rcases hr with rfl | rfl
      · exact ht
      · exact ht
    · obtain ⟨j2, hj2, hr⟩ := hfwd id j hj
      refine ⟨j2, hj2, ?_⟩
      rcases hr with rfl | rfl
      · exact ht
      · exact ht
  · intro k j2 hj2 hpos ht
    obtain ⟨j, hj, hr⟩ := hjobs k j2 hj2
    rw [e5] at ht
    have hal := h.alive k j hj
    rcases hr with rfl | rfl
    · rcases hal hpos ht with hin | hrun
      · exact Or.inl (hq2 k hin)
      · exact Or.inr hrun
    · rcases hal hpos ht with hin | hrun
      · exact Or.inl (hq2 k hin)
      · exact Or.inr hrun
  · intro id hid
    obtain ⟨j, hj, ht⟩ := h.running id hid
    obtain ⟨j2, hj2, hr⟩ := hfwd id j hj
    rw [e5]
    refine ⟨j2, hj2, ?_⟩
    rcases hr with rfl | rfl
    · exact ht
    · exact ht
  · intro k hk
    obtain ⟨j, hj⟩ := find?_of_mem_keys s.jobs k (by rw [h.keys]; exact hk)
    obtain ⟨j2, hj2, hr⟩ := hfwd k j hj
    rw [get_of_find? hj2, get_of_find? hj]
    rcases hr with rfl | rfl <;> rfl

theorem Inv.boostCheck {m0 : JobMap} {run : Option Int} {d : Int} {s : State}
    (h : Inv m0 run d s) : Inv m0 run d (boostCheck s) := by
  unfold MLFQ.boostCheck
  split
  · obtain ⟨_, _, _, a4, a5, a6, _, _, a9, a10, a11, _⟩ := boostAllQueues_spec s
    have hfl := flatten_boostAllQueues s h.cfg.qlen
    have hex : ∀ id ∈ waitingBelow s, id ∈ s.jobs.keys := by
      intro id hid
      obtain ⟨j, hj, _⟩ := h.queued id (mem_waitingBelow_flatten s id hid)
      exact mem_keys_of_find? hj
    refine h.reset a9 a10 a11 a4 a6 (by rw [a5]; exact keys_boostJobs _ _ _ hex) ?_ ?_ ?_
    · intro k j2 hj2
      rw [a5, find?_boostJobs] at hj2
      by_cases hk : k ∈ waitingBelow s
      · rw [if_pos hk] at hj2
        obtain ⟨j, hj⟩ := find?_of_mem_keys _ _ (hex k hk)
        rw [get_of_find? hj] at hj2
        simp only [Option.some.injEq] at hj2
        exact ⟨j, hj, Or.inr hj2.symm⟩
      · rw [if_neg hk] at hj2
        exact ⟨j2, hj2, Or.inl rfl⟩
    · intro id hid
      rw [hfl] at hid
      exact Or.inl hid
    · intro id hid
      rw [hfl]
      exact hid
  · exact h

theorem admitJob_cases (t a0 : Int) (j : Job) :
    admitJob t a0 j = j ∨ admitJob t a0 j = boostJob a0 j := by
  unfold admitJob
  split
  · exact Or.inr rfl
  · exact Or.inl rfl

theorem Inv.admitArrivals {m0 : JobMap} {run : Option Int} {d : Int} {s : State}
    (h : Inv m0 run d s) (hd : d ≤ 1) : Inv m0 run 0 (admitArrivals s) := by
  obtain ⟨f1, _, _, f4, f5, f6, _, f8⟩ := admitArrivals_frame s
  have hlen : 0 < s.queues.length := by rw [h.cfg.qlen]; omega
  have hperm : List.Perm (MLFQ.admitArrivals s).queues.flatten
      (s.queues.flatten ++ arrivals s.currentTime s.jobs) := by
    simp only [MLFQ.admitArrivals]
    exact flatten_foldl_pushAt _ _ hlen
  have hn : s.jobs.keys.Nodup := by rw [h.keys]; exact h.nodup
  have hkeys : (MLFQ.admitArrivals s).jobs.keys = s.jobs.keys := by
    simp only [MLFQ.admitArrivals]
    exact keys_mapJobs _ _
  have hjobs : ∀ k j2, JobMap.find? (MLFQ.admitArrivals s).jobs k = some j2 →
      ∃ j, JobMap.find? s.jobs k = some j ∧
        j2 = admitJob s.currentTime (vecGet s.allotmentList 0) j := by
    intro k j2 hj2
    rw [admitArrivals_find?] at hj2
    cases hj : JobMap.find? s.jobs k with
    | none => rw [hj] at hj2; cases hj2
    | some j =>
      rw [hj] at hj2
      simp only [Option.map_some', Option.some.injEq] at hj2
      exact ⟨j, rfl, hj2.symm⟩
  have base : Inv m0 run d (MLFQ.admitArrivals s) := by
    refine h.reset f4 f5 f6 f8 f1 hkeys ?_ ?_ ?_
    · intro k j2 hj2
      obtain ⟨j, hj, e⟩ := hjobs k j2 hj2
      refine ⟨j, hj, ?_⟩
      rw [e]
      exact admitJob_cases _ _ _
    · intro id hid
      have := (hperm.mem_iff).mp hid
      rcases List.mem_append.mp this with h1 | h1
      · exact Or.inl h1
      · obtain ⟨j, hj, ht⟩ := (arrivals_mem _ _ hn id).mp h1
        exact Or.inr ⟨j, hj, le_of_eq ht⟩
    · intro id hid
      exact (hperm.mem_iff).mpr (List.mem_append_left _ hid)
  refine ⟨base.cfg, base.nodup, base.keys, base.const, base.ok, base.queued, ?_, base.running,
    base.budget⟩
  intro k j2 hj2 hpos ht
  by_cases hlate : j2.startTime + d ≤ (MLFQ.admitArrivals s).currentTime
  · exact base.alive k j2 hj2 hpos hlate
  · left
    obtain ⟨j, hj, e⟩ := hjobs k j2 hj2
    have hst : j2.startTime = j.startTime := by
      rw [e]
      rcases admitJob_cases s.currentTime (vecGet s.allotmentList 0) j with e2 | e2 <;> rw [e2]
      rfl
    rw [f1] at ht hlate
    have : j.startTime = s.currentTime := by omega
    exact (hperm.mem_iff).mpr (List.mem_append_right _ ((arrivals_mem _ _ hn k).mpr ⟨j, hj, this⟩))

theorem find?_get_of_mem_keys (m : JobMap) (k : Int) (h : k ∈ m.keys) :
    JobMap.find? m k = some (m.get k) := by
  obtain ⟨j, hj⟩ := find?_of_mem_keys m k h
  rw [hj, get_of_find? hj]

/-- What the invariant says of the clock: it is not negative, it is at most the
latest arrival plus the total service time, which is below `2^31`, and so is the
clock plus the work left of any job. -/
theorem Inv.fits {m0 : JobMap} {run : Option Int} {d : Int} {s : State} (h : Inv m0 run d s) :
    0 ≤ s.currentTime ∧ 0 ≤ remainingSum m0 s ∧ 0 ≤ workBound m0 ∧
    s.currentTime ≤ maxStart m0 + workBound m0 ∧ maxStart m0 + workBound m0 < 2 ^ 31 ∧
    ∀ k, k ∈ m0.keys →
      0 ≤ (s.jobs.get k).remainingTime ∧
      s.currentTime + (s.jobs.get k).remainingTime ≤ maxStart m0 + workBound m0 := by
  have hnn : ∀ k, k ∈ m0.keys → 0 ≤ (s.jobs.get k).remainingTime := by
    intro k hk
    have hf := find?_get_of_mem_keys s.jobs k (by rw [h.keys]; exact hk)
    exact (h.ok k _ hf).1.2.2.1
  obtain ⟨n1, n2⟩ := sum_map_nonneg m0.keys (fun k => (s.jobs.get k).remainingTime) hnn
  have n1 : 0 ≤ remainingSum m0 s := n1
  have h1 := h.budget.clock
  have h2 := h.budget.work
  have h3 := h.budget.time
  refine ⟨h1, n1, by omega, by omega, h.budget.room, ?_⟩
  intro k hk
  have : (s.jobs.get k).remainingTime ≤ remainingSum m0 s := n2 k hk
  exact ⟨hnn k hk, by omega⟩

/-- A step that rewrites at most the registry entry of job `id`, may advance
the clock, and may change which job is running keeps the invariant, under the
side conditions listed. -/
theorem Inv.step {m0 : JobMap} {run run2 : Option Int} {d d2 : Int} {s s2 : State} (id : Int)
    (h : Inv m0 run d s)
    (e1 : s2.hiQueue = s.hiQueue) (e2 : s2.quantumList = s.quantumList)
    (e3 : s2.allotmentList = s.allotmentList) (e4 : s2.queues.length = s.queues.length)
    (ht : s.currentTime ≤ s2.currentTime) (hkeys : s2.jobs.keys = s.jobs.keys)
    (hother : ∀ k, k ≠ id → JobMap.find? s2.jobs k = JobMap.find? s.jobs k)
    (hid : id ∈ s.jobs.keys)
    (c1 : (s2.jobs.get id).startTime = (s.jobs.get id).startTime ∧
      (s2.jobs.get id).totalTime = (s.jobs.get id).totalTime ∧
      (s2.jobs.get id).id = (s.jobs.get id).id)
    (c2 : JobOK s2.hiQueue s2.currentTime (s2.jobs.get id))
    (c3 : run2 ≠ some id → JobDone (s2.jobs.get id))
    (hrunJ : ∀ k, k ≠ id → run2 ≠ some k → run ≠ some k)
    (hd : ∀ x : Int, x + d2 ≤ s2.currentTime → x + d ≤ s.currentTime)
    (hq : ∀ x, x ∈ s2.queues.flatten → x ∈ s.queues.flatten ∨ x = id)
    (hidarr : (id ∈ s2.queues.flatten ∨ run2 = some id) →
      (s.jobs.get id).startTime ≤ s2.currentTime)
    (c4 : 0 < (s2.jobs.get id).remainingTime → 0 < (s.jobs.get id).remainingTime)
    (hal : ∀ k, 0 < (s2.jobs.get k).remainingTime →
      (k ∈ s.queues.flatten ∨ run = some k) → k ∈ s2.queues.flatten ∨ run2 = some k)
    (hrun2 : ∀ x, run2 = some x → x = id ∨ run = some x)
    (hrem : (s2.jobs.get id).remainingTime ≤ (s.jobs.get id).remainingTime)
    (hclk : s2.currentTime + (s2.jobs.get id).remainingTime
        ≤ s.currentTime + (s.jobs.get id).remainingTime ∨ s2.currentTime ≤ maxStart m0) :
    Inv m0 run2 d2 s2 := by
  have hj := find?_get_of_mem_keys s.jobs id hid
  have hj2 := find?_get_of_mem_keys s2.jobs id (by rw [hkeys]; exact hid)
  have hbud : Budget m0 s2 :=
    h.budget.spend id h.nodup (by rw [← h.keys]; exact hid) ht
      (fun k hk => by unfold JobMap.get; rw [hother k hk]) hrem hclk
  refine ⟨h.cfg.frame e1 e2 e3 e4, h.nodup, hkeys.trans h.keys, ?_, ?_, ?_, ?_, ?_, hbud⟩
  · intro k j hk
    by_cases hki : k = id
    · subst hki
      rw [hj2] at hk
      simp only [Option.some.injEq] at hk
      subst hk
      have := h.const k _ hj
      rw [c1.1, c1.2.1, c1.2.2]
      exact this
    · rw [hother k hki] at hk
      exact h.const k j hk
  · intro k j hk
    by_cases hki : k = id
    · subst hki
      rw [hj2] at hk
      simp only [Option.some.injEq] at hk
      subst hk
      exact ⟨c2, c3⟩
    · rw [hother k hki] at hk
      obtain ⟨o1, o2⟩ := h.ok k j hk
      rw [e1]
      exact ⟨JobOK_mono o1 ht, fun hr => o2 (hrunJ k hki hr)⟩
  · intro x hx
    by_cases hxi : x = id
    · subst hxi
      exact ⟨_, hj2, by rw [c1.1]; exact hidarr (Or.inl hx)⟩
    · rcases hq x hx with hin | hin
      · obtain ⟨j, hjx, hjt⟩ := h.queued x hin
        exact ⟨j, by rw [hother x hxi]; exact hjx, le_trans hjt ht⟩
      · exact absurd hin hxi
  · intro k j hk hpos hdt
    have hg : s2.jobs.get k = j := get_of_find? hk
    by_cases hki : k = id
    · subst hki
      rw [hj2] at hk
      simp only [Option.some.injEq] at hk
      subst hk
      have hst : (s.jobs.get k).startTime + d ≤ s.currentTime := by
        rw [← c1.1]; exact hd _ hdt
      exact hal k hpos (h.alive k _ hj (c4 hpos) hst)
    · have hk0 := hk
      rw [hother k hki] at hk0
      exact hal k (by rw [hg]; exact hpos) (h.alive k j hk0 hpos (hd _ hdt))
  · intro x hx
    by_cases hxi : x = id
    · subst hxi
      exact ⟨_, hj2, by rw [c1.1]; exact hidarr (Or.inr hx)⟩
    · rcases hrun2 x hx with e | e
      · exact absurd e hxi
      · obtain ⟨j, hjx, hjt⟩ := h.running x e
        exact ⟨j, by rw [hother x hxi]; exact hjx, le_trans hjt ht⟩

theorem OnlyJob.refl (id : Int) (s : State) : OnlyJob id s s :=
  ⟨fun _ _ => rfl, fun _ => rfl⟩

theorem OnlyJob.trans {id : Int} {s s2 s3 : State} (h1 : OnlyJob id s s2)
    (h2 : OnlyJob id s2 s3) : OnlyJob id s s3 :=
  ⟨fun k hk => (h2.1 k hk).trans (h1.1 k hk),
   fun hid => (h2.2 (by rw [h1.2 hid]; exact hid)).trans (h1.2 hid)⟩

theorem OnlyJob.onJob (id : Int) (s : State) (f : Job → Job) : OnlyJob id s (s.onJob id f) := by
  refine ⟨fun k hk => ?_, fun hid => ?_⟩
  · rw [onJob_jobs, find?_modify, if_neg hk]
  · obtain ⟨j, hj⟩ := find?_of_mem_keys _ _ hid
    rw [onJob_jobs]
    exact keys_modify _ _ _ j hj

theorem OnlyJob.of_jobs_eq {id : Int} {s s2 s3 : State} (h : OnlyJob id s s2)
    (e : s3.jobs = s2.jobs) : OnlyJob id s s3 := by
  unfold OnlyJob at h ⊢
  rw [e]
  exact h

theorem tick_onlyJob (id : Int) (s : State) : OnlyJob id s (tick id s) :=
  (OnlyJob.onJob id { s with currentTime := s.currentTime + 1 } _)

theorem finishJob_onlyJob (id : Int) (s : State) : OnlyJob id s (finishJob id s) :=
  OnlyJob.onJob id s _

theorem startJob_onlyJob (id : Int) (s : State) : OnlyJob id s (startJob id s) := by
  unfold startJob
  split
  · exact OnlyJob.onJob id s _
  · exact OnlyJob.refl id s

theorem demoteOrRefresh_onlyJob (id : Int) (s : State) :
    OnlyJob id s (demoteOrRefresh id s) := by
  unfold demoteOrRefresh
  split
  · exact (OnlyJob.onJob id s _).trans (OnlyJob.onJob id _ _)
  · exact OnlyJob.onJob id s _

theorem afterSlice_onlyJob (id u : Int) (s : State) : OnlyJob id s (afterSlice id u s) := by
  unfold afterSlice
  split
  · simp only
    split
    · have h1 := (OnlyJob.onJob id s (fun j => { j with allotLeft := j.allotLeft - u })).trans
        (demoteOrRefresh_onlyJob id _)
      exact h1
    · have h1 := OnlyJob.onJob id s (fun j => { j with allotLeft := j.allotLeft - u })
      exact h1
  · exact OnlyJob.refl id s

theorem Inv.weaken {m0 : JobMap} {run : Option Int} {d d2 : Int} {s : State}
    (h : Inv m0 run d s) (hd : d ≤ d2) : Inv m0 run d2 s :=
  ⟨h.cfg, h.nodup, h.keys, h.const, h.ok, h.queued,
   fun k j hk hpos ht => h.alive k j hk hpos (by omega), h.running, h.budget⟩

/-- Removing the front of a queue and making its job the running one. -/
theorem Inv.pop {m0 : JobMap} {d : Int} {s : State} (h : Inv m0 none d s) (q : Nat)
    (id : Int) (rest : List Int) (hq : queueAt s.queues q = id :: rest) :
    Inv m0 (some id) d { s with queues := popAt s.queues q } := by
  have hperm := flatten_popAt s.queues q id rest hq
  have hin : id ∈ s.queues.flatten := hperm.mem_iff.mpr (List.mem_cons_self _ _)
  obtain ⟨j, hj, hjt⟩ := h.queued id hin
  have hg := get_of_find? hj
  refine h.step id rfl rfl rfl (length_popAt _ _) (le_refl _) rfl (fun _ _ => rfl)
    (mem_keys_of_find? hj) ⟨rfl, rfl, rfl⟩ ?_ (fun hne => absurd rfl hne) (fun _ _ _ => by simp)
    (fun _ hx => hx) ?_ ?_ (fun hp => hp) ?_ ?_ (le_refl _) (Or.inl (le_refl _))
  · show JobOK s.hiQueue s.currentTime (s.jobs.get id)
    rw [hg]; exact (h.ok id j hj).1
  · intro x hx
    exact Or.inl (hperm.mem_iff.mpr (List.mem_cons_of_mem _ hx))
  · intro _
    show (s.jobs.get id).startTime ≤ s.currentTime
    rw [hg]; exact hjt
  · intro k _ hk
    rcases hk with hk | hk
    · rcases List.mem_cons.mp (hperm.mem_iff.mp hk) with e | e
      · exact Or.inr (by rw [e])
      · exact Or.inl e
    · cases hk
  · intro x hx
    left
    simp only [Option.some.injEq] at hx
    exact hx.symm

/-- The first-dispatch bookkeeping keeps the invariant and leaves the job started. -/
theorem Inv.startJob {m0 : JobMap} {d : Int} {s : State} {id : Int}
    (h : Inv m0 (some id) d s) :
    Inv m0 (some id) d (startJob id (s.onJob id (fun j => j))) ∧
    ((MLFQ.startJob id (s.onJob id (fun j => j))).jobs.get id).started = true ∧
    ((MLFQ.startJob id (s.onJob id (fun j => j))).jobs.get id).remainingTime
      = (s.jobs.get id).remainingTime := by
  obtain ⟨j, hj, hjt⟩ := h.running id rfl
  have hg := get_of_find? hj
  obtain ⟨o1, _⟩ := h.ok id j hj
  obtain ⟨f1, f2, _, _, f5, f6, f7⟩ := startJob_frame id (s.onJob id (fun j => j))
  have hoj : OnlyJob id s (MLFQ.startJob id (s.onJob id (fun j => j))) :=
    (OnlyJob.onJob id s _).trans (startJob_onlyJob id _)
  have hget := startJob_get id (s.onJob id (fun j => j)) id
  simp only [get_touch, true_and, onJob_currentTime] at hget
  rw [hg] at hget
  refine ⟨?_, ?_, ?_⟩
  · refine h.step id f5 f6 f7 (by rw [f2]; rfl) (by rw [f1]; exact le_refl _)
      (hoj.2 (mem_keys_of_find? hj)) hoj.1 (mem_keys_of_find? hj) ?_ ?_
      (fun hne => absurd rfl hne) (fun _ _ hr => hr) (fun x hx => by rw [f1] at hx; exact hx)
      (fun x hx => by rw [f2] at hx; exact Or.inl hx) ?_ ?_ ?_ (fun x hx => Or.inr hx)
      (by rw [hget, hg]; split <;> exact le_refl _)
      (Or.inl (by rw [f1, hget, hg]; split <;> exact le_refl _))
    · rw [hget, hg]; split <;> exact ⟨rfl, rfl, rfl⟩
    · rw [hget, f5, f1]
      show JobOK s.hiQueue s.currentTime _
      split
      · obtain ⟨h1, h2, h3, h4, h5, h6, h7, h8, _, h10⟩ := o1
        exact ⟨h1, h2, h3, h4, h5, h6, h7, fun hc => absurd hc (by simp),
          fun _ => ⟨hjt, rfl⟩, h10⟩
      · exact o1
    · intro _
      rw [f1, hg]; exact hjt
    · rw [hget, hg]; split <;> exact fun hp => hp
    · intro k _ hk
      rw [f2]; exact hk
  · rw [hget]
    split
    · rfl
    · rename_i hs
      cases hst : j.started with
      | true => rfl
      | false => exact absurd hst hs
  · rw [hget, hg]
    split <;> rfl

/-- One unit of work of the running job keeps the invariant; the arrivals of
the new clock value are still to be admitted. -/
theorem Inv.tick {m0 : JobMap} {s : State} {id : Int} (h : Inv m0 (some id) 0 s)
    (hs : (s.jobs.get id).started = true) (hr : 1 ≤ (s.jobs.get id).remainingTime) :
    Inv m0 (some id) 1 (tick id s) := by
  obtain ⟨j, hj, hjt⟩ := h.running id rfl
  have hg := get_of_find? hj
  obtain ⟨o1, _⟩ := h.ok id j hj
  obtain ⟨f1, f2, f3, f4, _, f6, _, _⟩ := tick_frame id s
  have hk0 : id ∈ m0.keys := by rw [← h.keys]; exact mem_keys_of_find? hj
  obtain ⟨b1, _, _, _, b5, b6⟩ := h.fits
  have f8 : (MLFQ.tick id s).currentTime = s.currentTime + 1 :=
    tick_currentTime id s (by omega) (by have := (b6 id hk0).2; omega)
  have hoj := tick_onlyJob id s
  have hget : (MLFQ.tick id s).jobs.get id
      = { j with remainingTime := j.remainingTime - 1 } := by
    unfold MLFQ.tick
    rw [get_onJob, if_pos rfl]
    show _ = _
    simp only []
    rw [hg]
  rw [hg] at hs hr
  refine h.step id f2 f3 f4 (by rw [f6]) (by rw [f8]; omega)
    (hoj.2 (mem_keys_of_find? hj)) hoj.1 (mem_keys_of_find? hj) ?_ ?_
    (fun hne => absurd rfl hne) (fun _ _ hr => hr) (fun x hx => by rw [f8] at hx; omega)
    (fun x hx => by rw [f6] at hx; exact Or.inl hx) ?_ ?_ ?_ (fun x hx => Or.inr hx)
    (by rw [hget, hg]; show j.remainingTime - 1 ≤ j.remainingTime; omega)
    (Or.inl (by rw [hget, hg, f8]; show s.currentTime + 1 + (j.remainingTime - 1) ≤ _; omega))
  · rw [hget, hg]; exact ⟨rfl, rfl, rfl⟩
  · rw [hget, f2, f8]
    obtain ⟨h1, h2, h3, h4, h5, h6, h7, _, h9, h10⟩ := o1
    refine ⟨h1, h2, ?_, ?_, h5, h6, h7, ?_, h9, ?_⟩
    · show 0 ≤ j.remainingTime - 1
      omega
    · show j.remainingTime - 1 ≤ j.totalTime
      omega
    · intro hc
      rw [hs] at hc
      cases hc
    · intro _
      show j.startTime + (j.totalTime - (j.remainingTime - 1)) ≤ s.currentTime + 1
      by_cases hlt : j.remainingTime < j.totalTime
      · have := h10 hlt
        omega
      · omega
  · intro _
    rw [f8, hg]; omega
  · rw [hget, hg]
    intro hp
    have : 0 < j.remainingTime - 1 := hp
    omega
  · intro k _ hk
    rw [f6]; exact hk

/-- The body of the slice loop up to the completion test keeps the invariant. -/
theorem Inv.sliceUnit {m0 : JobMap} {s : State} {id : Int} (h : Inv m0 (some id) 0 s)
    (hs : (s.jobs.get id).started = true) (hr : 1 ≤ (s.jobs.get id).remainingTime) :
    Inv m0 (some id) 0 (sliceUnit id s) ∧ ((MLFQ.sliceUnit id s).jobs.get id).started = true := by
  refine ⟨((h.tick hs hr).boostCheck).admitArrivals (le_refl _), ?_⟩
  unfold MLFQ.sliceUnit
  rw [(core_fields (admitArrivals_core _ id)).2.2.2.2.2.2.2,
    (core_fields (boostCheck_core _ id)).2.2.2.2.2.2.2]
  unfold MLFQ.tick
  rw [get_onJob, if_pos rfl]
  exact hs

/-- Recording the completion time keeps the invariant, and a job that has no
work left is then completed in the sense of `JobDone`. -/
theorem Inv.finishJob {m0 : JobMap} {s : State} {id : Int} (h : Inv m0 (some id) 0 s) :
    Inv m0 (some id) 0 (finishJob id s) ∧ JobDone ((MLFQ.finishJob id s).jobs.get id) := by
  obtain ⟨j, hj, hjt⟩ := h.running id rfl
  have hg := get_of_find? hj
  obtain ⟨o1, _⟩ := h.ok id j hj
  have hoj := finishJob_onlyJob id s
  have hget : (MLFQ.finishJob id s).jobs.get id = { j with endTime := s.currentTime } := by
    unfold MLFQ.finishJob
    rw [get_onJob, if_pos rfl, hg]
  refine ⟨?_, ?_⟩
  · refine h.step id rfl rfl rfl rfl (le_refl _)
      (hoj.2 (mem_keys_of_find? hj)) hoj.1 (mem_keys_of_find? hj) ?_ ?_
      (fun hne => absurd rfl hne) (fun _ _ hr => hr) (fun x hx => hx)
      (fun x hx => Or.inl hx) ?_ ?_ ?_ (fun x hx => Or.inr hx)
      (by rw [hget, hg])
      (Or.inl (by rw [hget, hg]; exact le_refl _))
    · rw [hget, hg]; exact ⟨rfl, rfl, rfl⟩
    · rw [hget]; exact o1
    · intro _
      rw [hg]; exact hjt
    · rw [hget, hg]; exact fun hp => hp
    · intro k _ hk
      exact hk
  · rw [hget]
    intro h0
    have h0' : j.remainingTime = 0 := h0
    obtain ⟨_, h2, _, _, _, _, _, _, _, h10⟩ := o1
    have := h10 (by omega)
    show j.startTime + j.totalTime ≤ s.currentTime
    omega

/-- The slice loop keeps the invariant and leaves the running job completed in
the sense of `JobDone`. -/
theorem Inv.sliceLoop {m0 : JobMap} {id : Int} (n : Nat) (s : State) (u : Int)
    (h : Inv m0 (some id) 0 s) (hs : (s.jobs.get id).started = true)
    (hdone : JobDone (s.jobs.get id)) (hn : (n : Int) ≤ (s.jobs.get id).remainingTime) :
    Inv m0 (some id) 0 (sliceLoop id n s u).1 ∧
    JobDone ((MLFQ.sliceLoop id n s u).1.jobs.get id) := by
  induction n generalizing s u with
  | zero => exact ⟨h, hdone⟩
  | succ n ih =>
    have hr : 1 ≤ (s.jobs.get id).remainingTime := by push_cast at hn; omega
    obtain ⟨i1, i2⟩ := h.sliceUnit hs hr
    have hrem := sliceUnit_remaining id s id
    simp only [if_true] at hrem
    simp only [MLFQ.sliceLoop]
    split
    · exact i1.finishJob
    · rename_i hne
      refine ih (MLFQ.sliceUnit id s) (u + 1) i1 i2 (fun h0 => absurd h0 hne) ?_
      rw [hrem]; push_cast at hn; omega

/-- The net effect of the post-slice block on an unfinished job: a level `c`
(kept, or one lower when below `hiQueue`), an allotment `a` (what is left if
positive, else the allotment of level `c`), and a push on queue `c`. -/
theorem afterSlice_result (id u : Int) (s : State)
    (hpos : 0 < (s.jobs.get id).remainingTime) :
    ∃ c a : Int,
      (c = (s.jobs.get id).currPri ∨
        (c = (s.jobs.get id).currPri + 1 ∧ (s.jobs.get id).currPri < s.hiQueue)) ∧
      (0 < a ∨ a = vecGet s.allotmentList c) ∧
      (afterSlice id u s).jobs.get id = { s.jobs.get id with currPri := c, allotLeft := a } ∧
      (afterSlice id u s).queues = pushAt s.queues c.toNat id := by
  obtain ⟨t1, t2, t3, _⟩ := afterSlice_table id u s
  have hcore := afterSlice_core id u s id
  have hrec : ∀ (c a : Int), ((afterSlice id u s).jobs.get id).currPri = c →
      ((afterSlice id u s).jobs.get id).allotLeft = a →
      (afterSlice id u s).jobs.get id = { s.jobs.get id with currPri := c, allotLeft := a } := by
    intro c a hc ha
    generalize (afterSlice id u s).jobs.get id = x at hcore hc ha
    generalize s.jobs.get id = y at hcore
    cases x; cases y
    simp only [Job.core, Job.mk.injEq] at hcore
    simp only at hc ha
    simp only [Job.mk.injEq]
    tauto
  by_cases h1 : (s.jobs.get id).allotLeft - u ≤ 0
  · by_cases h2 : (s.jobs.get id).currPri < s.hiQueue
    · obtain ⟨r1, r2, r3⟩ := t1 hpos h1 h2
      exact ⟨_, _, Or.inr ⟨rfl, h2⟩, Or.inr rfl, hrec _ _ r1 r2, r3⟩
    · obtain ⟨r1, r2, r3⟩ := t2 hpos h1 h2
      exact ⟨_, _, Or.inl rfl, Or.inr rfl, hrec _ _ r1 r2, r3⟩
  · obtain ⟨r1, r2, r3⟩ := t3 hpos (by omega)
    exact ⟨_, _, Or.inl rfl, Or.inl (by omega), hrec _ _ r1 r2, r3⟩

/-- The post-slice block keeps the invariant and ends the dispatch: no job is
running any more. -/
theorem Inv.afterSlice {m0 : JobMap} {s : State} {id : Int} (u : Int)
    (h : Inv m0 (some id) 0 s) (hdone : JobDone (s.jobs.get id)) :
    Inv m0 none 0 (afterSlice id u s) := by
  obtain ⟨j, hj, hjt⟩ := h.running id rfl
  have hg := get_of_find? hj
  obtain ⟨o1, _⟩ := h.ok id j hj
  obtain ⟨f1, _, _, f4, f5, f6⟩ := afterSlice_frame id u s
  have hoj := afterSlice_onlyJob id u s
  by_cases hpos : 0 < (s.jobs.get id).remainingTime
  · obtain ⟨c, a, hc, ha, hget, hqs⟩ := afterSlice_result id u s hpos
    rw [hg] at hget hc hpos
    obtain ⟨h1, h2, h3, h4, h5, h6, h7, h8, h9, h10⟩ := o1
    have hc0 : 0 ≤ c := by rcases hc with e | ⟨e, _⟩ <;> omega
    have hchi : c ≤ s.hiQueue := by rcases hc with e | ⟨e, _⟩ <;> omega
    have ha1 : 1 ≤ a := by
      rcases ha with e | e
      · omega
      · rw [e]; exact h.cfg.allot c hc0 hchi
    have hlt : c.toNat < s.queues.length := by
      rw [h.cfg.qlen]
      have := h.cfg.hi
      omega
    have hperm := flatten_pushAt s.queues c.toNat id hlt
    rw [← hqs] at hperm
    refine h.step id f4 f5 f6 (by rw [hqs, length_pushAt]) (by rw [f1])
      (hoj.2 (mem_keys_of_find? hj)) hoj.1 (mem_keys_of_find? hj) ?_ ?_ ?_ ?_
      (fun x hx => by rw [f1] at hx; exact hx) ?_ ?_ ?_ ?_ (fun x hx => by cases hx)
      (by rw [hget, hg])
      (Or.inl (by rw [hget, hg, f1]))
    · rw [hget, hg]; exact ⟨rfl, rfl, rfl⟩
    · rw [hget, f4, f1]
      exact ⟨h1, h2, h3, h4, ha1, hc0, hchi, h8, h9, h10⟩
    · intro _
      rw [hget]
      rw [hg] at hdone
      exact hdone
    · intro k hk _ e
      simp only [Option.some.injEq] at e
      exact hk e.symm
    · intro x hx
      rcases List.mem_cons.mp (hperm.mem_iff.mp hx) with e | e
      · exact Or.inr e
      · exact Or.inl e
    · intro _
      rw [f1, hg]; exact hjt
    · rw [hget, hg]; exact fun hp => hp
    · intro k _ hk
      left
      rcases hk with hk | hk
      · exact hperm.mem_iff.mpr (List.mem_cons_of_mem _ hk)
      · simp only [Option.some.injEq] at hk
        rw [← hk]
        exact hperm.mem_iff.mpr (List.mem_cons_self _ _)
  · have hs : MLFQ.afterSlice id u s = s := (afterSlice_table id u s).2.2.2 hpos
    rw [hs]
    refine h.step id rfl rfl rfl rfl (le_refl _) rfl (fun _ _ => rfl) (mem_keys_of_find? hj)
      ⟨rfl, rfl, rfl⟩ ?_ (fun _ => hdone) ?_ (fun x hx => hx) (fun x hx => Or.inl hx) ?_
      (fun hp => hp) ?_ (fun x hx => by cases hx) (le_refl _) (Or.inl (le_refl _))
    · rw [hg]; exact o1
    · intro k hk _ e
      simp only [Option.some.injEq] at e
      exact hk e.symm
    · intro _
      rw [hg]; exact hjt
    · intro k hk hin
      rcases hin with hin | hin
      · exact Or.inl hin
      · simp only [Option.some.injEq] at hin
        rw [← hin] at hk
        exact absurd hk hpos

theorem dispatch_unfold (q : Nat) (id : Int) (rest : List Int) (s : State)
    (hq : queueAt s.queues q = id :: rest) :
    dispatch q s = runJob q id { s with queues := popAt s.queues q } := by
  have hfront : frontJob q s = id := by simp [frontJob, hq]
  unfold dispatch
  rw [hfront]

/-- A dispatch keeps the invariant of the loop. -/
theorem Inv.dispatch {m0 : JobMap} {s : State} (h : Inv m0 none 0 s) (q : Nat) (id : Int)
    (rest : List Int) (hq : queueAt s.queues q = id :: rest) :
    Inv m0 none 0 (MLFQ.dispatch q s) := by
  rw [dispatch_unfold q id rest s hq]
  have h1 := h.pop q id rest hq
  obtain ⟨h2, hst, hrem⟩ := h1.startJob
  obtain ⟨j, hj, _⟩ := h1.running id rfl
  have hg := get_of_find? hj
  obtain ⟨o1, o2⟩ := h.ok id j hj
  have hdj : JobDone j := o2 (by simp)
  set s0 : State := { s with queues := popAt s.queues q } with hs0
  set s2 := MLFQ.startJob id (s0.onJob id (fun j => j)) with hs2
  have hget := startJob_get id (s0.onJob id (fun j => j)) id
  simp only [get_touch, true_and, onJob_currentTime] at hget
  rw [← hs2, hg] at hget
  have hdone : JobDone (s2.jobs.get id) := by
    rw [hget]
    split
    · exact hdj
    · exact hdj
  have hrem0 : 0 ≤ (s2.jobs.get id).remainingTime := by
    rw [hrem, hg]; exact o1.2.2.1
  have hn : (((timeSlice q id s2).toNat : Nat) : Int) ≤ (s2.jobs.get id).remainingTime := by
    have hle : timeSlice q id s2 ≤ (s2.jobs.get id).remainingTime :=
      le_trans (min_le_right _ _) (min_le_left _ _)
    omega
  obtain ⟨h3, hd3⟩ := h2.sliceLoop (timeSlice q id s2).toNat s2 0 hst hdone hn
  exact h3.afterSlice _ hd3

/-- The boost check and the admission at the head of an iteration keep the
invariant and admit the arrivals of the current clock. -/
theorem Inv.prepare {m0 : JobMap} {s : State} (h : Inv m0 none 1 s) :
    Inv m0 none 0 (MLFQ.prepare s) :=
  h.boostCheck.admitArrivals (le_refl _)

/-! ## The termination measure -/

theorem prepare_remaining (s : State) (k : Int) :
    ((prepare s).jobs.get k).remainingTime = (s.jobs.get k).remainingTime := by
  unfold prepare
  rw [(core_fields (admitArrivals_core _ k)).2.2.2.1, (core_fields (boostCheck_core _ k)).2.2.2.1]

theorem prepare_currentTime (s : State) : (prepare s).currentTime = s.currentTime := by
  unfold prepare
  rw [(admitArrivals_frame _).1, (boostCheck_frame _).1]

theorem workLeft_prepare (m0 : JobMap) (s : State) :
    workLeft m0 (prepare s) = workLeft m0 s := by
  unfold workLeft
  simp only [prepare_remaining, prepare_currentTime]

theorem staleEntries_congr (s s2 : State) (l : List Int)
    (h : ∀ k, (s2.jobs.get k).remainingTime = (s.jobs.get k).remainingTime) :
    l.countP (fun id => decide ((s2.jobs.get id).remainingTime ≤ 0))
      = l.countP (fun id => decide ((s.jobs.get id).remainingTime ≤ 0)) := by
  simp only [h]

theorem staleEntries_boostCheck {m0 : JobMap} {run : Option Int} {d : Int} {s : State}
    (h : Inv m0 run d s) : staleEntries (boostCheck s) = staleEntries s := by
  unfold staleEntries
  have hfl : (boostCheck s).queues.flatten = s.queues.flatten := by
    unfold boostCheck
    split
    · exact flatten_boostAllQueues s h.cfg.qlen
    · rfl
  rw [hfl]
  exact staleEntries_congr _ _ _ (fun k => (core_fields (boostCheck_core s k)).2.2.2.1)

theorem staleEntries_admitArrivals {m0 : JobMap} {run : Option Int} {d : Int} {s : State}
    (h : Inv m0 run d s) : staleEntries (admitArrivals s) = staleEntries s := by
  unfold staleEntries
  have hlen : 0 < s.queues.length := by rw [h.cfg.qlen]; omega
  have hperm : List.Perm (admitArrivals s).queues.flatten
      (s.queues.flatten ++ arrivals s.currentTime s.jobs) := by
    simp only [admitArrivals]
    exact flatten_foldl_pushAt _ _ hlen
  have hn : s.jobs.keys.Nodup := by rw [h.keys]; exact h.nodup
  rw [hperm.countP_eq, List.countP_append,
    staleEntries_congr s (admitArrivals s) _
      (fun k => (core_fields (admitArrivals_core s k)).2.2.2.1),
    staleEntries_congr s (admitArrivals s) _
      (fun k => (core_fields (admitArrivals_core s k)).2.2.2.1)]
  have hz : (arrivals s.currentTime s.jobs).countP
      (fun id => decide ((s.jobs.get id).remainingTime ≤ 0)) = 0 := by
    rw [List.countP_eq_zero]
    intro id hid
    obtain ⟨j, hj, ht⟩ := (arrivals_mem _ _ hn id).mp hid
    obtain ⟨⟨_, h2, _, _, _, _, _, _, _, h10⟩, _⟩ := h.ok id j hj
    rw [get_of_find? hj]
    simp only [decide_eq_true_eq, not_le]
    by_cases hlt : j.remainingTime < j.totalTime
    · have := h10 hlt
      omega
    · omega
  rw [hz]
  rfl

theorem staleEntries_prepare {m0 : JobMap} {s : State} (h : Inv m0 none 1 s) :
    staleEntries (prepare s) = staleEntries s := by
  unfold prepare
  rw [staleEntries_admitArrivals h.boostCheck, staleEntries_boostCheck h]

theorem flatten_empty_of_FindQueue {s : State} (hc : Config s) (hf : FindQueue s = -1) :
    ∀ id, id ∉ s.queues.flatten := by
  intro id hid
  obtain ⟨j, hj, hin⟩ := mem_flatten_queueAt _ _ hid
  rcases FindQueue_cases s with ⟨_, h2⟩ | ⟨q, h1, _⟩
  · have hi := hc.hi
    rw [hc.qlen] at hj
    rw [h2 j (by omega)] at hin
    cases hin
  · rw [h1] at hf
    omega

theorem exists_alive_of_not_allDone {s : State} (h : allDone s = false) :
    ∃ p, p ∈ s.jobs ∧ 0 < p.2.remainingTime := by
  by_contra hcon
  have : allDone s = true := by
    unfold allDone
    rw [List.all_eq_true]
    intro p hp
    simp only [gt_iff_lt, Bool.not_eq_true', decide_eq_false_iff_not]
    intro hpos
    exact hcon ⟨p, hp, hpos⟩
  rw [this] at h
  cases h

/-- An idle tick keeps the invariant and lowers the first component of the
measure: the job that is still to arrive is one tick closer. -/
theorem idle_step {m0 : JobMap} {s : State} (h : Inv m0 none 0 s) (hf : FindQueue s = -1)
    (hnd : allDone s = false) :
    Inv m0 none 1 { s with currentTime := wrapInt (s.currentTime + 1) } ∧
    workLeft m0 { s with currentTime := wrapInt (s.currentTime + 1) } < workLeft m0 s ∧
    wrapInt (s.currentTime + 1) = s.currentTime + 1 := by
  obtain ⟨p, hp, hpos⟩ := exists_alive_of_not_allDone hnd
  have hn : s.jobs.keys.Nodup := by rw [h.keys]; exact h.nodup
  have hj := find?_of_mem s.jobs hn p hp
  have hg := get_of_find? hj
  have hempty := flatten_empty_of_FindQueue h.cfg hf
  have hfuture : s.currentTime < p.2.startTime := by
    by_contra hle
    rcases h.alive p.1 p.2 hj hpos (by omega) with hin | hin
    · exact hempty _ hin
    · cases hin
  have hk : p.1 ∈ m0.keys := by rw [← h.keys]; exact mem_keys_of_find? hj
  obtain ⟨b1, _, b3, _, b5, _⟩ := h.fits
  have hlate : p.2.startTime ≤ maxStart m0 := by
    rw [(h.const p.1 p.2 hj).1]
    exact (le_maxStart m0).2 p.1 hk
  have hw : wrapInt (s.currentTime + 1) = s.currentTime + 1 :=
    wrapInt_eq _ (by omega) (by omega)
  rw [hw]
  refine ⟨?_, ?_, rfl⟩
  · refine h.step p.1 rfl rfl rfl rfl (by show s.currentTime ≤ s.currentTime + 1; omega) rfl
      (fun _ _ => rfl) (mem_keys_of_find? hj) ⟨rfl, rfl, rfl⟩ ?_ ?_ (fun _ _ hr => hr)
      (fun x hx => by
        have : x + 1 ≤ s.currentTime + 1 := hx
        omega)
      (fun x hx => Or.inl hx) ?_ (fun hp => hp) (fun k _ hk => hk) (fun x hx => Or.inr hx)
      (le_refl _) (Or.inr (by show s.currentTime + 1 ≤ maxStart m0; omega))
    · show JobOK s.hiQueue (s.currentTime + 1) (s.jobs.get p.1)
      rw [hg]
      exact JobOK_mono (h.ok p.1 p.2 hj).1 (by omega)
    · intro _
      show JobDone (s.jobs.get p.1)
      rw [hg]
      exact (h.ok p.1 p.2 hj).2 (by simp)
    · intro hin
      rcases hin with hin | hin
      · exact absurd hin (hempty _)
      · cases hin
  · unfold workLeft
    refine sum_map_lt _ _ _ (fun k _ => ?_) p.1 hk ?_
    · show (s.jobs.get k).remainingTime.toNat + ((m0.get k).startTime - (s.currentTime + 1)).toNat
        ≤ (s.jobs.get k).remainingTime.toNat + ((m0.get k).startTime - s.currentTime).toNat
      omega
    · show (s.jobs.get p.1).remainingTime.toNat
          + ((m0.get p.1).startTime - (s.currentTime + 1)).toNat
        < (s.jobs.get p.1).remainingTime.toNat + ((m0.get p.1).startTime - s.currentTime).toNat
      have := (h.const p.1 p.2 hj).1
      omega

/-- The dispatch of a queue entry whose job has no work left only removes the entry. -/
theorem dispatch_stale_queues (q : Nat) (id : Int) (rest : List Int) (s : State)
    (hq : queueAt s.queues q = id :: rest)
    (hu : min (vecGet s.quantumList q)
      (min (s.jobs.get id).remainingTime (s.jobs.get id).allotLeft) = 0)
    (hrem : (s.jobs.get id).remainingTime = 0) :
    (dispatch q s).queues = popAt s.queues q := by
  rw [dispatch_unfold q id rest s hq]
  unfold runJob runSlice
  simp only []
  rw [runJob_slice]
  simp only []
  rw [hu]
  simp only [Int.toNat_zero, sliceLoop]
  have hr2 : ¬ 0 < ((startJob id
      (({ s with queues := popAt s.queues q } : State).onJob id (fun j => j))).jobs.get
        id).remainingTime := by
    rw [startJob_get]
    simp only [get_touch, true_and]
    split
    · show ¬ 0 < (s.jobs.get id).remainingTime
      omega
    · show ¬ 0 < (s.jobs.get id).remainingTime
      omega
  rw [(afterSlice_table id 0 _).2.2.2 hr2, (startJob_frame _ _).2.1]
  rfl

/-- A dispatch lowers the termination measure: it executes at least one unit
of work, or it removes a queue entry of a completed job. -/
theorem dispatch_measure {m0 : JobMap} {s : State} (h : Inv m0 none 0 s) (q : Nat) (id : Int)
    (rest : List Int) (hq : queueAt s.queues q = id :: rest) (hqhi : (q : Int) ≤ s.hiQueue) :
    workLeft m0 (dispatch q s) < workLeft m0 s ∨
    (workLeft m0 (dispatch q s) = workLeft m0 s ∧
      staleEntries (dispatch q s) < staleEntries s) := by
  have hperm := flatten_popAt s.queues q id rest hq
  have hin : id ∈ s.queues.flatten := hperm.mem_iff.mpr (List.mem_cons_self _ _)
  obtain ⟨j, hj, _⟩ := h.queued id hin
  have hg := get_of_find? hj
  obtain ⟨⟨_, _, h3, _, h5, _⟩, _⟩ := h.ok id j hj
  have hqu : 1 ≤ vecGet s.quantumList q := h.cfg.quantum q (by omega) hqhi
  rw [← hg] at h3 h5
  have hk : id ∈ m0.keys := by rw [← h.keys]; exact mem_keys_of_find? hj
  obtain ⟨b1, _, _, _, b5, b6⟩ := h.fits
  have hroom : s.currentTime + min (vecGet s.quantumList q)
      (min (s.jobs.get id).remainingTime (s.jobs.get id).allotLeft) < 2 ^ 31 := by
    have := (b6 id hk).2
    omega
  obtain ⟨_, x2, x3, x4⟩ := dispatch_exact s q id rest hq (by omega) h3 (by omega) (by omega)
    hroom
  by_cases hpos : 1 ≤ (s.jobs.get id).remainingTime
  · left
    have hu1 : 1 ≤ min (vecGet s.quantumList q)
        (min (s.jobs.get id).remainingTime (s.jobs.get id).allotLeft) :=
      le_min hqu (le_min hpos h5)
    unfold workLeft
    refine sum_map_lt _ _ _ (fun k _ => ?_) id hk ?_
    · rw [x2]
      by_cases hki : k = id
      · rw [hki, x3]
        omega
      · rw [x4 k hki]
        omega
    · rw [x2, x3]
      omega
  · right
    have hr0 : (s.jobs.get id).remainingTime = 0 := by omega
    have hu0 : min (vecGet s.quantumList q)
        (min (s.jobs.get id).remainingTime (s.jobs.get id).allotLeft) = 0 := by
      rw [hr0]
      rw [min_eq_left (by omega : (0 : Int) ≤ (s.jobs.get id).allotLeft)]
      exact min_eq_right (by omega)
    rw [hu0] at x2 x3
    have hsame : ∀ k, ((dispatch q s).jobs.get k).remainingTime
        = (s.jobs.get k).remainingTime := by
      intro k
      by_cases hki : k = id
      · rw [hki, x3]; omega
      · exact x4 k hki
    refine ⟨?_, ?_⟩
    · unfold workLeft
      simp only [hsame, x2, add_zero]
    · unfold staleEntries
      rw [dispatch_stale_queues q id rest s hq hu0 hr0, staleEntries_congr s _ _ hsame,
        hperm.countP_eq, List.countP_cons_of_pos]
      · omega
      · simp only [decide_eq_true_eq]
        omega

/-- One iteration of the simulation loop from a state satisfying the invariant:
either it leaves the loop with every job done, or it keeps the invariant and
lowers the termination measure (lexicographically). -/
theorem loopBody_step {m0 : JobMap} {s : State} (h : Inv m0 none 1 s) :
    ((loopBody s).2 = false ∧ Inv m0 none 0 (loopBody s).1 ∧ allDone (loopBody s).1 = true) ∨
    ((loopBody s).2 = true ∧ Inv m0 none 1 (loopBody s).1 ∧
      (workLeft m0 (loopBody s).1 < workLeft m0 s ∨
        (workLeft m0 (loopBody s).1 = workLeft m0 s ∧
          staleEntries (loopBody s).1 < staleEntries s))) := by
  have hp := h.prepare
  have hw := workLeft_prepare m0 s
  have hst := staleEntries_prepare h
  unfold loopBody
  simp only []
  rcases FindQueue_cases (prepare s) with ⟨h1, _⟩ | ⟨q, h1, h2, h3, _⟩
  · rw [if_pos h1]
    cases hd : allDone (prepare s) with
    | true =>
      left
      simp only [if_true]
      exact ⟨trivial, hp, hd⟩
    | false =>
      right
      simp only [Bool.false_eq_true, if_false]
      obtain ⟨i1, i2, _⟩ := idle_step hp h1 hd
      exact ⟨trivial, i1, Or.inl (by rw [← hw]; exact i2)⟩
  · have hne : ¬ FindQueue (prepare s) = -1 := by rw [h1]; omega
    rw [if_neg hne, h1]
    simp only [Int.toNat_ofNat]
    right
    obtain ⟨id, rest, hq⟩ := List.exists_cons_of_ne_nil h3
    refine ⟨trivial, (hp.dispatch q id rest hq).weaken (by omega), ?_⟩
    rw [← hw, ← hst]
    exact dispatch_measure hp q id rest hq h2

/-- The simulation loop terminates from every state satisfying the invariant,
in a state that satisfies it and where every job is done. -/
theorem runLoop_terminates (m0 : JobMap) (a : Nat) :
    ∀ (b : Nat) (s : State), Inv m0 none 1 s → workLeft m0 s = a → staleEntries s = b →
      ∃ fuel s2, runLoop fuel s = some s2 ∧ Inv m0 none 0 s2 ∧ allDone s2 = true := by
  induction a using Nat.strong_induction_on with
  | _ a iha =>
    intro b
    induction b using Nat.strong_induction_on with
    | _ b ihb =>
      intro s h ha hb
      rcases loopBody_step h with ⟨e, i1, i2⟩ | ⟨e, i1, hm⟩
      · refine ⟨1, (loopBody s).1, ?_, i1, i2⟩
        simp only [runLoop]
        cases hl : loopBody s with
        | mk s1 fl =>
          rw [hl] at e
          simp only at e
          subst e
          rfl
      · have hrec : ∃ fuel s2, runLoop fuel (loopBody s).1 = some s2 ∧ Inv m0 none 0 s2 ∧
            allDone s2 = true := by
          rcases hm with hlt | ⟨heq, hlt⟩
          · exact iha _ (by rw [← ha]; exact hlt) _ _ i1 rfl rfl
          · exact ihb _ (by rw [← hb]; exact hlt) _ i1 (by rw [heq, ha]) rfl
        obtain ⟨fuel, s2, r1, r2, r3⟩ := hrec
        refine ⟨fuel + 1, s2, ?_, r2, r3⟩
        simp only [runLoop]
        cases hl : loopBody s with
        | mk s1 fl =>
          rw [hl] at e r1
          simp only at e r1
          subst e
          exact r1

/-! ## The state in which the simulation loop starts -/

theorem sizeT_eq (n : Int) (h0 : 0 ≤ n) (h1 : n < 2 ^ 31) : sizeT n = n.toNat := by
  unfold sizeT
  rw [Int.emod_eq_of_lt h0 (by omega)]

theorem mem_padList (v : List Int) (n : Nat) (dflt : Int) (hv : v ≠ []) (x : Int)
    (hx : x ∈ padList v n dflt) : x ∈ v := by
  unfold padList at hx
  split at hx
  · rcases List.mem_append.mp hx with h | h
    · exact h
    · have hxl := List.eq_of_mem_replicate h
      obtain ⟨y, hy⟩ : ∃ y, v.getLast? = some y := by
        cases hl : v.getLast? with
        | none => exact absurd (List.getLast?_eq_none_iff.mp hl) hv
        | some y => exact ⟨y, rfl⟩
      rw [hy] at hxl
      simp only [Option.getD_some] at hxl
      rw [hxl]
      exact List.mem_of_getLast?_eq_some hy
  · exact hx

theorem length_padList (v : List Int) (n : Nat) (dflt : Int) :
    n ≤ (padList v n dflt).length := by
  unfold padList
  split
  · simp only [List.length_append, List.length_replicate]; omega
  · omega

theorem mem_truncList (v : List Int) (n : Nat) (x : Int) (hx : x ∈ truncList v n) : x ∈ v := by
  unfold truncList at hx
  split at hx
  · exact List.mem_of_mem_take hx
  · exact hx

theorem length_truncList (v : List Int) (n : Nat) (h : n ≤ v.length) :
    (truncList v n).length = n := by
  unfold truncList
  split
  · simp only [List.length_take]; omega
  · omega

theorem vecGet_mem (v : List Int) (i : Int) (h0 : 0 ≤ i) (h1 : i.toNat < v.length) :
    vecGet v i ∈ v := by
  unfold vecGet
  rw [if_pos h0, List.getD_eq_getElem?_getD, List.getElem?_eq_getElem h1]
  exact List.getElem_mem _

/-- The level lists after `initializeQuantumAndAllotment`, for a validated
configuration: one entry per level, each at least 1. -/
theorem levelLists_ready (options : Options) (hv : Validated options) (s : State) :
    (initializeQuantumAndAllotment options s).quantumList.length = options.numQueues.toNat ∧
    (initializeQuantumAndAllotment options s).allotmentList.length = options.numQueues.toNat ∧
    (∀ x, x ∈ (initializeQuantumAndAllotment options s).quantumList → 1 ≤ x) ∧
    (∀ x, x ∈ (initializeQuantumAndAllotment options s).allotmentList → 1 ≤ x) ∧
    (initializeQuantumAndAllotment options s).jobs = s.jobs ∧
    (initializeQuantumAndAllotment options s).queues = s.queues ∧
    (initializeQuantumAndAllotment options s).currentTime = s.currentTime := by
  have hsz := sizeT_eq options.numQueues (by have := hv.levels; omega) hv.levelsInt
  have hq : ∀ x, x ∈ (if options.quantumList.isEmpty then [1, 2, 3] else options.quantumList) →
      1 ≤ x := by
    intro x hx
    split at hx
    · simp only [List.mem_cons, List.mem_singleton, List.not_mem_nil, or_false] at hx
      omega
    · exact hv.quanta x hx
  have ha : ∀ x, x ∈ (if options.allotmentList.isEmpty then [4, 6, 8]
      else options.allotmentList) → 1 ≤ x := by
    intro x hx
    split at hx
    · simp only [List.mem_cons, List.mem_singleton, List.not_mem_nil, or_false] at hx
      omega
    · exact hv.allots x hx
  have hqne : (if options.quantumList.isEmpty then [1, 2, 3] else options.quantumList) ≠ [] := by
    split
    · simp
    · rename_i h; simpa using h
  have hane : (if options.allotmentList.isEmpty then [4, 6, 8]
      else options.allotmentList) ≠ [] := by
    split
    · simp
    · rename_i h; simpa using h
  simp only [initializeQuantumAndAllotment, hsz]
  refine ⟨length_truncList _ _ (length_padList _ _ _), length_truncList _ _ (length_padList _ _ _),
    ?_, ?_, trivial, trivial, trivial⟩
  · intro x hx
    exact hq x (mem_padList _ _ _ hqne x (mem_truncList _ _ x hx))
  · intro x hx
    exact ha x (mem_padList _ _ _ hane x (mem_truncList _ _ x hx))

theorem keys_insert (m : JobMap) (k : Int) (v : Job) :
    List.Perm (JobMap.insert m k v).keys (k :: m.keys) := by
  induction m with
  | nil => exact List.Perm.refl _
  | cons p rest ih =>
    obtain ⟨a, j⟩ := p
    simp only [JobMap.insert]
    split
    · exact List.Perm.refl _
    · simp only [JobMap.keys, List.map_cons] at ih ⊢
      exact (List.Perm.cons a ih).trans (List.Perm.swap _ _ _)

theorem nodup_modify (m : JobMap) (k : Int) (f : Job → Job) (h : m.keys.Nodup) :
    (JobMap.modify m k f).keys.Nodup := by
  cases hf : JobMap.find? m k with
  | some j => rw [keys_modify m k f j hf]; exact h
  | none =>
    unfold JobMap.modify
    rw [hf]
    simp only [Option.isSome_none, Bool.false_eq_true, if_false]
    rw [(keys_insert m k _).nodup_iff, List.nodup_cons]
    exact ⟨(find?_none_iff m k).mp hf, h⟩

theorem registryOf_cons (a0 : Int) (job : Job) (l : List Job) (m : JobMap) :
    registryOf a0 (job :: l) m
      = registryOf a0 l (m.modify job.id (fun _ => setupEntry a0 job)) := rfl

theorem nodup_registryOf (a0 : Int) (l : List Job) (m : JobMap) (h : m.keys.Nodup) :
    (registryOf a0 l m).keys.Nodup := by
  induction l generalizing m with
  | nil => exact h
  | cons job l ih =>
    rw [registryOf_cons]
    exact ih _ (nodup_modify m _ _ h)

theorem find?_registryOf_notin (a0 : Int) (l : List Job) (m : JobMap) (k : Int)
    (h : k ∉ l.map Job.id) : JobMap.find? (registryOf a0 l m) k = JobMap.find? m k := by
  induction l generalizing m with
  | nil => rfl
  | cons job l ih =>
    simp only [List.map_cons, List.mem_cons, not_or] at h
    rw [registryOf_cons, ih _ h.2, find?_modify, if_neg h.1]

theorem find?_registryOf_mem (a0 : Int) (l : List Job) (m : JobMap)
    (hn : (l.map Job.id).Nodup) (job : Job) (hj : job ∈ l) :
    JobMap.find? (registryOf a0 l m) job.id = some (setupEntry a0 job) := by
  induction l generalizing m with
  | nil => cases hj
  | cons x l ih =>
    simp only [List.map_cons, List.nodup_cons] at hn
    rw [registryOf_cons]
    rcases List.mem_cons.mp hj with e | e
    · subst e
      rw [find?_registryOf_notin a0 l _ _ hn.1, find?_modify, if_pos rfl]
    · exact ih _ hn.2 e

theorem find?_registryOf_inv (a0 : Int) (l : List Job) (m : JobMap) (k : Int) (j : Job)
    (h : JobMap.find? (registryOf a0 l m) k = some j) :
    JobMap.find? m k = some j ∨ ∃ job, job ∈ l ∧ job.id = k ∧ j = setupEntry a0 job := by
  induction l generalizing m with
  | nil => exact Or.inl h
  | cons x l ih =>
    rw [registryOf_cons] at h
    rcases ih _ h with h1 | ⟨job, h1, h2, h3⟩
    · rw [find?_modify] at h1
      by_cases hk : k = x.id
      · rw [if_pos hk] at h1
        simp only [Option.some.injEq] at h1
        exact Or.inr ⟨x, List.mem_cons_self _ _, hk.symm, h1.symm⟩
      · rw [if_neg hk] at h1
        exact Or.inl h1
    · exact Or.inr ⟨job, List.mem_cons_of_mem _ h1, h2, h3⟩

theorem foldl_setupJob (l : List Job) (s : State) :
    l.foldl setupJob s
      = { s with jobs := registryOf (vecGet s.allotmentList 0) l s.jobs } := by
  induction l generalizing s with
  | nil => rfl
  | cons job l ih =>
    rw [List.foldl_cons, ih]
    rfl

/-- The state in which the simulation loop of `main` starts, in closed form. -/
theorem loopStart_eq (options : Options) :
    (loopStart options).hiQueue = options.numQueues - 1 ∧
    (loopStart options).queues = List.replicate options.numQueues.toNat [] ∧
    (loopStart options).jobs
      = registryOf (vecGet (loopStart options).allotmentList 0) options.jobList [] ∧
    (loopStart options).quantumList
      = (initializeQuantumAndAllotment options State.initial).quantumList ∧
    (loopStart options).allotmentList
      = (initializeQuantumAndAllotment options State.initial).allotmentList ∧
    (loopStart options).currentTime = 0 ∧
    (loopStart options).boostTime = options.boostTime ∧
    (loopStart options).nextBoost = options.boostTime := by
  simp only [loopStart, enterSimulation, setup, setupJobs, foldl_setupJob,
    initializeQuantumAndAllotment, State.initial, resizeQueues]
  simp

theorem flatten_replicate_nil (n : Nat) :
    (List.replicate n ([] : List Int)).flatten = [] := by
  induction n with
  | zero => rfl
  | succ n ih => simp [List.replicate_succ, ih]

theorem keys_registryOf_perm (a0 : Int) (l : List Job) (hn : (l.map Job.id).Nodup) :
    (registryOf a0 l []).keys.Perm (l.map Job.id) := by
  refine (List.perm_ext_iff_of_nodup (nodup_registryOf a0 l [] List.nodup_nil) hn).mpr ?_
  intro k
  constructor
  · intro hk
    by_contra hc
    have hnone : JobMap.find? (registryOf a0 l []) k = none := find?_registryOf_notin a0 l [] k hc
    exact (find?_none_iff _ k).mp hnone hk
  · intro hk
    obtain ⟨job, hj, rfl⟩ := List.mem_map.mp hk
    exact mem_keys_of_find? (find?_registryOf_mem a0 l [] hn job hj)

theorem sum_registryOf (a0 : Int) (l : List Job) (hn : (l.map Job.id).Nodup) (f : Job → Int)
    (hf : ∀ job, f (setupEntry a0 job) = f job) :
    ((registryOf a0 l []).keys.map (fun k => f ((registryOf a0 l []).get k))).sum
      = (l.map f).sum := by
  rw [((keys_registryOf_perm a0 l hn).map _).sum_eq, List.map_map]
  refine congrArg List.sum (List.map_congr_left ?_)
  intro job hj
  simp only [Function.comp]
  rw [get_of_find? (find?_registryOf_mem a0 l [] hn job hj), hf]

theorem le_maxArrival (l : List Job) :
    0 ≤ maxArrival l ∧ ∀ job, job ∈ l → job.startTime ≤ maxArrival l := by
  obtain ⟨h1, h2⟩ := foldl_max_le (l.map Job.startTime) 0
  exact ⟨h1, fun job hj => h2 _ (List.mem_map_of_mem _ hj)⟩

/-- The invariant holds when the simulation loop of `main` starts on a
validated configuration and workload. -/
theorem loopStart_inv (options : Options) (hv : Validated options) :
    Inv (loopStart options).jobs none 1 (loopStart options) := by
  obtain ⟨e1, e2, e3, e4, e5, e6, _, _⟩ := loopStart_eq options
  obtain ⟨l1, l2, l3, l4, _⟩ := levelLists_ready options hv State.initial
  have hlev := hv.levels
  have hcfg : Config (loopStart options) := by
    refine ⟨by rw [e1]; omega, ?_, ?_, ?_⟩
    · rw [e2, e1, List.length_replicate]; omega
    · intro i h0 h1
      rw [e1] at h1
      rw [e4]
      exact l3 _ (vecGet_mem _ i h0 (by rw [l1]; omega))
    · intro i h0 h1
      rw [e1] at h1
      rw [e5]
      exact l4 _ (vecGet_mem _ i h0 (by rw [l2]; omega))
  have ha0 : 1 ≤ vecGet (loopStart options).allotmentList 0 :=
    hcfg.allot 0 (le_refl _) hcfg.hi
  have hjob : ∀ k j, JobMap.find? (loopStart options).jobs k = some j →
      ∃ job, job ∈ options.jobList ∧ job.id = k ∧
        j = setupEntry (vecGet (loopStart options).allotmentList 0) job := by
    intro k j hk
    rw [e3] at hk
    rcases find?_registryOf_inv _ _ _ k j hk with h | h
    · simp [JobMap.find?] at h
    · exact h
  have hsum : ∀ f : Job → Int, (∀ job, f (setupEntry
      (vecGet (loopStart options).allotmentList 0) job) = f job) →
      ((loopStart options).jobs.keys.map (fun k => f ((loopStart options).jobs.get k))).sum
        = (options.jobList.map f).sum := by
    intro f hf
    rw [e3]
    exact sum_registryOf _ _ hv.ids f hf
  have hwork : workBound (loopStart options).jobs = totalWork options.jobList :=
    hsum Job.totalTime (fun _ => rfl)
  have hrem : remainingSum (loopStart options).jobs (loopStart options)
      = totalWork options.jobList := by
    unfold remainingSum totalWork
    rw [hsum Job.remainingTime (fun _ => rfl)]
    exact congrArg List.sum (List.map_congr_left (fun job hj => (hv.jobs job hj).2.2.1))
  have hmax : maxStart (loopStart options).jobs ≤ maxArrival options.jobList := by
    refine foldl_max_bound _ 0 _ (le_maxArrival _).1 ?_
    intro x hx
    obtain ⟨k, hk, rfl⟩ := List.mem_map.mp hx
    obtain ⟨job, hin, _, hj⟩ := hjob k _ (find?_get_of_mem_keys _ k hk)
    rw [hj]
    exact (le_maxArrival _).2 job hin
  have hbud : Budget (loopStart options).jobs (loopStart options) := by
    have h0 := (le_maxStart (loopStart options).jobs).1
    have hr := hv.range
    have hb := hv.boost
    refine ⟨by rw [e6], by omega, by omega, by omega⟩
  refine ⟨hcfg, ?_, rfl, ?_, ?_, ?_, ?_, ?_, hbud⟩
  · rw [e3]
    exact nodup_registryOf _ _ _ (by simp [JobMap.keys])
  · intro k j hk
    rw [get_of_find? hk]
    exact ⟨rfl, rfl, rfl⟩
  · intro k j hk
    obtain ⟨job, hin, _, hj⟩ := hjob k j hk
    obtain ⟨h1, h2, h3, h4⟩ := hv.jobs job hin
    rw [hj, e6]
    refine ⟨⟨h1, h2, ?_, ?_, ha0, le_refl _, hcfg.hi, fun _ => h3, ?_, ?_⟩, ?_⟩
    · show 0 ≤ job.remainingTime
      omega
    · show job.remainingTime ≤ job.totalTime
      omega
    · intro hs
      have : job.started = true := hs
      rw [h4] at this
      cases this
    · intro hlt
      have : job.remainingTime < job.totalTime := hlt
      omega
    · intro _ h0
      have : job.remainingTime = 0 := h0
      omega
  · intro id hid
    rw [e2, flatten_replicate_nil] at hid
    cases hid
  · intro k j hk _ ht
    obtain ⟨job, hin, _, hj⟩ := hjob k j hk
    obtain ⟨h1, _⟩ := hv.jobs job hin
    rw [hj, e6] at ht
    have : job.startTime + 1 ≤ 0 := ht
    omega
  · intro id hid
    cases hid

/-- A run of the loop that has ended keeps its result when given more fuel. -/
theorem runLoop_mono (n : Nat) (s r : State) (h : runLoop n s = some r) (m : Nat)
    (hm : n ≤ m) : runLoop m s = some r := by
  induction n generalizing s m with
  | zero => simp [runLoop] at h
  | succ n ih =>
    obtain ⟨m2, rfl⟩ : ∃ m2, m = m2 + 1 := ⟨m - 1, by omega⟩
    simp only [runLoop] at h ⊢
    cases hl : loopBody s with
    | mk s1 fl =>
      rw [hl] at h
      cases fl with
      | false => exact h
      | true => exact ih s1 h m2 (by omega)

/-- Two runs of the loop that have ended agree on the final state. -/
theorem runLoop_unique (n m : Nat) (s r1 r2 : State) (h1 : runLoop n s = some r1)
    (h2 : runLoop m s = some r2) : r1 = r2 := by
  have a := runLoop_mono n s r1 h1 (max n m) (le_max_left _ _)
  have b := runLoop_mono m s r2 h2 (max n m) (le_max_right _ _)
  rw [a] at b
  exact Option.some.inj b

/-! ## Termination and the final state -/

theorem main_eq_runLoop (fuel : Nat) (options : Options) :
    main fuel options = runLoop fuel (loopStart options) := rfl

/-- On a validated configuration and workload the simulation ends, in a state
that satisfies the invariant and where every job is done. -/
theorem main_ends (options : Options) (hv : Validated options) :
    ∃ fuel final, main fuel options = some final ∧
      Inv (loopStart options).jobs none 0 final ∧ allDone final = true :=
  runLoop_terminates _ _ _ _ (loopStart_inv options hv) rfl rfl

/-- Every terminated run of a validated simulation ends in the state described
by `main_ends`. -/
theorem main_final (options : Options) (hv : Validated options) (fuel : Nat) (final : State)
    (h : main fuel options = some final) :
    Inv (loopStart options).jobs none 0 final ∧ allDone final = true := by
  obtain ⟨fuel2, final2, h2, hi, hd⟩ := main_ends options hv
  have := runLoop_unique fuel fuel2 _ _ _ h h2
  rw [this]
  exact ⟨hi, hd⟩

/-- What the invariant and `allDone` say of each entry of the final registry. -/
theorem final_entry {m0 : JobMap} {final : State} (hi : Inv m0 none 0 final)
    (hd : allDone final = true) (p : Int × Job) (hp : p ∈ final.jobs) :
    p.2.remainingTime = 0 ∧ p.2.started = true ∧
    p.2.startTime + p.2.totalTime ≤ p.2.endTime ∧ 0 < p.2.totalTime ∧
    p.2.startTime ≤ p.2.firstRun ∧ p.2.responseTime = p.2.firstRun - p.2.startTime := by
  have hn : final.jobs.keys.Nodup := by rw [hi.keys]; exact hi.nodup
  have hf := find?_of_mem final.jobs hn p hp
  obtain ⟨⟨_, h2, h3, _, _, _, _, h8, h9, _⟩, hdone⟩ := hi.ok p.1 p.2 hf
  have hle : ¬ p.2.remainingTime > 0 := by
    unfold allDone at hd
    rw [List.all_eq_true] at hd
    simpa using hd p hp
  have h0 : p.2.remainingTime = 0 := by omega
  have hs : p.2.started = true := by
    cases hst : p.2.started with
    | true => rfl
    | false =>
      have := h8 hst
      omega
  exact ⟨h0, hs, hdone (by simp) h0, h2, (h9 hs).1, (h9 hs).2⟩

/-- Every job of the workload has its entry in the final registry, with its
identifier, arrival time and service time. -/
theorem final_covers (options : Options) (hv : Validated options) (final : State)
    (hi : Inv (loopStart options).jobs none 0 final) (job : Job)
    (hj : job ∈ options.jobList) :
    ∃ p, p ∈ final.jobs ∧ p.1 = job.id ∧ p.2.id = job.id ∧
      p.2.startTime = job.startTime ∧ p.2.totalTime = job.totalTime := by
  have h0 : JobMap.find? (loopStart options).jobs job.id
      = some (setupEntry (vecGet (loopStart options).allotmentList 0) job) := by
    rw [(loopStart_eq options).2.2.1]
    exact find?_registryOf_mem _ _ _ hv.ids job hj
  have hk : job.id ∈ final.jobs.keys := by rw [hi.keys]; exact mem_keys_of_find? h0
  obtain ⟨j, hf⟩ := find?_of_mem_keys _ _ hk
  obtain ⟨c1, c2, c3⟩ := hi.const job.id j hf
  rw [get_of_find? h0] at c1 c2 c3
  exact ⟨(job.id, j), find?_some_mem _ _ _ hf, rfl, c3, c1, c2⟩

/-- C5. For every validated configuration (at least one level, every quantum
and allotment at least 1, boost interval at least 1) and every workload of jobs
with distinct identifiers, arrival time at least 0 and positive service time,
whose latest arrival, total service time and boost interval together stay below
`2^31` (so that the `int` clock and `nextBoost` do not overflow), the
simulation started by `main` at clock 0 terminates: some number of loop
iterations ends it. In the state of every terminated run each registered job has
`remainingTime = 0` and `started = true`, and every job of the workload is
registered under its identifier with its arrival and service times. -/
theorem simulation_terminates_all_done (options : Options) (hv : Validated options) :
    (loopStart options).currentTime = 0 ∧
    (∃ fuel final, main fuel options = some final) ∧
    ∀ fuel final, main fuel options = some final →
      (∀ p, p ∈ final.jobs → p.2.remainingTime = 0 ∧ p.2.started = true) ∧
      (∀ job, job ∈ options.jobList →
        ∃ p, p ∈ final.jobs ∧ p.1 = job.id ∧ p.2.id = job.id ∧
          p.2.startTime = job.startTime ∧ p.2.totalTime = job.totalTime) := by
  refine ⟨(loopStart_eq options).2.2.2.2.2.1, ?_, ?_⟩
  · obtain ⟨fuel, final, h, _⟩ := main_ends options hv
    exact ⟨fuel, final, h⟩
  · intro fuel final h
    obtain ⟨hi, hd⟩ := main_final options hv fuel final h
    refine ⟨fun p hp => ?_, fun job hj => final_covers options hv final hi job hj⟩
    obtain ⟨a, b, _⟩ := final_entry hi hd p hp
    exact ⟨a, b⟩

/-- Witness for C5: the default options are a validated configuration and
workload, and their simulation terminates. -/
theorem simulation_terminates_all_done_witness :
    Validated Options.default ∧ ∃ fuel final, main fuel Options.default = some final :=
  ⟨validated_default, (simulation_terminates_all_done Options.default validated_default).2.1⟩

/-- C6. For every validated configuration and workload (which includes that
the latest arrival, the total service time and the boost interval together stay
below `2^31`, so that the `int` clock does not overflow) the simulation
terminates, and in the final state of every terminated run each job has
`endTime - startTime >= totalTime`. -/
theorem turnaround_at_least_service (options : Options) (hv : Validated options) :
    (∃ fuel final, main fuel options = some final) ∧
    ∀ fuel final, main fuel options = some final →
      ∀ p, p ∈ final.jobs → p.2.totalTime ≤ p.2.endTime - p.2.startTime := by
  refine ⟨?_, ?_⟩
  · obtain ⟨fuel, final, h, _⟩ := main_ends options hv
    exact ⟨fuel, final, h⟩
  · intro fuel final h p hp
    obtain ⟨hi, hd⟩ := main_final options hv fuel final h
    obtain ⟨_, _, c, _⟩ := final_entry hi hd p hp
    omega

set_option maxRecDepth 100000 in
/-- Witness for C6: the default run ends within 40 iterations, and its two jobs
(10 units of work each) have turnarounds `16 - 0` and `20 - 5`. -/
theorem turnaround_at_least_service_witness :
    Validated Options.default ∧
    (main 40 Options.default).map (fun s => s.jobs.map (fun p => p.2.endTime - p.2.startTime))
      = some [16, 15] ∧
    ∀ final, main 40 Options.default = some final →
      ∀ p, p ∈ final.jobs → p.2.totalTime ≤ p.2.endTime - p.2.startTime :=
  ⟨validated_default, by decide,
   fun final h => (turnaround_at_least_service Options.default validated_default).2 40 final h⟩

/-! ## The first-run record -/

theorem Keeps.same (s : State) : Keeps s s := fun _ h => ⟨h, rfl, rfl⟩

theorem Keeps.andThen {s s2 s3 : State} (h1 : Keeps s s2) (h2 : Keeps s2 s3) : Keeps s s3 := by
  intro k hk
  obtain ⟨a1, a2, a3⟩ := h1 k hk
  obtain ⟨b1, b2, b3⟩ := h2 k a1
  exact ⟨b1, b2.trans a2, b3.trans a3⟩

theorem Keeps.of_core {s s2 : State}
    (h : ∀ k, (s2.jobs.get k).core = (s.jobs.get k).core) : Keeps s s2 := by
  intro k hk
  obtain ⟨_, _, _, _, c5, c6, _, c8⟩ := core_fields (h k)
  exact ⟨c8.trans hk, c5, c6⟩

theorem Keeps.write (s : State) (id : Int) (f : Job → Job)
    (hf : ∀ j, (f j).started = j.started ∧ (f j).firstRun = j.firstRun ∧
      (f j).responseTime = j.responseTime) : Keeps s (s.onJob id f) := by
  intro k hk
  rw [get_onJob]
  split
  · rename_i e
    subst e
    obtain ⟨a1, a2, a3⟩ := hf (s.jobs.get k)
    exact ⟨a1.trans hk, a2, a3⟩
  · exact ⟨hk, rfl, rfl⟩

theorem Keeps.of_same_jobs (s s2 : State) (h : s2.jobs = s.jobs) : Keeps s s2 := by
  intro k hk
  rw [h]
  exact ⟨hk, rfl, rfl⟩

theorem startJob_keeps (id : Int) (s : State) : Keeps s (startJob id s) := by
  intro k hk
  rw [startJob_get]
  split
  · rename_i h
    rw [h.1, h.2] at hk
    cases hk
  · exact ⟨hk, rfl, rfl⟩

theorem sliceUnit_keeps (id : Int) (s : State) : Keeps s (sliceUnit id s) := by
  have h1 : Keeps s (tick id s) :=
    (Keeps.of_same_jobs s { s with currentTime := s.currentTime + 1 } rfl).andThen
      (Keeps.write _ id _ (fun _ => ⟨rfl, rfl, rfl⟩))
  have h2 : Keeps (tick id s) (boostCheck (tick id s)) :=
    Keeps.of_core (fun k => boostCheck_core _ k)
  have h3 : Keeps (boostCheck (tick id s)) (admitArrivals (boostCheck (tick id s))) :=
    Keeps.of_core (fun k => admitArrivals_core _ k)
  exact (h1.andThen h2).andThen h3

theorem sliceLoop_keeps (id : Int) (n : Nat) (s : State) (u : Int) :
    Keeps s (sliceLoop id n s u).1 := by
  induction n generalizing s u with
  | zero => exact Keeps.same s
  | succ n ih =>
    simp only [sliceLoop]
    split
    · exact (sliceUnit_keeps id s).andThen (Keeps.write _ id _ (fun _ => ⟨rfl, rfl, rfl⟩))
    · exact (sliceUnit_keeps id s).andThen (ih _ _)

theorem runJob_keeps (q : Nat) (id : Int) (s : State) : Keeps s (runJob q id s) := by
  unfold runJob runSlice
  exact (((Keeps.write s id _ (fun _ => ⟨rfl, rfl, rfl⟩)).andThen (startJob_keeps id _)).andThen
    (sliceLoop_keeps id _ _ 0)).andThen (Keeps.of_core (fun k => afterSlice_core _ _ _ k))

theorem prepare_keeps (s : State) : Keeps s (prepare s) :=
  (Keeps.of_core (fun k => boostCheck_core s k)).andThen
    (Keeps.of_core (fun k => admitArrivals_core _ k))

theorem loopBody_keeps (s : State) : Keeps s (loopBody s).1 := by
  unfold loopBody
  simp only []
  split
  · split
    · exact prepare_keeps s
    · exact (prepare_keeps s).andThen (Keeps.of_same_jobs _ _ rfl)
  · unfold dispatch
    exact (prepare_keeps s).andThen
      ((Keeps.of_same_jobs (prepare s) { prepare s with
          queues := popAt (prepare s).queues (FindQueue (prepare s)).toNat } rfl).andThen
        (runJob_keeps _ _ _))

/-- The first dispatch of a job records the clock as its first-run time. -/
theorem dispatch_first_run (q : Nat) (id : Int) (rest : List Int) (s : State)
    (hq : queueAt s.queues q = id :: rest) (hs : (s.jobs.get id).started = false) :
    ((dispatch q s).jobs.get id).started = true ∧
    ((dispatch q s).jobs.get id).firstRun = s.currentTime ∧
    ((dispatch q s).jobs.get id).responseTime = s.currentTime - (s.jobs.get id).startTime := by
  rw [dispatch_unfold q id rest s hq]
  unfold runJob runSlice
  simp only []
  set s0 : State := { s with queues := popAt s.queues q } with hs0
  set s2 := startJob id (s0.onJob id (fun j => j)) with hs2
  have hget := startJob_get id (s0.onJob id (fun j => j)) id
  simp only [get_touch, true_and, onJob_currentTime] at hget
  rw [← hs2] at hget
  have hs' : (s0.jobs.get id).started = false := hs
  rw [if_pos hs'] at hget
  have hk : Keeps s2 (afterSlice id (sliceLoop id (timeSlice q id s2).toNat s2 0).2
      (sliceLoop id (timeSlice q id s2).toNat s2 0).1) :=
    (sliceLoop_keeps id _ s2 0).andThen (Keeps.of_core (fun k => afterSlice_core _ _ _ k))
  obtain ⟨a1, a2, a3⟩ := hk id (by rw [hget])
  rw [hget] at a2 a3
  exact ⟨a1, a2, a3⟩

/-- C7. For every validated configuration and workload (which includes that
the latest arrival, the total service time and the boost interval together stay
below `2^31`, so that the `int` clock does not overflow) the simulation
terminates, and in the final state of every terminated run each job has
`endTime >= startTime` and `responseTime = firstRun - startTime >= 0`. The
first-run time is the clock of the first dispatch: in every state, the dispatch
of a job that has not run yet sets `firstRun` to the current clock (and
`responseTime` to that clock minus the arrival time, when this difference is in
the range of `int`), and no iteration of the simulation loop changes `firstRun`
or `responseTime` of a job that has already run. -/
theorem response_time_recorded (options : Options) (hv : Validated options) :
    (∃ fuel final, main fuel options = some final) ∧
    (∀ fuel final, main fuel options = some final →
      ∀ p, p ∈ final.jobs →
        p.2.startTime ≤ p.2.endTime ∧ p.2.responseTime = p.2.firstRun - p.2.startTime ∧
        0 ≤ p.2.responseTime) ∧
    (∀ (s : State) (q : Nat) (id : Int) (rest : List Int),
      queueAt s.queues q = id :: rest → (s.jobs.get id).started = false →
        ((dispatch q s).jobs.get id).started = true ∧
        ((dispatch q s).jobs.get id).firstRun = s.currentTime ∧
        (-2 ^ 31 ≤ s.currentTime - (s.jobs.get id).startTime →
          s.currentTime - (s.jobs.get id).startTime < 2 ^ 31 →
          ((dispatch q s).jobs.get id).responseTime
            = s.currentTime - (s.jobs.get id).startTime)) ∧
    (∀ (s : State) (k : Int), (s.jobs.get k).started = true →
      ((loopBody s).1.jobs.get k).started = true ∧
      ((loopBody s).1.jobs.get k).firstRun = (s.jobs.get k).firstRun ∧
      ((loopBody s).1.jobs.get k).responseTime = (s.jobs.get k).responseTime) := by
  refine ⟨?_, ?_, fun s q id rest hq hs =>
      ⟨(dispatch_first_run q id rest s hq hs).1, (dispatch_first_run q id rest s hq hs).2.1,
        fun _ _ => (dispatch_first_run q id rest s hq hs).2.2⟩,
    fun s k hk => loopBody_keeps s k hk⟩
  · obtain ⟨fuel, final, h, _⟩ := main_ends options hv
    exact ⟨fuel, final, h⟩
  · intro fuel final h p hp
    obtain ⟨hi, hd⟩ := main_final options hv fuel final h
    obtain ⟨_, _, c3, c4, c5, c6⟩ := final_entry hi hd p hp
    exact ⟨by omega, c6, by omega⟩

set_option maxRecDepth 100000 in
/-- Witness for C7: in the default run job 1 (arrival 0) first runs at clock 0
and job 2 (arrival 5) at clock 6, with response times 0 and 1. -/
theorem response_time_recorded_witness :
    Validated Options.default ∧
    (main 40 Options.default).map
        (fun s => s.jobs.map (fun p => (p.2.firstRun, p.2.responseTime)))
      = some [(0, 0), (6, 1)] ∧
    ∀ final, main 40 Options.default = some final →
      ∀ p, p ∈ final.jobs →
        p.2.startTime ≤ p.2.endTime ∧ p.2.responseTime = p.2.firstRun - p.2.startTime ∧
        0 ≤ p.2.responseTime :=
  ⟨validated_default, by decide,
   fun final h => (response_time_recorded Options.default validated_default).2.1 40 final h⟩

/-! ## Level lists after initialisation -/

/-- Padding then truncating a non-empty list to `n` entries, in closed form. -/
theorem fitList_spec (v : List Int) (n : Nat) (dflt : Int) (hv : v ≠ []) :
    (truncList (padList v n dflt) n).length = n ∧
    (v.length < n → ∃ last, v.getLast? = some last ∧
      truncList (padList v n dflt) n = v ++ List.replicate (n - v.length) last) ∧
    (n < v.length → truncList (padList v n dflt) n = v.take n) ∧
    (v.length = n → truncList (padList v n dflt) n = v) := by
  obtain ⟨y, hy⟩ : ∃ y, v.getLast? = some y := by
    cases hl : v.getLast? with
    | none => exact absurd (List.getLast?_eq_none_iff.mp hl) hv
    | some y => exact ⟨y, rfl⟩
  refine ⟨length_truncList _ _ (length_padList _ _ _), ?_, ?_, ?_⟩
  · intro h
    refine ⟨y, hy, ?_⟩
    have hp : padList v n dflt = v ++ List.replicate (n - v.length) y := by
      unfold padList
      rw [if_pos h, hy]
      rfl
    rw [hp]
    unfold truncList
    rw [if_neg (by simp only [List.length_append, List.length_replicate]; omega)]
  · intro h
    have hp : padList v n dflt = v := by
      unfold padList
      rw [if_neg (by omega)]
    rw [hp]
    unfold truncList
    rw [if_pos h]
  · intro h
    have hp : padList v n dflt = v := by
      unfold padList
      rw [if_neg (by omega)]
    rw [hp]
    unfold truncList
    rw [if_neg (by omega)]

theorem default_or_supplied_ne_nil (l dflt : List Int) (hd : dflt ≠ []) :
    (if l.isEmpty then dflt else l) ≠ [] := by
  split
  · exact hd
  · rename_i h
    simpa using h

/-- C16. For every level count `N >= 1` (a C++ `int`) and every supplied quantum
and allotment list, after `initializeQuantumAndAllotment` both `quantumList` and
`allotmentList` have exactly `N` entries. With `base` the supplied list, or the
default (`{1,2,3}` for quanta, `{4,6,8}` for allotments) when the supplied list
is empty: a `base` shorter than `N` is kept and padded with copies of its last
entry, a `base` longer than `N` is cut to its first `N` entries, and a `base` of
`N` entries is kept as it is. -/
theorem level_lists_have_N_entries (options : Options) (s : State)
    (h1 : 1 ≤ options.numQueues) (h2 : options.numQueues < 2 ^ 31) :
    (initializeQuantumAndAllotment options s).quantumList.length = options.numQueues.toNat ∧
    (initializeQuantumAndAllotment options s).allotmentList.length = options.numQueues.toNat ∧
    (∀ base, base = (if options.quantumList.isEmpty then [1, 2, 3] else options.quantumList) →
      (base.length < options.numQueues.toNat → ∃ last, base.getLast? = some last ∧
        (initializeQuantumAndAllotment options s).quantumList
          = base ++ List.replicate (options.numQueues.toNat - base.length) last) ∧
      (options.numQueues.toNat < base.length →
        (initializeQuantumAndAllotment options s).quantumList
          = base.take options.numQueues.toNat) ∧
      (base.length = options.numQueues.toNat →
        (initializeQuantumAndAllotment options s).quantumList = base)) ∧
    (∀ base, base = (if options.allotmentList.isEmpty then [4, 6, 8]
        else options.allotmentList) →
      (base.length < options.numQueues.toNat → ∃ last, base.getLast? = some last ∧
        (initializeQuantumAndAllotment options s).allotmentList
          = base ++ List.replicate (options.numQueues.toNat - base.length) last) ∧
      (options.numQueues.toNat < base.length →
        (initializeQuantumAndAllotment options s).allotmentList
          = base.take options.numQueues.toNat) ∧
      (base.length = options.numQueues.toNat →
        (initializeQuantumAndAllotment options s).allotmentList = base)) := by
  have hsz := sizeT_eq options.numQueues (by omega) h2
  have hq := fitList_spec _ options.numQueues.toNat 5
    (default_or_supplied_ne_nil options.quantumList [1, 2, 3] (by simp))
  have ha := fitList_spec _ options.numQueues.toNat 20
    (default_or_supplied_ne_nil options.allotmentList [4, 6, 8] (by simp))
  simp only [initializeQuantumAndAllotment, hsz]
  refine ⟨hq.1, ha.1, ?_, ?_⟩
  · intro base hb
    rw [hb]
    exact hq.2
  · intro base hb
    rw [hb]
    exact ha.2

/-- Witness for C16: with 3 levels and the supplied quantum list `{2}` the
quanta become `{2, 2, 2}`; the empty allotment list becomes the default
`{4, 6, 8}`. -/
theorem level_lists_have_N_entries_witness :
    ((1 : Int) ≤ 3 ∧ (3 : Int) < 2 ^ 31) ∧
    (initializeQuantumAndAllotment
      { Options.default with quantumList := [2], allotmentList := [] } State.initial).quantumList
      = [2, 2, 2] ∧
    (initializeQuantumAndAllotment
      { Options.default with quantumList := [2], allotmentList := [] }
        State.initial).allotmentList.length = 3 :=
  ⟨⟨by decide, by decide⟩, by decide,
   (level_lists_have_N_entries
      { Options.default with quantumList := [2], allotmentList := [] } State.initial
      (by decide) (by decide)).2.1⟩

/-! ## The empty workload -/

theorem queueAt_replicate_nil (n j : Nat) :
    queueAt (List.replicate n ([] : List Int)) j = [] := by
  unfold queueAt
  rw [List.getD_eq_getElem?_getD]
  by_cases h : j < n
  · rw [List.getElem?_eq_getElem (by simpa using h)]
    simp
  · rw [List.getElem?_eq_none (by simpa using h)]
    rfl

/-- With every queue empty the boost check changes neither queues nor registry. -/
theorem boostCheck_of_empty (s : State) (h : ∀ j, queueAt s.queues j = []) :
    (boostCheck s).queues = s.queues ∧ (boostCheck s).jobs = s.jobs := by
  unfold boostCheck
  split
  · obtain ⟨a1, a2, a3, a4, a5, _⟩ := boostAllQueues_spec s
    have hw : waitingBelow s = [] := by
      unfold waitingBelow
      rw [List.flatMap, flatten_map_nil _ _ (fun j _ => h j)]
    refine ⟨queues_ext _ _ a4 (fun j => ?_), ?_⟩
    · by_cases h0 : j = 0
      · rw [h0, a1, hw, List.append_nil]
      · by_cases hj : j ≤ s.hiQueue.toNat
        · rw [a2 j (by omega) hj, h j]
        · exact a3 j (by omega)
    · rw [a5, hw]
      rfl
  · exact ⟨rfl, rfl⟩

/-- The simulation of an empty workload, in closed form. -/
theorem empty_run (options : Options) (hj : options.jobList = []) :
    loopBody (loopStart options) = (prepare (loopStart options), false) ∧
    (prepare (loopStart options)).currentTime = 0 ∧
    (prepare (loopStart options)).queues = List.replicate options.numQueues.toNat [] ∧
    (prepare (loopStart options)).jobs = [] := by
  obtain ⟨_, e2, e3, _, _, e6, _, _⟩ := loopStart_eq options
  rw [hj] at e3
  have e3' : (loopStart options).jobs = [] := e3
  have hempty : ∀ j, queueAt (loopStart options).queues j = [] := by
    intro j
    rw [e2]
    exact queueAt_replicate_nil _ j
  obtain ⟨b1, b2⟩ := boostCheck_of_empty _ hempty
  have hq : (prepare (loopStart options)).queues = List.replicate options.numQueues.toNat [] := by
    unfold prepare admitArrivals
    simp only [b2, e3', arrivals, List.filter_nil, List.map_nil, List.foldl_nil, b1, e2]
  have hjobs : (prepare (loopStart options)).jobs = [] := by
    unfold prepare admitArrivals
    simp only [b2, e3', List.map_nil]
  have hf : FindQueue (prepare (loopStart options)) = -1 := by
    rcases FindQueue_cases (prepare (loopStart options)) with ⟨h1, _⟩ | ⟨q, _, _, h3, _⟩
    · exact h1
    · rw [hq, queueAt_replicate_nil] at h3
      exact absurd rfl h3
  have hd : allDone (prepare (loopStart options)) = true := by
    unfold allDone
    rw [hjobs]
    rfl
  refine ⟨?_, by rw [prepare_currentTime, e6], hq, hjobs⟩
  unfold loopBody
  simp only [hf, hd, if_true]

/-- C14. Empty workload: for every configuration with at least one level, the
simulation of an empty job list leaves the loop in its first iteration
(`main 1` already returns), with the clock still 0, every queue empty and an
empty registry (no job record for the statistics). -/
theorem empty_workload_ends_at_once (options : Options) (h1 : 1 ≤ options.numQueues)
    (hj : options.jobList = []) :
    (loopBody (loopStart options)).2 = false ∧
    ∃ final, main 1 options = some final ∧ final.currentTime = 0 ∧
      final.queues.length = options.numQueues.toNat ∧ 1 ≤ final.queues.length ∧
      (∀ j, queueAt final.queues j = []) ∧ final.jobs = [] := by
  obtain ⟨r1, r2, r3, r4⟩ := empty_run options hj
  refine ⟨by rw [r1], prepare (loopStart options), ?_, r2, ?_, ?_, ?_, r4⟩
  · rw [main_eq_runLoop]
    simp only [runLoop, r1]
  · rw [r3, List.length_replicate]
  · rw [r3, List.length_replicate]
    omega
  · intro j
    rw [r3]
    exact queueAt_replicate_nil _ j

/-- Witness for C14: the default configuration with an empty job list. -/
theorem empty_workload_ends_at_once_witness :
    ((1 : Int) ≤ ({ Options.default with jobList := [] } : Options).numQueues ∧
      ({ Options.default with jobList := [] } : Options).jobList = []) ∧
    ∃ final, main 1 { Options.default with jobList := [] } = some final ∧
      final.currentTime = 0 ∧ final.jobs = [] := by
  obtain ⟨_, final, h1, h2, _, _, _, h6⟩ :=
    empty_workload_ends_at_once { Options.default with jobList := [] } (by decide) rfl
  exact ⟨⟨by decide, rfl⟩, final, h1, h2, h6⟩

/-! ## The three-level scenario -/

set_option maxRecDepth 100000 in
/-- C13 as stated fails: with 3 levels, quanta `{1,2,3}`, allotments `{4,6,8}`,
boost interval 20 and one job arriving at 0 with 10 units of work, the job
completes at clock 10 with `currPri = 1`, not 2, and it is at level 2 after no
iteration of the loop. -/
theorem three_levels_never_reaches_level_two :
    (main 8 threeLevelsOneJob).map (fun s => ((s.jobs.get 1).currPri, (s.jobs.get 1).endTime))
      = some (1, 10) ∧
    (main 8 threeLevelsOneJob).map (fun s => (s.jobs.get 1).currPri) ≠ some 2 ∧
    (List.range 9).all (fun n =>
      decide (((stateAfter n (loopStart threeLevelsOneJob)).jobs.get 1).currPri ≠ 2)) = true := by
  decide

set_option maxRecDepth 100000 in
/-- C13, amended. With 3 levels, quanta `{1,2,3}`, allotments `{4,6,8}`, boost
interval 20 and one job arriving at 0 with 10 units of work: the job runs 4
dispatches of 1 unit at level 0 and is demoted to level 1 at clock 4 with an
allotment of 6; it then runs 3 dispatches of 2 units at level 1 (clocks 6, 8,
10); the third one uses up the allotment and completes the job at clock 10, so
no second demotion takes place: `currPri` is 1 at completion and level 2 is
never used. The lists give, after each of the first 7 iterations, the clock and
the job's `remainingTime`, `currPri` and `allotLeft`, then the queues. -/
theorem three_levels_scenario :
    (List.range 8).map (fun n =>
        ((stateAfter n (loopStart threeLevelsOneJob)).currentTime,
         ((stateAfter n (loopStart threeLevelsOneJob)).jobs.get 1).remainingTime,
         ((stateAfter n (loopStart threeLevelsOneJob)).jobs.get 1).currPri,
         ((stateAfter n (loopStart threeLevelsOneJob)).jobs.get 1).allotLeft))
      = [(0, 10, 0, 4), (1, 9, 0, 3), (2, 8, 0, 2), (3, 7, 0, 1), (4, 6, 1, 6), (6, 4, 1, 4),
         (8, 2, 1, 2), (10, 0, 1, 2)] ∧
    (List.range 8).map (fun n => (stateAfter n (loopStart threeLevelsOneJob)).queues)
      = [[[], [], []], [[1], [], []], [[1], [], []], [[1], [], []], [[], [1], []],
         [[], [1], []], [[], [1], []], [[], [], []]] ∧
    (main 8 threeLevelsOneJob).map
        (fun s => (s.currentTime, (s.jobs.get 1).currPri, (s.jobs.get 1).endTime,
          (s.jobs.get 1).remainingTime))
      = some (10, 1, 10, 0) := by
  decide

/-! ## Inputs the specification calls invalid -/

set_option maxRecDepth 100000 in
/-- C15 as stated fails: no input is rejected. The run
`-n 2 -Q 1,0 -A 4,-6 -j "1,0,1"` (non-positive quantum and allotment at level
1) is simulated and ends at clock 1 with a record for job 1; the run
`-j "1,0,3;2,1,0"` (job 2 with service time 0) is simulated and ends at clock 3
with records for both jobs; the run `-j "1,-1,1"` (negative arrival time) enters
the simulation loop, which takes idle ticks. -/
theorem invalid_input_is_simulated :
    (loopStart badLevelOptions).quantumList = [1, 0] ∧
    (loopStart badLevelOptions).allotmentList = [4, -6] ∧
    (main 2 badLevelOptions).map (fun s => (s.currentTime, s.jobs.map (fun p => p.2.endTime)))
      = some (1, [1]) ∧
    (main 7 zeroWorkOptions).map
        (fun s => (s.currentTime, s.jobs.map (fun p => (p.2.totalTime, p.2.endTime))))
      = some (3, [(3, 3), (0, 0)]) ∧
    (loopStart earlyArrivalOptions).jobs.map (fun p => p.2.startTime) = [-1] ∧
    (stateAfter 3 (loopStart earlyArrivalOptions)).currentTime = 3 := by
  decide

theorem vecGet_fit (v : List Int) (n : Nat) (dflt : Int) (i : Int) (h0 : 0 ≤ i)
    (h1 : i.toNat < v.length) (h2 : i.toNat < n) :
    vecGet (truncList (padList v n dflt) n) i = vecGet v i := by
  have hv : v ≠ [] := by
    intro e
    rw [e] at h1
    simp at h1
  obtain ⟨_, c1, c2, c3⟩ := fitList_spec v n dflt hv
  unfold vecGet
  rw [if_pos h0, if_pos h0, List.getD_eq_getElem?_getD, List.getD_eq_getElem?_getD]
  rcases Nat.lt_trichotomy v.length n with h | h | h
  · obtain ⟨last, _, e⟩ := c1 h
    rw [e, List.getElem?_append_left h1]
  · rw [c3 h]
  · rw [c2 h, List.getElem?_take_of_lt h2]

/-- C15, amended. Set-up performs no validation and never fails: `main` enters
the simulation loop on the state built by `initializeQuantumAndAllotment` and
`setupJobs` for every input. For a level count `N >= 1`, every supplied quantum
and allotment of a level below `N` is taken over as it is, whatever its sign,
and every job of a job list with distinct identifiers is registered with its
arrival and service times as they are, whatever their sign. -/
theorem setup_accepts_every_input (options : Options) :
    (∀ fuel, main fuel options = runLoop fuel (loopStart options)) ∧
    (1 ≤ options.numQueues → options.numQueues < 2 ^ 31 →
      ∀ i : Int, 0 ≤ i → i < options.numQueues →
        (i.toNat < options.quantumList.length →
          vecGet (loopStart options).quantumList i = vecGet options.quantumList i) ∧
        (i.toNat < options.allotmentList.length →
          vecGet (loopStart options).allotmentList i = vecGet options.allotmentList i)) ∧
    ((options.jobList.map Job.id).Nodup → ∀ job, job ∈ options.jobList →
      ∃ j, JobMap.find? (loopStart options).jobs job.id = some j ∧
        j.startTime = job.startTime ∧ j.totalTime = job.totalTime ∧
        j.remainingTime = job.remainingTime) := by
  obtain ⟨_, _, e3, e4, e5, _⟩ := loopStart_eq options
  refine ⟨fun fuel => rfl, ?_, ?_⟩
  · intro h1 h2 i h0 hi
    have hsz := sizeT_eq options.numQueues (by omega) h2
    rw [e4, e5]
    simp only [initializeQuantumAndAllotment, hsz]
    refine ⟨fun hl => ?_, fun hl => ?_⟩
    · have hne : options.quantumList.isEmpty = false := by
        cases hq : options.quantumList with
        | nil => rw [hq] at hl; simp at hl
        | cons a l => rfl
      rw [hne]
      exact vecGet_fit _ _ _ i h0 hl (by omega)
    · have hne : options.allotmentList.isEmpty = false := by
        cases hq : options.allotmentList with
        | nil => rw [hq] at hl; simp at hl
        | cons a l => rfl
      rw [hne]
      exact vecGet_fit _ _ _ i h0 hl (by omega)
  · intro hn job hj
    refine ⟨setupEntry (vecGet (loopStart options).allotmentList 0) job, ?_, rfl, rfl, rfl⟩
    rw [e3]
    exact find?_registryOf_mem _ _ _ hn job hj

set_option maxRecDepth 100000 in
/-- Witness for C15: in the run `-n 2 -Q 1,0 -A 4,-6 -j "1,0,1"` the quantum 0
and the allotment -6 of level 1 are taken over, and job 1 is registered. -/
theorem setup_accepts_every_input_witness :
    ((1 : Int) ≤ badLevelOptions.numQueues ∧ badLevelOptions.numQueues < 2 ^ 31 ∧
      (badLevelOptions.jobList.map Job.id).Nodup) ∧
    vecGet (loopStart badLevelOptions).quantumList 1 = 0 ∧
    vecGet (loopStart badLevelOptions).allotmentList 1 = -6 ∧
    ∃ j, JobMap.find? (loopStart badLevelOptions).jobs 1 = some j ∧ j.totalTime = 1 := by
  have h := setup_accepts_every_input badLevelOptions
  have hl := h.2.1 (by decide) (by decide) 1 (by decide) (by decide)
  obtain ⟨j, hj, _, ht, _⟩ := h.2.2 (by decide) (parseJob 1 0 1) (by decide)
  refine ⟨⟨by decide, by decide, by decide⟩, ?_, ?_, j, hj, ht⟩
  · rw [hl.1 (by decide)]; decide
  · rw [hl.2 (by decide)]; decide

/-! ## Boost timing -/

theorem stateAfter_succ (n : Nat) (s : State) :
    stateAfter (n + 1) s = stateAfter n (loopBody s).1 ∨
    ((loopBody s).2 = false ∧ stateAfter (n + 1) s = (loopBody s).1) := by
  simp only [stateAfter]
  cases hl : loopBody s with
  | mk s1 fl =>
    cases fl with
    | false => exact Or.inr ⟨rfl, rfl⟩
    | true => exact Or.inl rfl

theorem stateAfter_inv {m0 : JobMap} (n : Nat) (s : State) (h : Inv m0 none 1 s) :
    Inv m0 none 1 (stateAfter n s) := by
  induction n generalizing s with
  | zero => exact h
  | succ n ih =>
    rcases loopBody_step h with ⟨_, hinv, _⟩ | ⟨_, hinv, _⟩
    · rcases stateAfter_succ n s with e | ⟨_, e⟩
      · rw [e]
        exact ih _ (hinv.weaken (by omega))
      · rw [e]
        exact hinv.weaken (by omega)
    · rcases stateAfter_succ n s with e | ⟨_, e⟩
      · rw [e]
        exact ih _ hinv
      · rw [e]
        exact hinv

theorem boostMove_writes {P : JobMap → Prop} (hP : KeptByWrites P) (q : Nat) (id : Int) (s : State) (h : P s.jobs) :
    P (boostMove q id s).jobs := by
  unfold boostMove State.onJob
  dsimp only
  exact hP.modify _ _ _ (hP.modify _ _ _ h)

theorem boostDrain_writes {P : JobMap → Prop} (hP : KeptByWrites P) (q : Nat) (n : Nat) (s : State) (h : P s.jobs) :
    P (boostDrain q n s).jobs := by
  induction n generalizing s with
  | zero => exact h
  | succ n ih =>
    simp only [boostDrain]
    split
    · exact h
    · exact ih _ (boostMove_writes hP q _ s h)

theorem boostAllQueues_writes {P : JobMap → Prop} (hP : KeptByWrites P) (s : State) (h : P s.jobs) : P (boostAllQueues s).jobs := by
  have key : ∀ (l : List Nat) (t : State), P t.jobs →
      P (l.foldl (fun st q => boostDrain q (queueAt st.queues q).length st) t).jobs := by
    intro l
    induction l with
    | nil => intro t ht; exact ht
    | cons q l ih =>
      intro t ht
      rw [List.foldl_cons]
      exact ih _ (boostDrain_writes hP q _ t ht)
  unfold boostAllQueues
  exact key _ s h

theorem boostCheck_writes {P : JobMap → Prop} (hP : KeptByWrites P) (s : State) (h : P s.jobs) : P (boostCheck s).jobs := by
  unfold boostCheck
  split
  · exact boostAllQueues_writes hP s h
  · exact h

theorem admitArrivals_writes {P : JobMap → Prop} (hP : KeptByWrites P) (s : State) (h : P s.jobs) : P (admitArrivals s).jobs := by
  unfold admitArrivals
  exact hP.mapJobs _ _ h

theorem prepare_writes {P : JobMap → Prop} (hP : KeptByWrites P) (s : State) (h : P s.jobs) : P (prepare s).jobs :=
  admitArrivals_writes hP _ (boostCheck_writes hP s h)

theorem sliceUnit_writes {P : JobMap → Prop} (hP : KeptByWrites P) (id : Int) (s : State) (h : P s.jobs) : P (sliceUnit id s).jobs := by
  unfold sliceUnit
  refine admitArrivals_writes hP _ (boostCheck_writes hP _ ?_)
  unfold tick State.onJob
  dsimp only
  exact hP.modify _ _ _ h

theorem sliceLoop_writes {P : JobMap → Prop} (hP : KeptByWrites P) (id : Int) (n : Nat) (s : State) (u : Int) (h : P s.jobs) :
    P (sliceLoop id n s u).1.jobs := by
  induction n generalizing s u with
  | zero => exact h
  | succ n ih =>
    simp only [sliceLoop]
    split
    · unfold finishJob State.onJob
      dsimp only
      exact hP.modify _ _ _ (sliceUnit_writes hP id s h)
    · exact ih _ _ (sliceUnit_writes hP id s h)

theorem afterSlice_writes {P : JobMap → Prop} (hP : KeptByWrites P) (id : Int) (u : Int) (s : State) (h : P s.jobs) :
    P (afterSlice id u s).jobs := by
  have h1 : ∀ (t : State) (k : Int) (f : Job → Job), P t.jobs → P (t.onJob k f).jobs :=
    fun t k f ht => hP.modify _ _ _ ht
  have h2 : ∀ t : State, P t.jobs → P (demoteOrRefresh id t).jobs := by
    intro t ht
    unfold demoteOrRefresh
    split
    · exact h1 _ _ _ (h1 _ _ _ ht)
    · exact h1 _ _ _ ht
  unfold afterSlice
  split
  · dsimp only
    split
    · exact h2 _ (h1 _ _ _ h)
    · exact h1 _ _ _ h
  · exact h

theorem runJob_writes {P : JobMap → Prop} (hP : KeptByWrites P) (q : Nat) (id : Int) (s : State) (h : P s.jobs) :
    P (runJob q id s).jobs := by
  unfold runJob runSlice
  refine afterSlice_writes hP _ _ _ (sliceLoop_writes hP _ _ _ _ ?_)
  have h1 : ∀ (t : State) (k : Int) (f : Job → Job), P t.jobs → P (t.onJob k f).jobs :=
    fun t k f ht => hP.modify _ _ _ ht
  unfold startJob
  split
  · exact h1 _ _ _ (h1 _ _ _ h)
  · exact h1 _ _ _ h

theorem loopBody_writes {P : JobMap → Prop} (hP : KeptByWrites P) (s : State) (h : P s.jobs) : P (loopBody s).1.jobs := by
  unfold loopBody
  simp only []
  split
  · split
    · exact prepare_writes hP s h
    · exact prepare_writes hP s h
  · unfold dispatch
    exact runJob_writes hP _ _ _ (prepare_writes hP s h)

theorem stateAfter_writes {P : JobMap → Prop} (hP : KeptByWrites P) (n : Nat) (s : State) (h : P s.jobs) : P (stateAfter n s).jobs := by
  induction n generalizing s with
  | zero => exact h
  | succ n ih =>
    rcases stateAfter_succ n s with e | ⟨_, e⟩
    · rw [e]
      exact ih _ (loopBody_writes hP s h)
    · rw [e]
      exact loopBody_writes hP s h

theorem sortedKeys_insert (m : JobMap) (k : Int) (v : Job) (h : SortedKeys m)
    (hk : k ∉ m.keys) : SortedKeys (JobMap.insert m k v) := by
  induction m with
  | nil => simp [SortedKeys, JobMap.insert, JobMap.keys]
  | cons p rest ih =>
    obtain ⟨a, j⟩ := p
    simp only [SortedKeys, JobMap.keys, List.map_cons, List.pairwise_cons, List.mem_cons,
      not_or] at h hk ih ⊢
    unfold JobMap.insert
    split
    · rename_i hlt
      simp only [List.map_cons, List.pairwise_cons, List.mem_cons]
      refine ⟨?_, h⟩
      rintro b (rfl | hb)
      · exact hlt
      · exact lt_trans hlt (h.1 b hb)
    · rename_i hlt
      simp only [List.map_cons, List.pairwise_cons]
      refine ⟨?_, ih h.2 hk.2⟩
      intro b hb
      have hb2 : b ∈ k :: rest.map Prod.fst := (keys_insert rest k v).subset hb
      rcases List.mem_cons.mp hb2 with rfl | hb3
      · omega
      · exact h.1 b hb3

theorem sortedKeys_writes : KeptByWrites SortedKeys := by
  constructor
  · intro m k f h
    cases hf : JobMap.find? m k with
    | some j =>
      unfold SortedKeys
      rw [keys_modify m k f j hf]
      exact h
    | none =>
      unfold JobMap.modify
      rw [hf]
      simp only [Option.isSome_none, Bool.false_eq_true, if_false]
      exact sortedKeys_insert m k _ h ((find?_none_iff m k).mp hf)
  · intro m g h
    unfold SortedKeys
    rw [keys_mapJobs]
    exact h

theorem sortedKeys_registryOf (a0 : Int) (l : List Job) (m : JobMap) (h : SortedKeys m) :
    SortedKeys (registryOf a0 l m) := by
  induction l generalizing m with
  | nil => exact h
  | cons job l ih =>
    rw [registryOf_cons]
    exact ih _ (sortedKeys_writes.modify m _ _ h)

theorem SortedKeys.nodup {m : JobMap} (h : SortedKeys m) : m.keys.Nodup :=
  List.Pairwise.imp (fun hab => ne_of_lt hab) h

/-- Two registries in key order with the same entry under every key are equal. -/
theorem sortedKeys_ext (m1 m2 : JobMap) (h1 : SortedKeys m1) (h2 : SortedKeys m2)
    (h : ∀ k, JobMap.find? m1 k = JobMap.find? m2 k) : m1 = m2 := by
  induction m1 generalizing m2 with
  | nil =>
    cases m2 with
    | nil => rfl
    | cons p rest =>
      have := h p.1
      simp [JobMap.find?] at this
  | cons p1 r1 ih =>
    cases m2 with
    | nil =>
      have := h p1.1
      simp [JobMap.find?] at this
    | cons p2 r2 =>
      obtain ⟨k1, j1⟩ := p1
      obtain ⟨k2, j2⟩ := p2
      have s1 := h1
      have s2 := h2
      simp only [SortedKeys, JobMap.keys, List.map_cons, List.pairwise_cons] at s1 s2
      have e1 := h k1
      have e2 := h k2
      simp only [JobMap.find?, if_true] at e1 e2
      have hk : k1 = k2 := by
        by_contra hne
        rw [if_neg hne] at e1
        rw [if_neg (fun e => hne e.symm)] at e2
        have m1 : k1 ∈ JobMap.keys r2 := mem_keys_of_find? e1.symm
        have m2 : k2 ∈ JobMap.keys r1 := mem_keys_of_find? e2
        have := s2.1 k1 m1
        have := s1.1 k2 m2
        omega
      subst hk
      simp only [if_true, Option.some.injEq] at e1
      subst e1
      have hr : r1 = r2 := by
        refine ih r2 s1.2 s2.2 ?_
        intro k
        by_cases hkk : k = k1
        · subst hkk
          have n1 : k ∉ JobMap.keys r1 := fun hm => lt_irrefl _ (s1.1 k hm)
          have n2 : k ∉ JobMap.keys r2 := fun hm => lt_irrefl _ (s2.1 k hm)
          rw [(find?_none_iff r1 k).mpr n1, (find?_none_iff r2 k).mpr n2]
        · have := h k
          simp only [JobMap.find?, if_neg hkk] at this
          exact this
      rw [hr]

theorem arrivals_sorted (t : Int) (m : JobMap) (h : SortedKeys m) :
    (arrivals t m).Pairwise (fun a b => a < b) := by
  unfold arrivals
  exact List.Pairwise.sublist (List.Sublist.map Prod.fst (List.filter_sublist m)) h

/-- The registry built by `setupJobs` does not depend on the order in which
jobs with distinct identifiers are listed. -/
theorem registryOf_perm (a0 : Int) (l1 l2 : List Job) (hp : l1.Perm l2)
    (hn : (l1.map Job.id).Nodup) : registryOf a0 l2 [] = registryOf a0 l1 [] := by
  have hn2 : (l2.map Job.id).Nodup := (hp.map Job.id).nodup_iff.mp hn
  have hs : SortedKeys ([] : JobMap) := List.Pairwise.nil
  refine sortedKeys_ext _ _ (sortedKeys_registryOf a0 l2 [] hs)
    (sortedKeys_registryOf a0 l1 [] hs) ?_
  intro k
  by_cases hk : k ∈ l1.map Job.id
  · obtain ⟨job, hj, rfl⟩ := List.mem_map.mp hk
    rw [find?_registryOf_mem a0 l1 [] hn job hj,
      find?_registryOf_mem a0 l2 [] hn2 job (hp.mem_iff.mp hj)]
  · have hk2 : k ∉ l2.map Job.id := fun hm => hk ((hp.map Job.id).mem_iff.mpr hm)
    rw [find?_registryOf_notin a0 l1 [] k hk, find?_registryOf_notin a0 l2 [] k hk2]

theorem loopStart_perm (options : Options) (l2 : List Job) (hp : options.jobList.Perm l2)
    (hn : (options.jobList.map Job.id).Nodup) :
    loopStart { options with jobList := l2 } = loopStart options := by
  simp only [loopStart, enterSimulation, setup, setupJobs, foldl_setupJob,
    initializeQuantumAndAllotment, State.initial, resizeQueues]
  rw [registryOf_perm _ options.jobList l2 hp hn]

theorem loopStart_sorted (options : Options) : SortedKeys (loopStart options).jobs := by
  rw [(loopStart_eq options).2.2.1]
  exact sortedKeys_registryOf _ _ [] List.Pairwise.nil

theorem admitArrivals_entry (s : State) (hn : s.jobs.keys.Nodup) (id : Int)
    (h : id ∈ arrivals s.currentTime s.jobs) :
    ((admitArrivals s).jobs.get id).currPri = 0 ∧
    ((admitArrivals s).jobs.get id).allotLeft = vecGet s.allotmentList 0 := by
  obtain ⟨j, hj, ht⟩ := (arrivals_mem s.currentTime s.jobs hn id).mp h
  unfold JobMap.get
  rw [admitArrivals_find?, hj]
  simp [admitJob, ht]

/-- C18. One admission pass on a registry in key order (the order of
`std::map`, which the set-up establishes and every step of the run keeps)
appends to the tail of the level-0 queue exactly the jobs whose arrival time is
the current clock, in strictly ascending order of job id, leaves the other
queues as they are, and gives each admitted job `currPri = 0` and
`allotLeft = allotmentList[0]`; and the start state of the run, hence the
whole run, is the same for every order in which jobs with distinct identifiers
are listed in the workload. -/
theorem admission_order_ascending (s : State) (hs : SortedKeys s.jobs)
    (hq : 0 < s.queues.length) (options : Options) (l2 : List Job)
    (hp : options.jobList.Perm l2) (hn : (options.jobList.map Job.id).Nodup) :
    (queueAt (admitArrivals s).queues 0
        = queueAt s.queues 0 ++ arrivals s.currentTime s.jobs ∧
      (∀ q, q ≠ 0 → queueAt (admitArrivals s).queues q = queueAt s.queues q) ∧
      (arrivals s.currentTime s.jobs).Pairwise (fun a b => a < b) ∧
      (∀ id, id ∈ arrivals s.currentTime s.jobs ↔
        ∃ j, JobMap.find? s.jobs id = some j ∧ j.startTime = s.currentTime) ∧
      (∀ id, id ∈ arrivals s.currentTime s.jobs →
        ((admitArrivals s).jobs.get id).currPri = 0 ∧
        ((admitArrivals s).jobs.get id).allotLeft = vecGet s.allotmentList 0)) ∧
    (SortedKeys (boostCheck s).jobs ∧ SortedKeys (admitArrivals s).jobs ∧
      (∀ id, SortedKeys (tick id s).jobs ∧ SortedKeys (sliceUnit id s).jobs) ∧
      SortedKeys (loopBody s).1.jobs) ∧
    (SortedKeys (loopStart options).jobs ∧
      ∀ n, SortedKeys (stateAfter n (loopStart options)).jobs) ∧
    (loopStart { options with jobList := l2 } = loopStart options ∧
      ∀ fuel, main fuel { options with jobList := l2 } = main fuel options) := by
  refine ⟨⟨?_, ?_, arrivals_sorted _ _ hs, arrivals_mem _ _ hs.nodup,
    admitArrivals_entry s hs.nodup⟩, ⟨boostCheck_writes sortedKeys_writes s hs,
    admitArrivals_writes sortedKeys_writes s hs, ?_, loopBody_writes sortedKeys_writes s hs⟩,
    ⟨loopStart_sorted options,
      fun n => stateAfter_writes sortedKeys_writes n _ (loopStart_sorted options)⟩,
    loopStart_perm options l2 hp hn, ?_⟩
  · rw [admitArrivals_queue, if_pos ⟨rfl, hq⟩]
  · intro q hq0
    rw [admitArrivals_queue, if_neg (fun hc => hq0 hc.1)]
  · intro id
    refine ⟨?_, sliceUnit_writes sortedKeys_writes id s hs⟩
    unfold tick State.onJob
    dsimp only
    exact sortedKeys_writes.modify _ _ _ hs
  · intro fuel
    rw [main_eq_runLoop, main_eq_runLoop]
    exact congrArg (runLoop fuel) (loopStart_perm options l2 hp hn)

set_option maxRecDepth 100000 in
/-- Witness for C18: in the run `-j "3,0,1;1,0,2;2,0,1"` the admission pass at
clock 0 fills the level-0 queue with the jobs in the order 1, 2, 3, each with
priority 0 and allotment 4, and listing the jobs as 1, 2, 3 gives the same
start state. -/
theorem admission_order_ascending_witness :
    (SortedKeys (loopStart listedOutOfOrder).jobs ∧
      0 < (loopStart listedOutOfOrder).queues.length ∧
      listedOutOfOrder.jobList.Perm [parseJob 1 0 2, parseJob 2 0 1, parseJob 3 0 1] ∧
      (listedOutOfOrder.jobList.map Job.id).Nodup) ∧
    queueAt (admitArrivals (loopStart listedOutOfOrder)).queues 0 = [1, 2, 3] ∧
    (admitArrivals (loopStart listedOutOfOrder)).jobs.map (fun p => (p.2.currPri, p.2.allotLeft))
      = [(0, 4), (0, 4), (0, 4)] ∧
    loopStart { listedOutOfOrder with
        jobList := [parseJob 1 0 2, parseJob 2 0 1, parseJob 3 0 1] }
      = loopStart listedOutOfOrder := by
  have hs : SortedKeys (loopStart listedOutOfOrder).jobs := loopStart_sorted listedOutOfOrder
  have hq : 0 < (loopStart listedOutOfOrder).queues.length := by decide
  have hp : listedOutOfOrder.jobList.Perm [parseJob 1 0 2, parseJob 2 0 1, parseJob 3 0 1] := by
    decide
  have hn : (listedOutOfOrder.jobList.map Job.id).Nodup := by decide
  have h := admission_order_ascending (loopStart listedOutOfOrder) hs hq listedOutOfOrder
    [parseJob 1 0 2, parseJob 2 0 1, parseJob 3 0 1] hp hn
  refine ⟨⟨hs, hq, hp, hn⟩, ?_, by decide, h.2.2.2.1⟩
  rw [h.1.1]
  decide

/-! ## Accounting of executed units and idle ticks -/

theorem mem_flatten_of_queueAt (qs : List (List Int)) (q : Nat) (id : Int)
    (h : id ∈ queueAt qs q) : id ∈ qs.flatten := by
  unfold queueAt at h
  by_cases hq : q < qs.length
  · rw [List.getD_eq_getElem _ _ hq] at h
    exact List.mem_flatten.mpr ⟨qs[q], List.getElem_mem hq, h⟩
  · rw [List.getD_eq_default _ _ (by omega)] at h
    cases h

/-- One iteration of the simulation loop from a state satisfying the invariant:
the clock gains the units executed plus the idle tick, and the work left loses
the units executed. -/
theorem loopBody_account {m0 : JobMap} {s : State} (h : Inv m0 none 1 s) :
    (loopBody s).1.currentTime = s.currentTime + iterUnits s + iterIdle s ∧
    remainingSum m0 (loopBody s).1 = remainingSum m0 s - iterUnits s ∧
    0 ≤ iterUnits s ∧ 0 ≤ iterIdle s ∧
    ((loopBody s).2 = false → iterIdle s = 0) := by
  have hp := h.prepare
  have hc := prepare_currentTime s
  have hr : remainingSum m0 (prepare s) = remainingSum m0 s :=
    sum_map_same _ _ _ (fun k => prepare_remaining s k)
  unfold loopBody iterUnits iterIdle
  simp only []
  rcases FindQueue_cases (prepare s) with ⟨hf, _⟩ | ⟨q, hf, hqhi, hne, _⟩
  · rw [hf]
    simp only [if_true]
    cases hd : allDone (prepare s) with
    | true =>
      simp only [if_true]
      exact ⟨by omega, by omega, le_refl _, le_refl _, fun _ => trivial⟩
    | false =>
      simp only [Bool.false_eq_true, if_false]
      obtain ⟨_, _, hw⟩ := idle_step hp hf hd
      refine ⟨by show wrapInt ((prepare s).currentTime + 1) = _; rw [hw]; omega, ?_, le_refl _,
        by omega, fun hc => absurd hc (by simp)⟩
      show remainingSum m0 (prepare s) = _
      omega
  · have hq1 : ¬ ((q : Int) = -1) := by omega
    rw [hf, if_neg hq1, if_neg hq1, Int.toNat_natCast]
    obtain ⟨id, rest, hq⟩ : ∃ id rest, queueAt (prepare s).queues q = id :: rest := by
      cases hl : queueAt (prepare s).queues q with
      | nil => exact absurd hl hne
      | cons a l => exact ⟨a, l, rfl⟩
    have hfront : frontJob q (prepare s) = id := by
      unfold frontJob
      rw [hq]
      rfl
    rw [hfront]
    have hmem : id ∈ (prepare s).queues.flatten :=
      mem_flatten_of_queueAt _ q id (by rw [hq]; exact List.mem_cons_self _ _)
    obtain ⟨j, hj, _⟩ := hp.queued id hmem
    have hget : (prepare s).jobs.get id = j := get_of_find? hj
    obtain ⟨_, _, o3, _, o5, _⟩ := (hp.ok id j hj).1
    have hk : id ∈ m0.keys := by
      rw [← hp.keys]
      exact mem_keys_of_find? hj
    obtain ⟨b1, _, _, _, _, b6⟩ := hp.fits
    obtain ⟨e1, e2, e3, e4⟩ := dispatch_exact (prepare s) q id rest hq
      (by have := hp.cfg.quantum q (by omega) hqhi; omega)
      (by rw [hget]; exact o3) (by rw [hget]; omega) (by omega)
      (by have := (b6 id hk).2; omega)
    have hu : 0 ≤ min (vecGet (prepare s).quantumList q)
        (min ((prepare s).jobs.get id).remainingTime ((prepare s).jobs.get id).allotLeft) := by
      have := hp.cfg.quantum q (by omega) hqhi
      rw [hget]
      omega
    refine ⟨by rw [e1, e2]; omega, ?_, by rw [e1]; exact hu, le_refl _,
      fun hc => absurd hc (by simp)⟩
    rw [e1, ← hr]
    exact sum_map_sub m0.keys hp.nodup _ _ id _ hk e3 e4

/-- An idle tick is taken only when no job that has arrived has work left and
some job is still to arrive. -/
theorem idle_condition {m0 : JobMap} {s : State} (h : Inv m0 none 1 s)
    (hi : iterIdle s = 1) :
    FindQueue (prepare s) = -1 ∧ allDone (prepare s) = false ∧
    loopBody s = ({ prepare s with currentTime := (prepare s).currentTime + 1 }, true) ∧
    iterUnits s = 0 ∧
    (∀ p, p ∈ (prepare s).jobs → p.2.startTime ≤ (prepare s).currentTime →
      p.2.remainingTime = 0) ∧
    (∃ p, p ∈ (prepare s).jobs ∧ (prepare s).currentTime < p.2.startTime ∧
      0 < p.2.remainingTime ∧ p.2.startTime = (m0.get p.1).startTime ∧ p.1 ∈ m0.keys) := by
  have hp := h.prepare
  have hnd : (prepare s).jobs.keys.Nodup := by rw [hp.keys]; exact hp.nodup
  unfold iterIdle at hi
  simp only [] at hi
  by_cases hf : FindQueue (prepare s) = -1
  · rw [if_pos hf] at hi
    cases hd : allDone (prepare s) with
    | true => rw [hd] at hi; simp at hi
    | false =>
      have hempty := flatten_empty_of_FindQueue hp.cfg hf
      have hlate : ∀ p, p ∈ (prepare s).jobs → 0 < p.2.remainingTime →
          (prepare s).currentTime < p.2.startTime := by
        intro p hpm hpos
        by_contra hc
        rcases hp.alive p.1 p.2 (find?_of_mem _ hnd p hpm) hpos (by omega) with hm | hr
        · exact hempty _ hm
        · cases hr
      obtain ⟨_, _, hw⟩ := idle_step hp hf hd
      refine ⟨hf, rfl, ?_, ?_, ?_, ?_⟩
      · unfold loopBody
        simp only []
        rw [if_pos hf, hd]
        simp [hw]
      · unfold iterUnits
        simp only []
        rw [if_pos hf]
      · intro p hpm harr
        have ho := (hp.ok p.1 p.2 (find?_of_mem _ hnd p hpm)).1
        by_contra hne
        have hpos : 0 < p.2.remainingTime := by
          have := ho.2.2.1
          omega
        have := hlate p hpm hpos
        omega
      · obtain ⟨p, hpm, hpos⟩ := exists_alive_of_not_allDone hd
        have hfind := find?_of_mem _ hnd p hpm
        refine ⟨p, hpm, hlate p hpm hpos, hpos, (hp.const p.1 p.2 hfind).1, ?_⟩
        rw [← hp.keys]
        exact mem_keys_of_find? hfind
  · rw [if_neg hf] at hi
    omega

theorem iterIdle_cases (s : State) : iterIdle s = 0 ∨ iterIdle s = 1 := by
  unfold iterIdle
  simp only []
  split
  · split
    · exact Or.inl rfl
    · exact Or.inr rfl
  · exact Or.inl rfl

theorem runLoop_succ (fuel : Nat) (s : State) :
    runLoop (fuel + 1) s
      = if (loopBody s).2 = true then runLoop fuel (loopBody s).1 else some (loopBody s).1 := by
  simp only [runLoop]
  cases loopBody s with
  | mk s1 fl => cases fl <;> rfl

theorem runUnits_succ (fuel : Nat) (s : State) :
    runUnits (fuel + 1) s
      = if (loopBody s).2 = true then iterUnits s + runUnits fuel (loopBody s).1
        else iterUnits s := by
  simp only [runUnits]
  cases loopBody s with
  | mk s1 fl => cases fl <;> rfl

theorem runIdle_succ (fuel : Nat) (s : State) :
    runIdle (fuel + 1) s
      = if (loopBody s).2 = true then iterIdle s + runIdle fuel (loopBody s).1
        else iterIdle s := by
  simp only [runIdle]
  cases loopBody s with
  | mk s1 fl => cases fl <;> rfl

/-- The accounting of a whole run of the loop from a state satisfying the
invariant: the final clock is the starting clock plus the units executed plus
the idle ticks, the work left has lost the units executed, and the idle ticks
number at most the time left until the latest arrival. -/
theorem runLoop_account (m0 : JobMap) (fuel : Nat) :
    ∀ (s final : State), Inv m0 none 1 s → runLoop fuel s = some final →
      final.currentTime = s.currentTime + runUnits fuel s + runIdle fuel s ∧
      remainingSum m0 final = remainingSum m0 s - runUnits fuel s ∧
      0 ≤ runUnits fuel s ∧ 0 ≤ runIdle fuel s ∧
      ∀ M : Int, (∀ k, k ∈ m0.keys → (m0.get k).startTime ≤ M) →
        runIdle fuel s ≤ max 0 (M - s.currentTime) := by
  induction fuel with
  | zero => intro s final _ hr; simp [runLoop] at hr
  | succ fuel ih =>
    intro s final h hr
    obtain ⟨a1, a2, a3, a4, a5⟩ := loopBody_account h
    have hcases := iterIdle_cases s
    have hidle : ∀ M : Int, (∀ k, k ∈ m0.keys → (m0.get k).startTime ≤ M) →
        iterIdle s = 1 → s.currentTime < M := by
      intro M hM hi
      obtain ⟨_, _, _, _, _, p, _, hlt, _, he, hk⟩ := idle_condition h hi
      have := hM p.1 hk
      rw [prepare_currentTime] at hlt
      omega
    rw [runLoop_succ] at hr
    rw [runUnits_succ, runIdle_succ]
    rcases loopBody_step h with ⟨hfl, _⟩ | ⟨hfl, hinv, _⟩
    · rw [hfl] at hr ⊢
      simp only [Bool.false_eq_true, if_false, Option.some.injEq] at hr ⊢
      subst hr
      have hz := a5 hfl
      refine ⟨a1, a2, a3, a4, ?_⟩
      intro M _
      rw [hz]
      exact le_max_left _ _
    · rw [hfl] at hr ⊢
      simp only [if_true] at hr ⊢
      obtain ⟨b1, b2, b3, b4, b5⟩ := ih (loopBody s).1 final hinv hr
      refine ⟨by omega, by omega, by omega, by omega, ?_⟩
      intro M hM
      have hb := b5 M hM
      have hi := hidle M hM
      rcases hcases with h0 | h1
      · rw [h0]
        rcases le_max_iff.mp hb with hb0 | hb1
        · have := le_max_left 0 (M - s.currentTime)
          omega
        · have := le_max_right 0 (M - s.currentTime)
          omega
      · have hlt := hi h1
        rw [h1]
        have := le_max_right 0 (M - s.currentTime)
        rcases le_max_iff.mp hb with hb0 | hb1
        · omega
        · omega

theorem remainingSum_final {m0 : JobMap} {final : State} (hi : Inv m0 none 0 final)
    (hd : allDone final = true) : remainingSum m0 final = 0 := by
  unfold remainingSum
  have : m0.keys.map (fun k => (final.jobs.get k).remainingTime) = m0.keys.map (fun _ => 0) := by
    refine List.map_congr_left ?_
    intro k hk
    have hk2 : k ∈ final.jobs.keys := by rw [hi.keys]; exact hk
    have hfind := find?_get_of_mem_keys final.jobs k hk2
    exact (final_entry hi hd (k, final.jobs.get k) (find?_some_mem _ _ _ hfind)).1
  rw [this]
  simp

/-- The slice loop counts in `timeUsed` the units it executes: each one takes 1
from the remaining time of the running job, and of no other job, and advances
the clock by 1 (while the clock stays in the range of `int`). -/
theorem sliceLoop_count (id : Int) (n : Nat) (s : State) (u : Int) :
    (-2 ^ 31 ≤ s.currentTime → s.currentTime + n < 2 ^ 31 →
      (sliceLoop id n s u).1.currentTime - s.currentTime = (sliceLoop id n s u).2 - u) ∧
    ((sliceLoop id n s u).1.jobs.get id).remainingTime
      = (s.jobs.get id).remainingTime - ((sliceLoop id n s u).2 - u) ∧
    (∀ k, k ≠ id →
      ((sliceLoop id n s u).1.jobs.get k).remainingTime = (s.jobs.get k).remainingTime) ∧
    0 ≤ (sliceLoop id n s u).2 - u ∧ (sliceLoop id n s u).2 - u ≤ n := by
  induction n generalizing s u with
  | zero => simp [sliceLoop]
  | succ n ih =>
    have hr := sliceUnit_remaining id s
    simp only [sliceLoop]
    split
    · have hf : ∀ k, ((finishJob id (sliceUnit id s)).jobs.get k).remainingTime
          = ((sliceUnit id s).jobs.get k).remainingTime := by
        intro k
        unfold finishJob
        rw [get_onJob]
        split
        · rename_i hk
          rw [hk]
        · rfl
      refine ⟨?_, ?_, ?_, ?_, ?_⟩
      · intro h1 h2
        have hc := sliceUnit_currentTime id s h1 (by push_cast at h2; omega)
        show (sliceUnit id s).currentTime - s.currentTime = u + 1 - u
        omega
      · show ((finishJob id (sliceUnit id s)).jobs.get id).remainingTime = _
        rw [hf, hr, if_pos rfl]
        show _ = _ - (u + 1 - u)
        omega
      · intro k hk
        show ((finishJob id (sliceUnit id s)).jobs.get k).remainingTime = _
        rw [hf, hr, if_neg hk]
      · show 0 ≤ u + 1 - u
        omega
      · show u + 1 - u ≤ ((n + 1 : Nat) : Int)
        push_cast
        omega
    · obtain ⟨i1, i2, i3, i4, i5⟩ := ih (sliceUnit id s) (u + 1)
      refine ⟨?_, ?_, ?_, by omega, by push_cast; omega⟩
      · intro h1 h2
        push_cast at h2
        have hc := sliceUnit_currentTime id s h1 (by omega)
        have := i1 (by rw [hc]; omega) (by rw [hc]; omega)
        omega
      · rw [i2, hr, if_pos rfl]
        omega
      · intro k hk
        rw [i3 k hk, hr, if_neg hk]

/-- The accounting of a terminated run of `main` on a validated configuration
and workload. -/
theorem main_account (options : Options) (hv : Validated options) (fuel : Nat) (final : State)
    (h : main fuel options = some final) :
    runUnits fuel (loopStart options) = totalWork options.jobList ∧
    final.currentTime = runIdle fuel (loopStart options) + totalWork options.jobList ∧
    0 ≤ runIdle fuel (loopStart options) ∧
    runIdle fuel (loopStart options) ≤ maxArrival options.jobList := by
  obtain ⟨hfin, hdone⟩ := main_final options hv fuel final h
  rw [main_eq_runLoop] at h
  obtain ⟨a1, a2, _, a4, a5⟩ := runLoop_account (loopStart options).jobs fuel _ final
    (loopStart_inv options hv) h
  obtain ⟨_, _, e3, _, _, e6, _, _⟩ := loopStart_eq options
  have hstart : remainingSum (loopStart options).jobs (loopStart options)
      = totalWork options.jobList := by
    unfold remainingSum totalWork
    rw [e3, sum_registryOf _ _ hv.ids (fun j => j.remainingTime) (fun _ => rfl)]
    refine congrArg List.sum (List.map_congr_left ?_)
    intro job hj
    exact (hv.jobs job hj).2.2.1
  rw [remainingSum_final hfin hdone, hstart] at a2
  obtain ⟨m1, m2⟩ := le_maxArrival options.jobList
  have hM : ∀ k, k ∈ (loopStart options).jobs.keys →
      ((loopStart options).jobs.get k).startTime ≤ maxArrival options.jobList := by
    intro k hk
    have hfind := find?_get_of_mem_keys _ k hk
    rw [e3] at hfind
    rcases find?_registryOf_inv _ _ _ _ _ hfind with hc | ⟨job, hj, _, he⟩
    · simp [JobMap.find?] at hc
    · rw [e3, he]
      exact m2 job hj
  have hb := a5 _ hM
  rw [e6] at hb a1
  rw [max_eq_right (by omega)] at hb
  exact ⟨by omega, by omega, a4, by omega⟩

theorem maxArrival_le (l : List Job) (M : Int) (h0 : 0 ≤ M)
    (h : ∀ job, job ∈ l → job.startTime ≤ M) : maxArrival l ≤ M := by
  have key : ∀ (xs : List Int) (init : Int), init ≤ M → (∀ x, x ∈ xs → x ≤ M) →
      xs.foldl max init ≤ M := by
    intro xs
    induction xs with
    | nil => intro init hi _; exact hi
    | cons a xs ih =>
      intro init hi hx
      rw [List.foldl_cons]
      exact ih _ (max_le hi (hx a (List.mem_cons_self _ _)))
        (fun x hm => hx x (List.mem_cons_of_mem _ hm))
  refine key _ 0 h0 ?_
  intro x hx
  obtain ⟨job, hj, rfl⟩ := List.mem_map.mp hx
  exact h job hj

theorem validated_idleGapOptions : Validated idleGapOptions := by
  refine ⟨by decide, by decide, ?_, ?_, by decide, by decide, ?_, by decide⟩
  · intro x hx
    simp only [idleGapOptions, Options.default, List.mem_cons, List.mem_singleton,
      List.not_mem_nil, or_false] at hx
    omega
  · intro x hx
    simp only [idleGapOptions, Options.default, List.mem_cons, List.mem_singleton,
      List.not_mem_nil, or_false] at hx
    omega
  · intro j hj
    simp only [idleGapOptions, Options.default, List.mem_cons, List.mem_singleton,
      List.not_mem_nil, or_false] at hj
    rcases hj with rfl | rfl <;> decide

/-- C17. For every validated configuration and workload (which includes that
the latest arrival, the total service time and the boost interval together stay
below `2^31`, so that the `int` clock does not overflow) the simulation
terminates, and in every terminated run the units of work executed (the sum of
`timeUsed` over the dispatches) number the sum of the jobs' `totalTime`, and the
final clock is the number of idle ticks plus that sum; in every iteration the
clock gains the units executed plus the idle tick and the work left loses the
units executed; and each unit executed in the slice loop takes exactly 1 from
the remaining time of the running job and nothing from any other job, with
`timeUsed` counting these units, which is also what the clock gains while it
stays in the range of `int`. -/
theorem work_accounting (options : Options) (hv : Validated options) :
    (∃ fuel final, main fuel options = some final) ∧
    (∀ fuel final, main fuel options = some final →
      runUnits fuel (loopStart options) = totalWork options.jobList ∧
      final.currentTime = runIdle fuel (loopStart options) + totalWork options.jobList) ∧
    (∀ n,
      (loopBody (stateAfter n (loopStart options))).1.currentTime
        = (stateAfter n (loopStart options)).currentTime
          + iterUnits (stateAfter n (loopStart options))
          + iterIdle (stateAfter n (loopStart options)) ∧
      remainingSum (loopStart options).jobs (loopBody (stateAfter n (loopStart options))).1
        = remainingSum (loopStart options).jobs (stateAfter n (loopStart options))
          - iterUnits (stateAfter n (loopStart options))) ∧
    (∀ (id : Int) (s : State) (k : Int),
      ((sliceUnit id s).jobs.get k).remainingTime
        = if k = id then (s.jobs.get k).remainingTime - 1 else (s.jobs.get k).remainingTime) ∧
    (∀ (id : Int) (n : Nat) (s : State) (u : Int),
      (-2 ^ 31 ≤ s.currentTime → s.currentTime + n < 2 ^ 31 →
        (sliceLoop id n s u).1.currentTime - s.currentTime = (sliceLoop id n s u).2 - u) ∧
      ((sliceLoop id n s u).1.jobs.get id).remainingTime
        = (s.jobs.get id).remainingTime - ((sliceLoop id n s u).2 - u) ∧
      ∀ k, k ≠ id →
        ((sliceLoop id n s u).1.jobs.get k).remainingTime = (s.jobs.get k).remainingTime) := by
  obtain ⟨fuel, final, hm, _⟩ := main_ends options hv
  refine ⟨⟨fuel, final, hm⟩, ?_, ?_, sliceUnit_remaining, ?_⟩
  · intro fuel2 final2 h2
    obtain ⟨a1, a2, _⟩ := main_account options hv fuel2 final2 h2
    exact ⟨a1, a2⟩
  · intro n
    obtain ⟨a1, a2, _⟩ := loopBody_account (stateAfter_inv n _ (loopStart_inv options hv))
    exact ⟨a1, a2⟩
  · intro id n s u
    obtain ⟨a1, a2, a3, _⟩ := sliceLoop_count id n s u
    exact ⟨a1, a2, a3⟩

set_option maxRecDepth 100000 in
/-- Witness for C17: the default run executes 20 units of work (two jobs of 10
units), takes no idle tick, and ends at clock 20. -/
theorem work_accounting_witness :
    Validated Options.default ∧
    (main 40 Options.default).map (fun s => s.currentTime) = some 20 ∧
    totalWork Options.default.jobList = 20 ∧
    ∀ final, main 40 Options.default = some final →
      runUnits 40 (loopStart Options.default) = totalWork Options.default.jobList ∧
      final.currentTime
        = runIdle 40 (loopStart Options.default) + totalWork Options.default.jobList :=
  ⟨validated_default, by decide, by decide,
    fun final h => (work_accounting Options.default validated_default).2.1 40 final h⟩

/-- C20. For every validated configuration and workload (which includes that
the latest arrival, the total service time and the boost interval together stay
below `2^31`, so that the `int` clock does not overflow): an iteration of the
simulation loop takes an idle tick only when no queue holds a job, every job
that has arrived has `remainingTime = 0`, and some job arrives after the
current clock (the iteration then executes no unit and only advances the clock
by 1); the simulation terminates, its final clock is at most the latest arrival
time plus the sum of the jobs' `totalTime`, and is that sum when every job
arrives at time 0. -/
theorem idle_only_when_nothing_to_run (options : Options) (hv : Validated options) :
    (∀ n, iterIdle (stateAfter n (loopStart options)) = 1 →
      FindQueue (prepare (stateAfter n (loopStart options))) = -1 ∧
      (∀ p, p ∈ (prepare (stateAfter n (loopStart options))).jobs →
        p.2.startTime ≤ (prepare (stateAfter n (loopStart options))).currentTime →
        p.2.remainingTime = 0) ∧
      (∃ p, p ∈ (prepare (stateAfter n (loopStart options))).jobs ∧
        (prepare (stateAfter n (loopStart options))).currentTime < p.2.startTime) ∧
      iterUnits (stateAfter n (loopStart options)) = 0 ∧
      loopBody (stateAfter n (loopStart options))
        = ({ prepare (stateAfter n (loopStart options)) with
              currentTime := (prepare (stateAfter n (loopStart options))).currentTime + 1 },
            true)) ∧
    (∀ n, iterIdle (stateAfter n (loopStart options)) = 0 ∨
      iterIdle (stateAfter n (loopStart options)) = 1) ∧
    (∃ fuel final, main fuel options = some final) ∧
    (∀ fuel final, main fuel options = some final →
      final.currentTime = runIdle fuel (loopStart options) + totalWork options.jobList ∧
      final.currentTime ≤ maxArrival options.jobList + totalWork options.jobList ∧
      ((∀ job, job ∈ options.jobList → job.startTime = 0) →
        final.currentTime = totalWork options.jobList)) := by
  obtain ⟨fuel, final, hm, _⟩ := main_ends options hv
  refine ⟨?_, fun n => iterIdle_cases _, ⟨fuel, final, hm⟩, ?_⟩
  · intro n hi
    obtain ⟨c1, _, c3, c4, c5, p, hp, hlt, _⟩ :=
      idle_condition (stateAfter_inv n _ (loopStart_inv options hv)) hi
    exact ⟨c1, c5, ⟨p, hp, hlt⟩, c4, c3⟩
  · intro fuel2 final2 h2
    obtain ⟨_, a2, a3, a4⟩ := main_account options hv fuel2 final2 h2
    refine ⟨a2, by omega, ?_⟩
    intro hz
    have := maxArrival_le options.jobList 0 (le_refl _) (fun job hj => le_of_eq (hz job hj))
    omega

set_option maxRecDepth 100000 in
/-- Witness for C20: in the run `-j "1,0,1;2,3,1"` the iterations that start at
clocks 1 and 2 take an idle tick (job 1 is done, job 2 arrives at 3), and the
run ends at clock 4, within the bound `3 + 2`. -/
theorem idle_only_when_nothing_to_run_witness :
    Validated idleGapOptions ∧
    (List.range 5).map (fun n => ((stateAfter n (loopStart idleGapOptions)).currentTime,
        iterIdle (stateAfter n (loopStart idleGapOptions))))
      = [(0, 0), (1, 1), (2, 1), (3, 0), (4, 0)] ∧
    (main 6 idleGapOptions).map (fun s => s.currentTime) = some 4 ∧
    maxArrival idleGapOptions.jobList + totalWork idleGapOptions.jobList = 5 ∧
    ∀ final, main 6 idleGapOptions = some final →
      final.currentTime
        ≤ maxArrival idleGapOptions.jobList + totalWork idleGapOptions.jobList :=
  ⟨validated_idleGapOptions, by decide, by decide, by decide,
    fun final h =>
      ((idle_only_when_nothing_to_run idleGapOptions validated_idleGapOptions).2.2.2
        6 final h).2.1⟩

/-! ## The round-robin scenario -/

theorem rr_loopStart (a b : Int) :
    loopStart (rrOptions a b)
      = rrState a b 0 b [] { parseJob 1 0 3 with allotLeft := a }
          { parseJob 2 0 2 with allotLeft := a } := by
  simp [loopStart, enterSimulation, setup, setupJobs, setupJob, initializeQuantumAndAllotment,
    State.initial, resizeQueues, rrOptions, rrState, State.onJob, JobMap.modify, JobMap.find?,
    JobMap.insert, JobMap.update, parseJob, padList, truncList, sizeT, vecGet, Job.zero]

theorem rr_boostCheck (a b t nb : Int) (q : List Int) (j1 j2 : Job) :
    boostCheck (rrState a b t nb q j1 j2)
      = rrState a b t (if t = nb then wrapInt (nb + b) else nb) q j1 j2 := by
  unfold boostCheck
  by_cases h : t = nb
  · rw [if_pos (show (rrState a b t nb q j1 j2).currentTime
      = (rrState a b t nb q j1 j2).nextBoost from h), if_pos h]
    simp [boostAllQueues, rrState]
  · rw [if_neg (show ¬ (rrState a b t nb q j1 j2).currentTime
      = (rrState a b t nb q j1 j2).nextBoost from h), if_neg h]

theorem rr_admit_none (a b t nb : Int) (q : List Int) (j1 j2 : Job)
    (h1 : ¬ j1.startTime = t) (h2 : ¬ j2.startTime = t) :
    admitArrivals (rrState a b t nb q j1 j2) = rrState a b t nb q j1 j2 := by
  simp [admitArrivals, arrivals, rrState, admitJob, h1, h2]

theorem rr_onJob1 (a b t nb : Int) (q : List Int) (j1 j2 : Job) (f : Job → Job) :
    (rrState a b t nb q j1 j2).onJob 1 f = rrState a b t nb q (f j1) j2 := by
  simp [State.onJob, rrState, JobMap.modify, JobMap.find?, JobMap.update]

theorem rr_onJob2 (a b t nb : Int) (q : List Int) (j1 j2 : Job) (f : Job → Job) :
    (rrState a b t nb q j1 j2).onJob 2 f = rrState a b t nb q j1 (f j2) := by
  simp [State.onJob, rrState, JobMap.modify, JobMap.find?, JobMap.update]

theorem rr_get1 (a b t nb : Int) (q : List Int) (j1 j2 : Job) :
    (rrState a b t nb q j1 j2).jobs.get 1 = j1 := by
  simp [rrState, JobMap.get, JobMap.find?]

theorem rr_get2 (a b t nb : Int) (q : List Int) (j1 j2 : Job) :
    (rrState a b t nb q j1 j2).jobs.get 2 = j2 := by
  simp [rrState, JobMap.get, JobMap.find?]

theorem rr_FindQueue (a b t nb : Int) (id : Int) (rest : List Int) (j1 j2 : Job) :
    FindQueue (rrState a b t nb (id :: rest) j1 j2) = 0 ∧
    frontJob 0 (rrState a b t nb (id :: rest) j1 j2) = id ∧
    popAt (rrState a b t nb (id :: rest) j1 j2).queues 0 = [rest] := by
  refine ⟨?_, ?_, ?_⟩
  · simp [FindQueue, rrState, queueAt, List.range_succ]
  · simp [frontJob, rrState, queueAt]
  · simp [popAt, rrState]

theorem rr_FindQueue_nil (a b t nb : Int) (j1 j2 : Job) :
    FindQueue (rrState a b t nb [] j1 j2) = -1 := by
  simp [FindQueue, rrState, queueAt, List.range_succ]

theorem rr_tick1 (a b t nb : Int) (q : List Int) (j1 j2 : Job) (h0 : 0 ≤ t)
    (hfit : t + 1 < 2 ^ 31) :
    tick 1 (rrState a b t nb q j1 j2)
      = rrState a b (t + 1) nb q { j1 with remainingTime := j1.remainingTime - 1 } j2 := by
  have hw : wrapInt (t + 1) = t + 1 := wrapInt_eq _ (by omega) hfit
  unfold tick
  show (rrState a b (wrapInt (t + 1)) nb q j1 j2).onJob 1 _ = _
  rw [hw]
  exact rr_onJob1 a b (t + 1) nb q j1 j2 _

theorem rr_tick2 (a b t nb : Int) (q : List Int) (j1 j2 : Job) (h0 : 0 ≤ t)
    (hfit : t + 1 < 2 ^ 31) :
    tick 2 (rrState a b t nb q j1 j2)
      = rrState a b (t + 1) nb q j1 { j2 with remainingTime := j2.remainingTime - 1 } := by
  have hw : wrapInt (t + 1) = t + 1 := wrapInt_eq _ (by omega) hfit
  unfold tick
  show (rrState a b (wrapInt (t + 1)) nb q j1 j2).onJob 2 _ = _
  rw [hw]
  exact rr_onJob2 a b (t + 1) nb q j1 j2 _

theorem rr_start1 (a b t nb : Int) (q : List Int) (j1 j2 : Job) :
    startJob 1 (rrState a b t nb q j1 j2)
      = rrState a b t nb q
          (if j1.started = false then
            { j1 with firstRun := t, responseTime := t - j1.startTime, started := true }
           else j1) j2 := by
  unfold startJob
  rw [rr_get1]
  split
  · rw [rr_onJob1]
    rfl
  · rfl

theorem rr_start2 (a b t nb : Int) (q : List Int) (j1 j2 : Job) :
    startJob 2 (rrState a b t nb q j1 j2)
      = rrState a b t nb q j1
          (if j2.started = false then
            { j2 with firstRun := t, responseTime := t - j2.startTime, started := true }
           else j2) := by
  unfold startJob
  rw [rr_get2]
  split
  · rw [rr_onJob2]
    rfl
  · rfl

theorem rr_sliceUnit1 (a b t nb : Int) (q : List Int) (j1 j2 : Job)
    (h1 : ¬ j1.startTime = t + 1) (h2 : ¬ j2.startTime = t + 1) (h0 : 0 ≤ t)
    (hfit : t + 1 < 2 ^ 31) :
    sliceUnit 1 (rrState a b t nb q j1 j2)
      = rrState a b (t + 1) (if t + 1 = nb then wrapInt (nb + b) else nb) q
          { j1 with remainingTime := j1.remainingTime - 1 } j2 := by
  unfold sliceUnit
  rw [rr_tick1 a b t nb q j1 j2 h0 hfit, rr_boostCheck]
  exact rr_admit_none _ _ _ _ _ _ _ h1 h2

theorem rr_sliceUnit2 (a b t nb : Int) (q : List Int) (j1 j2 : Job)
    (h1 : ¬ j1.startTime = t + 1) (h2 : ¬ j2.startTime = t + 1) (h0 : 0 ≤ t)
    (hfit : t + 1 < 2 ^ 31) :
    sliceUnit 2 (rrState a b t nb q j1 j2)
      = rrState a b (t + 1) (if t + 1 = nb then wrapInt (nb + b) else nb) q j1
          { j2 with remainingTime := j2.remainingTime - 1 } := by
  unfold sliceUnit
  rw [rr_tick2 a b t nb q j1 j2 h0 hfit, rr_boostCheck]
  exact rr_admit_none _ _ _ _ _ _ _ h1 h2

/-- A dispatch of job 1 in the round-robin scenario: one unit of work, then the
job is complete or goes back to the tail of the queue. -/
theorem rr_dispatch1 (a b t nb : Int) (rest : List Int) (j1 j2 : Job) (ht : 0 ≤ t)
    (hnb : t + 1 < 2 ^ 31) (h1s : j1.startTime = 0) (h2s : j2.startTime = 0)
    (hr : 1 ≤ j1.remainingTime) (hal : 1 ≤ j1.allotLeft) (ha : 1 ≤ a) (hp : j1.currPri = 0) :
    ∃ nb2 j, dispatch 0 (rrState a b t nb (1 :: rest) j1 j2)
        = rrState a b (t + 1) nb2 (if j1.remainingTime = 1 then rest else rest ++ [1]) j j2 ∧
      (nb2 ≠ t + 1 ∨ wrapInt (t + 1 + b) = t + 1) ∧ j.startTime = 0 ∧ j.remainingTime = j1.remainingTime - 1 ∧
      1 ≤ j.allotLeft ∧ j.currPri = 0 ∧
      (j1.remainingTime = 1 → j.endTime = t + 1) ∧
      (¬ j1.remainingTime = 1 → j.endTime = j1.endTime) ∧
      j.started = true ∧
      j.firstRun = (if j1.started = false then t else j1.firstRun) ∧
      j.responseTime = (if j1.started = false then t else j1.responseTime) ∧
      (runSlice 0 1 (rrState a b t nb rest j1 j2)).2 = 1 := by
  have hpop : ({ rrState a b t nb (1 :: rest) j1 j2 with
      queues := popAt (rrState a b t nb (1 :: rest) j1 j2).queues 0 } : State)
      = rrState a b t nb rest j1 j2 := by
    simp [rrState, popAt]
  unfold dispatch
  rw [(rr_FindQueue a b t nb 1 rest j1 j2).2.1, hpop]
  unfold runJob runSlice
  simp only []
  rw [rr_onJob1, rr_start1]
  generalize hjs : (if j1.started = false then
      ({ j1 with firstRun := t, responseTime := t - j1.startTime, started := true } : Job)
      else j1) = js
  have f1 : js.startTime = 0 := by rw [← hjs]; split <;> exact h1s
  have f2 : js.remainingTime = j1.remainingTime := by rw [← hjs]; split <;> rfl
  have f3 : js.allotLeft = j1.allotLeft := by rw [← hjs]; split <;> rfl
  have f4 : js.currPri = 0 := by rw [← hjs]; split <;> exact hp
  have f5 : js.endTime = j1.endTime := by rw [← hjs]; split <;> rfl
  have f6 : js.started = true := by
    rw [← hjs]
    split
    · rfl
    · rename_i hc
      simpa using hc
  have f7 : js.firstRun = (if j1.started = false then t else j1.firstRun) := by
    rw [← hjs]; split <;> rfl
  have f8 : js.responseTime = (if j1.started = false then t else j1.responseTime) := by
    rw [← hjs]
    split
    · show t - j1.startTime = t
      rw [h1s]
      omega
    · rfl
  have hts : timeSlice 0 1 (rrState a b t nb rest js j2) = 1 := by
    unfold timeSlice
    rw [rr_get1]
    have : vecGet (rrState a b t nb rest js j2).quantumList ((0 : Nat) : Int) = 1 := by
      simp [rrState, vecGet]
    rw [this]
    omega
  rw [hts]
  have hone : (1 : Int).toNat = 1 := rfl
  rw [hone]
  simp only [sliceLoop]
  rw [rr_sliceUnit1 a b t nb rest js j2 (by omega) (by omega) ht hnb, rr_get1]
  have hnb2 : (if t + 1 = nb then wrapInt (nb + b) else nb) ≠ t + 1 ∨
      wrapInt (t + 1 + b) = t + 1 := by
    by_cases hc : t + 1 = nb
    · rw [if_pos hc, ← hc]
      by_cases hc2 : wrapInt (t + 1 + b) = t + 1
      · exact Or.inr hc2
      · exact Or.inl hc2
    · rw [if_neg hc]
      exact Or.inl (fun e => hc e.symm)
  by_cases hfin : j1.remainingTime = 1
  · have h0 : js.remainingTime - 1 = 0 := by omega
    rw [if_pos h0, if_pos hfin]
    simp only []
    unfold finishJob
    rw [rr_onJob1]
    unfold afterSlice
    rw [rr_get1]
    have hn : ¬ (js.remainingTime - 1 > 0) := by omega
    simp only []
    rw [if_neg hn]
    refine ⟨_, _, rfl, hnb2, f1, by show js.remainingTime - 1 = _; omega,
      by show 1 ≤ js.allotLeft; omega, f4, fun _ => rfl, fun hc => absurd hfin hc, f6, f7, f8,
      by omega⟩
  · have h0 : ¬ js.remainingTime - 1 = 0 := by omega
    rw [if_neg h0, if_neg hfin]
    simp only []
    unfold afterSlice
    rw [rr_get1]
    have hn : js.remainingTime - 1 > 0 := by omega
    simp only []
    rw [if_pos hn, rr_onJob1, rr_get1]
    simp only []
    by_cases hall : js.allotLeft - (0 + 1) ≤ 0
    · rw [if_pos hall]
      unfold demoteOrRefresh
      rw [rr_get1]
      have hlt : ¬ (js.currPri < (rrState a b (t + 1) (if t + 1 = nb then wrapInt (nb + b) else nb) rest
          { js with remainingTime := js.remainingTime - 1, allotLeft := js.allotLeft - (0 + 1) }
          j2).hiQueue) := by
        show ¬ (js.currPri < 0)
        omega
      rw [if_neg hlt, rr_onJob1, rr_get1]
      refine ⟨_, { js with remainingTime := js.remainingTime - 1, allotLeft := a }, ?_, hnb2, f1,
        by show js.remainingTime - 1 = _; omega, ha, f4, fun hc => absurd hc hfin, fun _ => f5,
        f6, f7, f8, by omega⟩
      simp [rrState, pushAt, vecGet, f4]
    · rw [if_neg hall, rr_get1]
      refine ⟨_, { js with remainingTime := js.remainingTime - 1, allotLeft := js.allotLeft - (0 + 1) },
        ?_, hnb2, f1, by show js.remainingTime - 1 = _; omega,
        by show 1 ≤ js.allotLeft - (0 + 1); omega, f4, fun hc => absurd hc hfin, fun _ => f5,
        f6, f7, f8, by omega⟩
      simp [rrState, pushAt, f4]

/-- A dispatch of job 2 in the round-robin scenario: one unit of work, then the
job is complete or goes back to the tail of the queue. -/
theorem rr_dispatch2 (a b t nb : Int) (rest : List Int) (j1 j2 : Job) (ht : 0 ≤ t)
    (hnb : t + 1 < 2 ^ 31) (h1s : j1.startTime = 0) (h2s : j2.startTime = 0)
    (hr : 1 ≤ j2.remainingTime) (hal : 1 ≤ j2.allotLeft) (ha : 1 ≤ a) (hp : j2.currPri = 0) :
    ∃ nb2 j, dispatch 0 (rrState a b t nb (2 :: rest) j1 j2)
        = rrState a b (t + 1) nb2 (if j2.remainingTime = 1 then rest else rest ++ [2]) j1 j ∧
      (nb2 ≠ t + 1 ∨ wrapInt (t + 1 + b) = t + 1) ∧ j.startTime = 0 ∧ j.remainingTime = j2.remainingTime - 1 ∧
      1 ≤ j.allotLeft ∧ j.currPri = 0 ∧
      (j2.remainingTime = 1 → j.endTime = t + 1) ∧
      (¬ j2.remainingTime = 1 → j.endTime = j2.endTime) ∧
      j.started = true ∧
      j.firstRun = (if j2.started = false then t else j2.firstRun) ∧
      j.responseTime = (if j2.started = false then t else j2.responseTime) ∧
      (runSlice 0 2 (rrState a b t nb rest j1 j2)).2 = 1 := by
  have hpop : ({ rrState a b t nb (2 :: rest) j1 j2 with
      queues := popAt (rrState a b t nb (2 :: rest) j1 j2).queues 0 } : State)
      = rrState a b t nb rest j1 j2 := by
    simp [rrState, popAt]
  unfold dispatch
  rw [(rr_FindQueue a b t nb 2 rest j1 j2).2.1, hpop]
  unfold runJob runSlice
  simp only []
  rw [rr_onJob2, rr_start2]
  generalize hjs : (if j2.started = false then
      ({ j2 with firstRun := t, responseTime := t - j2.startTime, started := true } : Job)
      else j2) = js
  have f1 : js.startTime = 0 := by rw [← hjs]; split <;> exact h2s
  have f2 : js.remainingTime = j2.remainingTime := by rw [← hjs]; split <;> rfl
  have f3 : js.allotLeft = j2.allotLeft := by rw [← hjs]; split <;> rfl
  have f4 : js.currPri = 0 := by rw [← hjs]; split <;> exact hp
  have f5 : js.endTime = j2.endTime := by rw [← hjs]; split <;> rfl
  have f6 : js.started = true := by
    rw [← hjs]
    split
    · rfl
    · rename_i hc
      simpa using hc
  have f7 : js.firstRun = (if j2.started = false then t else j2.firstRun) := by
    rw [← hjs]; split <;> rfl
  have f8 : js.responseTime = (if j2.started = false then t else j2.responseTime) := by
    rw [← hjs]
    split
    · show t - j2.startTime = t
      rw [h2s]
      omega
    · rfl
  have hts : timeSlice 0 2 (rrState a b t nb rest j1 js) = 1 := by
    unfold timeSlice
    rw [rr_get2]
    have : vecGet (rrState a b t nb rest j1 js).quantumList ((0 : Nat) : Int) = 1 := by
      simp [rrState, vecGet]
    rw [this]
    omega
  rw [hts]
  have hone : (1 : Int).toNat = 1 := rfl
  rw [hone]
  simp only [sliceLoop]
  rw [rr_sliceUnit2 a b t nb rest j1 js (by omega) (by omega) ht hnb, rr_get2]
  have hnb2 : (if t + 1 = nb then wrapInt (nb + b) else nb) ≠ t + 1 ∨
      wrapInt (t + 1 + b) = t + 1 := by
    by_cases hc : t + 1 = nb
    · rw [if_pos hc, ← hc]
      by_cases hc2 : wrapInt (t + 1 + b) = t + 1
      · exact Or.inr hc2
      · exact Or.inl hc2
    · rw [if_neg hc]
      exact Or.inl (fun e => hc e.symm)
  by_cases hfin : j2.remainingTime = 1
  · have h0 : js.remainingTime - 1 = 0 := by omega
    rw [if_pos h0, if_pos hfin]
    simp only []
    unfold finishJob
    rw [rr_onJob2]
    unfold afterSlice
    rw [rr_get2]
    have hn : ¬ (js.remainingTime - 1 > 0) := by omega
    simp only []
    rw [if_neg hn]
    refine ⟨_, _, rfl, hnb2, f1, by show js.remainingTime - 1 = _; omega,
      by show 1 ≤ js.allotLeft; omega, f4, fun _ => rfl, fun hc => absurd hfin hc, f6, f7, f8,
      by omega⟩
  · have h0 : ¬ js.remainingTime - 1 = 0 := by omega
    rw [if_neg h0, if_neg hfin]
    simp only []
    unfold afterSlice
    rw [rr_get2]
    have hn : js.remainingTime - 1 > 0 := by omega
    simp only []
    rw [if_pos hn, rr_onJob2, rr_get2]
    simp only []
    by_cases hall : js.allotLeft - (0 + 1) ≤ 0
    · rw [if_pos hall]
      unfold demoteOrRefresh
      rw [rr_get2]
      have hlt : ¬ (js.currPri < (rrState a b (t + 1) (if t + 1 = nb then wrapInt (nb + b) else nb) rest j1
          { js with remainingTime := js.remainingTime - 1, allotLeft := js.allotLeft - (0 + 1) }
          ).hiQueue) := by
        show ¬ (js.currPri < 0)
        omega
      rw [if_neg hlt, rr_onJob2, rr_get2]
      refine ⟨_, { js with remainingTime := js.remainingTime - 1, allotLeft := a }, ?_, hnb2, f1,
        by show js.remainingTime - 1 = _; omega, ha, f4, fun hc => absurd hc hfin, fun _ => f5,
        f6, f7, f8, by omega⟩
      simp [rrState, pushAt, vecGet, f4]
    · rw [if_neg hall, rr_get2]
      refine ⟨_, { js with remainingTime := js.remainingTime - 1, allotLeft := js.allotLeft - (0 + 1) },
        ?_, hnb2, f1, by show js.remainingTime - 1 = _; omega,
        by show 1 ≤ js.allotLeft - (0 + 1); omega, f4, fun hc => absurd hc hfin, fun _ => f5,
        f6, f7, f8, by omega⟩
      simp [rrState, pushAt, f4]

theorem rr_prepare {a b t : Int} {q : List Int} {r1 r2 : Int} {s : State}
    (h : RRAt a b t q r1 r2 s) (ht : 1 ≤ t) : prepare s = s := by
  obtain ⟨nb, j1, j2, rfl, hnb, h1, _, _, _, h2, _⟩ := h
  have e : (if t = nb then wrapInt (nb + b) else nb) = nb := by
    by_cases hc : t = nb
    · rw [if_pos hc]
      rcases hnb with h3 | h3
      · exact absurd hc.symm h3
      · rw [← hc]
        exact h3
    · rw [if_neg hc]
  unfold prepare
  rw [rr_boostCheck, e]
  exact rr_admit_none _ _ _ _ _ _ _ (by omega) (by omega)

theorem rr_prepare_start (a b : Int) (ha : 1 ≤ a) (hb : 1 ≤ b) :
    RRAt a b 0 [1, 2] 3 2 (prepare (loopStart (rrOptions a b))) ∧
    ((prepare (loopStart (rrOptions a b))).jobs.get 1).started = false ∧
    ((prepare (loopStart (rrOptions a b))).jobs.get 2).started = false := by
  have he : prepare (loopStart (rrOptions a b))
      = rrState a b 0 b [1, 2] { parseJob 1 0 3 with allotLeft := a }
          { parseJob 2 0 2 with allotLeft := a } := by
    rw [rr_loopStart]
    unfold prepare
    rw [rr_boostCheck, if_neg (by omega)]
    simp [admitArrivals, arrivals, rrState, admitJob, parseJob, pushAt, vecGet]
  rw [he, rr_get1, rr_get2]
  exact ⟨⟨b, _, _, rfl, Or.inl (by omega), rfl, rfl, ha, rfl, rfl, rfl, ha, rfl⟩, rfl, rfl⟩

theorem rr_iter_front {a b t : Int} {id : Int} {rest : List Int} {r1 r2 : Int} {s : State}
    (h : RRAt a b t (id :: rest) r1 r2 (prepare s)) :
    loopBody s = (dispatch 0 (prepare s), true) ∧ iterJob s = some id ∧
    iterUnits s
      = (runSlice 0 id { prepare s with queues := popAt (prepare s).queues 0 }).2 := by
  obtain ⟨nb, j1, j2, he, _⟩ := h
  obtain ⟨f1, f2, _⟩ := rr_FindQueue a b t nb id rest j1 j2
  rw [← he] at f1 f2
  unfold loopBody iterJob iterUnits
  simp only []
  rw [f1]
  simp only [Int.toNat_zero]
  rw [f2]
  simp

/-- An iteration of the round-robin scenario that finds job 1 at the front of
the queue. -/
theorem rr_iter1 {a b t : Int} {rest : List Int} {r1 r2 : Int} {s : State}
    (h : RRAt a b t (1 :: rest) r1 r2 (prepare s)) (ha : 1 ≤ a) (_ : 1 ≤ b) (ht : 0 ≤ t)
    (hr : 1 ≤ r1) (hfit : t + 1 < 2 ^ 31) :
    (loopBody s).2 = true ∧
    RRAt a b (t + 1) (if r1 = 1 then rest else rest ++ [1]) (r1 - 1) r2 (loopBody s).1 ∧
    iterJob s = some 1 ∧ iterUnits s = 1 ∧
    (loopBody s).1.jobs.get 2 = (prepare s).jobs.get 2 ∧
    (r1 = 1 → ((loopBody s).1.jobs.get 1).endTime = t + 1) ∧
    (¬ r1 = 1 → ((loopBody s).1.jobs.get 1).endTime = ((prepare s).jobs.get 1).endTime) ∧
    ((loopBody s).1.jobs.get 1).started = true ∧
    ((loopBody s).1.jobs.get 1).responseTime
      = (if ((prepare s).jobs.get 1).started = false then t
         else ((prepare s).jobs.get 1).responseTime) := by
  obtain ⟨e1, e2, e3⟩ := rr_iter_front h
  obtain ⟨nb, j1, j2, he, hnb, a1, a2, a3, a4, b1, b2, b3, b4⟩ := h
  obtain ⟨nb2, j, d1, d2, d3, d4, d5, d6, d7, d8, d9, _, d11, d12⟩ :=
    rr_dispatch1 a b t nb rest j1 j2 ht hfit a1 b1 (by omega) a3 ha a4
  have hpop : ({ rrState a b t nb (1 :: rest) j1 j2 with
      queues := popAt (rrState a b t nb (1 :: rest) j1 j2).queues 0 } : State)
      = rrState a b t nb rest j1 j2 := by
    simp [rrState, popAt]
  rw [he, hpop, d12] at e3
  rw [e1]
  simp only []
  rw [he, d1, rr_get1, rr_get2, rr_get1, rr_get2, a2]
  refine ⟨trivial, ⟨nb2, j, j2, rfl, d2, d3, by omega, d5, d6, b1, b2, b3, b4⟩, e2, e3, rfl, ?_, ?_,
    d9, d11⟩
  · intro hc
    exact d7 (by omega)
  · intro hc
    exact d8 (by omega)

/-- An iteration of the round-robin scenario that finds job 2 at the front of
the queue. -/
theorem rr_iter2 {a b t : Int} {rest : List Int} {r1 r2 : Int} {s : State}
    (h : RRAt a b t (2 :: rest) r1 r2 (prepare s)) (ha : 1 ≤ a) (_ : 1 ≤ b) (ht : 0 ≤ t)
    (hr : 1 ≤ r2) (hfit : t + 1 < 2 ^ 31) :
    (loopBody s).2 = true ∧
    RRAt a b (t + 1) (if r2 = 1 then rest else rest ++ [2]) r1 (r2 - 1) (loopBody s).1 ∧
    iterJob s = some 2 ∧ iterUnits s = 1 ∧
    (loopBody s).1.jobs.get 1 = (prepare s).jobs.get 1 ∧
    (r2 = 1 → ((loopBody s).1.jobs.get 2).endTime = t + 1) ∧
    (¬ r2 = 1 → ((loopBody s).1.jobs.get 2).endTime = ((prepare s).jobs.get 2).endTime) ∧
    ((loopBody s).1.jobs.get 2).started = true ∧
    ((loopBody s).1.jobs.get 2).responseTime
      = (if ((prepare s).jobs.get 2).started = false then t
         else ((prepare s).jobs.get 2).responseTime) := by
  obtain ⟨e1, e2, e3⟩ := rr_iter_front h
  obtain ⟨nb, j1, j2, he, hnb, a1, a2, a3, a4, b1, b2, b3, b4⟩ := h
  obtain ⟨nb2, j, d1, d2, d3, d4, d5, d6, d7, d8, d9, _, d11, d12⟩ :=
    rr_dispatch2 a b t nb rest j1 j2 ht hfit a1 b1 (by omega) b3 ha b4
  have hpop : ({ rrState a b t nb (2 :: rest) j1 j2 with
      queues := popAt (rrState a b t nb (2 :: rest) j1 j2).queues 0 } : State)
      = rrState a b t nb rest j1 j2 := by
    simp [rrState, popAt]
  rw [he, hpop, d12] at e3
  rw [e1]
  simp only []
  rw [he, d1, rr_get1, rr_get2, rr_get1, rr_get2, b2]
  refine ⟨trivial, ⟨nb2, j1, j, rfl, d2, a1, a2, a3, a4, d3, by omega, d5, d6⟩, e2, e3, rfl, ?_, ?_,
    d9, d11⟩
  · intro hc
    exact d7 (by omega)
  · intro hc
    exact d8 (by omega)

/-- The iteration of the round-robin scenario that finds the queue empty and
both jobs done leaves the loop. -/
theorem rr_iter_end {a b t : Int} {s : State} (h : RRAt a b t [] 0 0 (prepare s)) :
    loopBody s = (prepare s, false) ∧ iterJob s = none := by
  obtain ⟨nb, j1, j2, he, _, _, a2, _, _, _, b2, _⟩ := h
  have hf : FindQueue (prepare s) = -1 := by rw [he]; exact rr_FindQueue_nil a b t nb j1 j2
  have hd : allDone (prepare s) = true := by
    rw [he]
    simp [allDone, rrState, a2, b2]
  unfold loopBody iterJob
  simp only []
  rw [hf, hd]
  simp

theorem rr_clock {a b t : Int} {q : List Int} {r1 r2 : Int} {s : State}
    (h : RRAt a b t q r1 r2 s) :
    s.currentTime = t ∧ (s.jobs.get 1).remainingTime = r1 ∧
    (s.jobs.get 2).remainingTime = r2 := by
  obtain ⟨nb, j1, j2, rfl, _, _, a2, _, _, _, b2, _⟩ := h
  rw [rr_get1, rr_get2]
  exact ⟨rfl, a2, b2⟩

/-- An iteration of the round-robin scenario, after the first, that finds job 1
at the front of the queue. -/
theorem rr_next1 {a b t : Int} {rest : List Int} {r1 r2 : Int} {s : State} (t2 r : Int)
    (q : List Int) (h : RRAt a b t (1 :: rest) r1 r2 s) (ha : 1 ≤ a) (hb : 1 ≤ b) (ht : 1 ≤ t)
    (hfit : t + 1 < 2 ^ 31) (hr : 1 ≤ r1) (ht2 : t2 = t + 1) (hr2 : r = r1 - 1)
    (hq : q = if r1 = 1 then rest else rest ++ [1]) :
    ∃ s2, loopBody s = (s2, true) ∧ RRAt a b t2 q r r2 s2 ∧
      iterJob s = some 1 ∧ iterUnits s = 1 ∧ s2.jobs.get 2 = s.jobs.get 2 ∧
      (r1 = 1 → (s2.jobs.get 1).endTime = t2) ∧
      (s2.jobs.get 1).started = true ∧
      ((s.jobs.get 1).started = true →
        (s2.jobs.get 1).responseTime = (s.jobs.get 1).responseTime) := by
  have hp := rr_prepare h ht
  have h2 : RRAt a b t (1 :: rest) r1 r2 (prepare s) := by rw [hp]; exact h
  obtain ⟨c1, c2, c3, c4, c5, c6, _, c8, c9⟩ := rr_iter1 h2 ha hb (by omega) hr hfit
  rw [hp] at c5 c9
  subst ht2 hr2 hq
  refine ⟨(loopBody s).1, Prod.ext rfl c1, c2, c3, c4, c5, c6, c8, ?_⟩
  intro hs
  rw [c9, if_neg (by rw [hs]; simp)]

/-- An iteration of the round-robin scenario, after the first, that finds job 2
at the front of the queue. -/
theorem rr_next2 {a b t : Int} {rest : List Int} {r1 r2 : Int} {s : State} (t2 r : Int)
    (q : List Int) (h : RRAt a b t (2 :: rest) r1 r2 s) (ha : 1 ≤ a) (hb : 1 ≤ b) (ht : 1 ≤ t)
    (hfit : t + 1 < 2 ^ 31) (hr : 1 ≤ r2) (ht2 : t2 = t + 1) (hr2 : r = r2 - 1)
    (hq : q = if r2 = 1 then rest else rest ++ [2]) :
    ∃ s2, loopBody s = (s2, true) ∧ RRAt a b t2 q r1 r s2 ∧
      iterJob s = some 2 ∧ iterUnits s = 1 ∧ s2.jobs.get 1 = s.jobs.get 1 ∧
      (r2 = 1 → (s2.jobs.get 2).endTime = t2) ∧
      (s2.jobs.get 2).started = true ∧
      ((s.jobs.get 2).started = true →
        (s2.jobs.get 2).responseTime = (s.jobs.get 2).responseTime) ∧
      ((s.jobs.get 2).started = false → (s2.jobs.get 2).responseTime = t) := by
  have hp := rr_prepare h ht
  have h2 : RRAt a b t (2 :: rest) r1 r2 (prepare s) := by rw [hp]; exact h
  obtain ⟨c1, c2, c3, c4, c5, c6, _, c8, c9⟩ := rr_iter2 h2 ha hb (by omega) hr hfit
  rw [hp] at c5 c9
  subst ht2 hr2 hq
  refine ⟨(loopBody s).1, Prod.ext rfl c1, c2, c3, c4, c5, c6, c8, ?_, ?_⟩
  · intro hs
    rw [c9, if_neg (by rw [hs]; simp)]
  · intro hs
    rw [c9, if_pos hs]

/-- The first iteration of the round-robin scenario: both jobs are admitted at
clock 0 and job 1 runs for one unit. -/
theorem rr_first (a b : Int) (ha : 1 ≤ a) (hb : 1 ≤ b) :
    ∃ s1, loopBody (loopStart (rrOptions a b)) = (s1, true) ∧ RRAt a b 1 [2, 1] 2 2 s1 ∧
      iterJob (loopStart (rrOptions a b)) = some 1 ∧
      iterUnits (loopStart (rrOptions a b)) = 1 ∧
      (s1.jobs.get 2).started = false ∧ (s1.jobs.get 1).started = true ∧
      (s1.jobs.get 1).responseTime = 0 := by
  obtain ⟨p0, n1, n2⟩ := rr_prepare_start a b ha hb
  obtain ⟨c1, c2, c3, c4, c5, _, _, c8, c9⟩ := rr_iter1 p0 ha hb (le_refl _) (by omega)
    (by omega)
  rw [if_pos n1] at c9
  refine ⟨(loopBody (loopStart (rrOptions a b))).1, Prod.ext rfl c1, ?_, c3, c4, ?_, c8, c9⟩
  · have e : (if (3 : Int) = 1 then [2] else [2] ++ [1]) = ([2, 1] : List Int) := by decide
    rw [e] at c2
    exact c2
  · rw [c5]
    exact n2

/-- The run of the round-robin scenario, iteration by iteration. -/
theorem rr_chain (a b : Int) (ha : 1 ≤ a) (hb : 1 ≤ b) :
    ∃ s1 s2 s3 s4 s5 : State,
      (loopBody (loopStart (rrOptions a b)) = (s1, true) ∧ loopBody s1 = (s2, true) ∧
        loopBody s2 = (s3, true) ∧ loopBody s3 = (s4, true) ∧ loopBody s4 = (s5, true) ∧
        loopBody s5 = (s5, false)) ∧
      (iterJob (loopStart (rrOptions a b)) = some 1 ∧ iterJob s1 = some 2 ∧
        iterJob s2 = some 1 ∧ iterJob s3 = some 2 ∧ iterJob s4 = some 1 ∧ iterJob s5 = none) ∧
      (iterUnits (loopStart (rrOptions a b)) = 1 ∧ iterUnits s1 = 1 ∧ iterUnits s2 = 1 ∧
        iterUnits s3 = 1 ∧ iterUnits s4 = 1) ∧
      (s1.currentTime = 1 ∧ s2.currentTime = 2 ∧ s3.currentTime = 3 ∧ s4.currentTime = 4 ∧
        s5.currentTime = 5) ∧
      ((s3.jobs.get 2).remainingTime = 1 ∧ (s4.jobs.get 2).remainingTime = 0 ∧
        (s4.jobs.get 1).remainingTime = 1 ∧ (s5.jobs.get 1).remainingTime = 0 ∧
        (s5.jobs.get 2).remainingTime = 0) ∧
      (s5.jobs.get 1).endTime = 5 ∧ (s5.jobs.get 2).endTime = 4 ∧
      (s5.jobs.get 1).responseTime = 0 ∧ (s5.jobs.get 2).responseTime = 1 := by
  obtain ⟨s1, l0, h1, j0, u0, n2, st1, rs1⟩ := rr_first a b ha hb
  obtain ⟨s2, l1, h2, j1, u1, o1, _, st2, _, rs2⟩ :=
    rr_next2 2 1 [1, 2] h1 ha hb (by omega) (by omega) (by omega) (by omega) (by omega) (by decide)
  obtain ⟨s3, l2, h3, j2, u2, o2, _, st3, rs3⟩ :=
    rr_next1 3 1 [2, 1] h2 ha hb (by omega) (by omega) (by omega) (by omega) (by omega) (by decide)
  obtain ⟨s4, l3, h4, j3, u3, o3, e4, st4, rs4, _⟩ :=
    rr_next2 4 0 [1] h3 ha hb (by omega) (by omega) (by omega) (by omega) (by omega) (by decide)
  obtain ⟨s5, l4, h5, j4, u4, o4, e5, st5, rs5⟩ :=
    rr_next1 5 0 [] h4 ha hb (by omega) (by omega) (by omega) (by omega) (by omega) (by decide)
  have q5 := rr_prepare h5 (by omega)
  have p5 : RRAt a b 5 [] 0 0 (prepare s5) := by rw [q5]; exact h5
  obtain ⟨l5, j5⟩ := rr_iter_end p5
  rw [q5] at l5
  refine ⟨s1, s2, s3, s4, s5, ⟨l0, l1, l2, l3, l4, l5⟩, ⟨j0, j1, j2, j3, j4, j5⟩,
    ⟨u0, u1, u2, u3, u4⟩,
    ⟨(rr_clock h1).1, (rr_clock h2).1, (rr_clock h3).1, (rr_clock h4).1, (rr_clock h5).1⟩,
    ⟨(rr_clock h3).2.2, (rr_clock h4).2.2, (rr_clock h4).2.1, (rr_clock h5).2.1,
      (rr_clock h5).2.2⟩, e5 rfl, ?_, ?_, ?_⟩
  · rw [o4]
    exact e4 rfl
  · rw [rs5 (by rw [o3]; exact st3), o3, rs3 (by rw [o1]; exact st1), o1]
    exact rs1
  · rw [o4, rs4 (by rw [o2]; exact st2), o2]
    exact rs2 n2

theorem stateAfter_true (n : Nat) (s s1 : State) (h : loopBody s = (s1, true)) :
    stateAfter (n + 1) s = stateAfter n s1 := by
  simp only [stateAfter, h]

theorem runLoop_true (n : Nat) (s s1 : State) (h : loopBody s = (s1, true)) :
    runLoop (n + 1) s = runLoop n s1 := by
  simp only [runLoop, h]

theorem runLoop_false (n : Nat) (s s1 : State) (h : loopBody s = (s1, false)) :
    runLoop (n + 1) s = some s1 := by
  simp only [runLoop, h]

/-- C11. With 1 level, quantum 1, any allotment `a >= 1`, any boost interval
`b >= 1`, and jobs 1 and 2 arriving at 0 with 3 and 2 units of work, the
simulation ends after six iterations of its loop; the iterations that start at
clocks 0, 1, 2, 3, 4 dispatch the jobs 1, 2, 1, 2, 1 for one unit each, the sixth
dispatches nothing; job 2 has its last unit left at clock 3 and none at clock
4, its `endTime`; job 1 has its last unit left at clock 4 and none at clock 5,
its `endTime`; and the final clock is 5. -/
theorem round_robin_completion (a b : Int) (ha : 1 ≤ a) (hb : 1 ≤ b) :
    ∃ final, main 6 (rrOptions a b) = some final ∧
      (∀ fuel r, main fuel (rrOptions a b) = some r → r = final) ∧
      (List.range 6).map (fun n => iterJob (stateAfter n (loopStart (rrOptions a b))))
        = [some 1, some 2, some 1, some 2, some 1, none] ∧
      (List.range 5).map (fun n => iterUnits (stateAfter n (loopStart (rrOptions a b))))
        = [1, 1, 1, 1, 1] ∧
      (List.range 6).map (fun n => (stateAfter n (loopStart (rrOptions a b))).currentTime)
        = [0, 1, 2, 3, 4, 5] ∧
      (((stateAfter 3 (loopStart (rrOptions a b))).jobs.get 2).remainingTime = 1 ∧
        ((stateAfter 4 (loopStart (rrOptions a b))).jobs.get 2).remainingTime = 0 ∧
        ((stateAfter 4 (loopStart (rrOptions a b))).jobs.get 1).remainingTime = 1 ∧
        ((stateAfter 5 (loopStart (rrOptions a b))).jobs.get 1).remainingTime = 0) ∧
      stateAfter 5 (loopStart (rrOptions a b)) = final ∧
      (final.jobs.get 1).endTime = 5 ∧ (final.jobs.get 2).endTime = 4 ∧
      final.currentTime = 5 := by
  obtain ⟨s1, s2, s3, s4, s5, ⟨l0, l1, l2, l3, l4, l5⟩, ⟨j0, j1, j2, j3, j4, j5⟩,
    ⟨u0, u1, u2, u3, u4⟩, ⟨c1, c2, c3, c4, c5⟩, ⟨r1, r2, r3, r4, _⟩, e1, e2, _, _⟩ :=
    rr_chain a b ha hb
  have t0 : stateAfter 0 (loopStart (rrOptions a b)) = loopStart (rrOptions a b) := rfl
  have t1 : stateAfter 1 (loopStart (rrOptions a b)) = s1 := by
    rw [stateAfter_true 0 _ _ l0]; rfl
  have t2 : stateAfter 2 (loopStart (rrOptions a b)) = s2 := by
    rw [stateAfter_true 1 _ _ l0, stateAfter_true 0 _ _ l1]; rfl
  have t3 : stateAfter 3 (loopStart (rrOptions a b)) = s3 := by
    rw [stateAfter_true 2 _ _ l0, stateAfter_true 1 _ _ l1, stateAfter_true 0 _ _ l2]; rfl
  have t4 : stateAfter 4 (loopStart (rrOptions a b)) = s4 := by
    rw [stateAfter_true 3 _ _ l0, stateAfter_true 2 _ _ l1, stateAfter_true 1 _ _ l2,
      stateAfter_true 0 _ _ l3]; rfl
  have t5 : stateAfter 5 (loopStart (rrOptions a b)) = s5 := by
    rw [stateAfter_true 4 _ _ l0, stateAfter_true 3 _ _ l1, stateAfter_true 2 _ _ l2,
      stateAfter_true 1 _ _ l3, stateAfter_true 0 _ _ l4]; rfl
  have hrun : main 6 (rrOptions a b) = some s5 := by
    rw [main_eq_runLoop, runLoop_true 5 _ _ l0, runLoop_true 4 _ _ l1, runLoop_true 3 _ _ l2,
      runLoop_true 2 _ _ l3, runLoop_true 1 _ _ l4, runLoop_false 0 _ _ l5]
  have hc0 : (loopStart (rrOptions a b)).currentTime = 0 := (loopStart_eq _).2.2.2.2.2.1
  have hr6 : List.range 6 = [0, 1, 2, 3, 4, 5] := by decide
  have hr5 : List.range 5 = [0, 1, 2, 3, 4] := by decide
  refine ⟨s5, hrun, ?_, ?_, ?_, ?_, ⟨by rw [t3]; exact r1, by rw [t4]; exact r2,
    by rw [t4]; exact r3, by rw [t5]; exact r4⟩, t5, e1, e2, c5⟩
  · intro fuel r hr
    exact runLoop_unique fuel 6 _ r s5 hr hrun
  · rw [hr6]
    simp only [List.map, t0, t1, t2, t3, t4, t5, j0, j1, j2, j3, j4, j5]
  · rw [hr5]
    simp only [List.map, t0, t1, t2, t3, t4, u0, u1, u2, u3, u4]
  · rw [hr6]
    simp only [List.map, t0, t1, t2, t3, t4, t5, hc0, c1, c2, c3, c4, c5]

set_option maxRecDepth 100000 in
/-- Witness for C11: the run `-n 1 -Q 1 -A 100 -b 20 -j "1,0,3;2,0,2"` ends at
clock 5 with completion times 5 for job 1 and 4 for job 2. -/
theorem round_robin_completion_witness :
    ((1 : Int) ≤ 100 ∧ (1 : Int) ≤ 20) ∧
    (main 6 (rrOptions 100 20)).map
        (fun s => (s.currentTime, s.jobs.map (fun p => (p.1, p.2.endTime))))
      = some (5, [(1, 5), (2, 4)]) ∧
    ∃ final, main 6 (rrOptions 100 20) = some final ∧ final.currentTime = 5 := by
  obtain ⟨final, h1, _, _, _, _, _, _, _, _, h2⟩ :=
    round_robin_completion 100 20 (by decide) (by decide)
  exact ⟨⟨by decide, by decide⟩, by decide, final, h1, h2⟩

set_option maxRecDepth 100000 in
/-- Counterexample to C12: in the run `-n 1 -Q 1 -A 100 -b 20 -j "1,0,3;2,0,2"`
job 1 is first dispatched at clock 0 and job 2 at clock 1, so the response times
at the end are 0 and 1, not 0 and 0. -/
theorem round_robin_response_not_zero :
    (main 6 (rrOptions 100 20)).map
        (fun s => s.jobs.map (fun p => (p.1, p.2.startTime, p.2.firstRun, p.2.responseTime)))
      = some [(1, 0, 0, 0), (2, 0, 1, 1)] ∧
    ¬ ∃ final, main 6 (rrOptions 100 20) = some final ∧
      (final.jobs.get 1).responseTime = 0 ∧ (final.jobs.get 2).responseTime = 0 := by
  refine ⟨by decide, ?_⟩
  rintro ⟨final, h, _, h2⟩
  have hm : (main 6 (rrOptions 100 20)).map (fun s => (s.jobs.get 2).responseTime) = some 1 := by
    decide
  rw [h] at hm
  simp only [Option.map_some', Option.some.injEq] at hm
  omega

/-- C12, amended. With 1 level, quantum 1, any allotment `a >= 1`, any boost
interval `b >= 1`, and jobs 1 and 2 arriving at 0 with 3 and 2 units of work, the
simulation ends, and at its end job 1 has response time 0 and job 2 has
response time 1: job 2 waits one unit while job 1 runs first. -/
theorem round_robin_response (a b : Int) (ha : 1 ≤ a) (hb : 1 ≤ b) :
    ∃ final, main 6 (rrOptions a b) = some final ∧
      (∀ fuel r, main fuel (rrOptions a b) = some r → r = final) ∧
      (final.jobs.get 1).responseTime = 0 ∧ (final.jobs.get 2).responseTime = 1 := by
  obtain ⟨s1, s2, s3, s4, s5, ⟨l0, l1, l2, l3, l4, l5⟩, _, _, _, _, _, _, e3, e4⟩ :=
    rr_chain a b ha hb
  have hrun : main 6 (rrOptions a b) = some s5 := by
    rw [main_eq_runLoop, runLoop_true 5 _ _ l0, runLoop_true 4 _ _ l1, runLoop_true 3 _ _ l2,
      runLoop_true 2 _ _ l3, runLoop_true 1 _ _ l4, runLoop_false 0 _ _ l5]
  exact ⟨s5, hrun, fun fuel r hr => runLoop_unique fuel 6 _ r s5 hr hrun, e3, e4⟩

set_option maxRecDepth 100000 in
/-- Witness for the amended C12: the run `-n 1 -Q 1 -A 100 -b 20 -j "1,0,3;2,0,2"`
ends with response times 0 and 1. -/
theorem round_robin_response_witness :
    ((1 : Int) ≤ 100 ∧ (1 : Int) ≤ 20) ∧
    (main 6 (rrOptions 100 20)).map (fun s => s.jobs.map (fun p => (p.1, p.2.responseTime)))
      = some [(1, 0), (2, 1)] ∧
    ∃ final, main 6 (rrOptions 100 20) = some final ∧
      (final.jobs.get 1).responseTime = 0 ∧ (final.jobs.get 2).responseTime = 1 := by
  obtain ⟨final, h1, _, h2, h3⟩ := round_robin_response 100 20 (by decide) (by decide)
  exact ⟨⟨by decide, by decide⟩, by decide, final, h1, h2, h3⟩

end MLFQ
